import Mathlib

/-!
Verification of the FM-index core of `humdum/index/wt.py` (class `WaveletTree`):
suffix-array construction, Burrows-Wheeler transform, wavelet-tree rank/access,
sampled suffix array with LF-walk recovery, and the reverse transform.

The Python code is shallowly embedded: every function of the source is
translated into an executable Lean definition over `List`; Python `int`
arithmetic is modelled by `Nat` (or `Int` where values can be negative),
dictionaries by functions, and fallible operations by `Except`.
-/

set_option maxHeartbeats 1000000

namespace Humdum

/-- Alphabet of the index: `$ < A < C < G < N < T` (the ASCII order used by
Python string comparison restricted to these six characters). -/
inductive Sym : Type where
  | dollar : Sym
  | A : Sym
  | C : Sym
  | G : Sym
  | N : Sym
  | T : Sym
deriving DecidableEq, Repr, Fintype

/-- Numeric code of a symbol, compatible with the ASCII order. -/
def Sym.toNat : Sym → Nat
  | .dollar => 0
  | .A => 1
  | .C => 2
  | .G => 3
  | .N => 4
  | .T => 5

theorem Sym.toNat_injective : Function.Injective Sym.toNat := by
  intro a b h
  cases a <;> cases b <;> simp_all [Sym.toNat]

instance : LinearOrder Sym :=
  LinearOrder.lift' Sym.toNat Sym.toNat_injective

theorem Sym.lt_iff {a b : Sym} : a < b ↔ a.toNat < b.toNat := Iff.rfl

/-- Decoding of an input byte, as in the dictionaries of the source
(`str_to_int`, the keys of `count` in `sort_chars`, the keys of `shifts`). -/
def charToSym (c : Char) : Option Sym :=
  if c = '$' then some Sym.dollar
  else if c = 'A' then some Sym.A
  else if c = 'C' then some Sym.C
  else if c = 'G' then some Sym.G
  else if c = 'N' then some Sym.N
  else if c = 'T' then some Sym.T
  else none

/-- Number of occurrences of a symbol in a list (naive count). -/
def occCount (c : Sym) (l : List Sym) : Nat :=
  l.countP (fun x => decide (x = c))

/-- Structural floor of the base-2 logarithm, with `ilog2Aux fuel n`;
models Python `int(np.log2(n))` for `n ≥ 1`. -/
def ilog2Aux : Nat → Nat → Nat
  | 0, _ => 0
  | fuel + 1, n => if n ≤ 1 then 0 else ilog2Aux fuel (n / 2) + 1

/-- Models `int(np.log2(n))` for `n ≥ 1` (floor of log2). -/
def ilog2 (n : Nat) : Nat := ilog2Aux n n

/-- Bucket construction loop shared by `create_bit_vecs` (per node) and by
`suffix_array` (for the sampling bitmap): running rank over the bits, with an
entry appended at every index `idx > 0` with `idx % step == 0`.
`bucketAux step l idx rank` processes the bits `l` that sit at global
positions `idx, idx+1, ...`, `rank` being the number of ones before `idx`. -/
def bucketAux (step : Nat) : List Bool → Nat → Nat → List Nat
  | [], _, _ => []
  | b :: t, idx, rank =>
    let rank2 := rank + (cond b 1 0)
    if 0 < idx ∧ idx % step = 0 then rank2 :: bucketAux step t (idx + 1) rank2
    else bucketAux step t (idx + 1) rank2

/-- The full bucket array of a bit vector: seeded with `B[0]`
(`bucket = [bit_vec[0]]` in the source), then the appends of the loop. -/
def buildBucket (B : List Bool) (step : Nat) : List Nat :=
  match B with
  | [] => []
  | b :: _ => (cond b 1 0) :: bucketAux step B 0 0

/-! ### Suffix-array builders -/

/-- Comparison used by Python `sorted` on the pairs `(reference[i:], i)`:
lexicographic on the pair (suffix compared as a string, then index). -/
def suffixPairLe (a b : List Sym × Nat) : Prop :=
  a.1 < b.1 ∨ (a.1 = b.1 ∧ a.2 ≤ b.2)

instance : DecidableRel suffixPairLe := by
  intro a b
  unfold suffixPairLe
  infer_instance

/-- `WaveletTree.suffix_array_simple`: sort the pairs `(reference[i:], i)` and
return the offsets.  Python `sorted` computes the unique permutation ordered by
the total order `suffixPairLe`; `insertionSort` computes the same list. -/
def suffix_array_simple (r : List Sym) : List Nat :=
  ((List.insertionSort suffixPairLe
      ((List.range r.length).map (fun i => (r.drop i, i)))).map Prod.snd)

/-- Iterates `i = hi-1, hi-2, ..., 0`, as Python `for i in range(hi-1, -1, -1)`. -/
def downFold {σ : Type} (f : Nat → σ → σ) : Nat → σ → σ
  | 0, s => s
  | i + 1, s => downFold f i (f i s)

/-- The counting sort `sort_chars` of `suffix_array_manbermyers`: cumulative
symbol counts, then a backward placement loop mutating the count table. -/
def sortCharsLoop (r : List Sym) : Nat → (Sym → Nat) → List Nat → List Nat
  | 0, _, order => order
  | i + 1, count, order =>
    let c := r.getD i Sym.dollar
    let cnt2 := count c - 1
    sortCharsLoop r i (fun x => if x = c then cnt2 else count x) (order.set cnt2 i)

/-- Cumulative counts as left by the first two loops of `sort_chars`:
`count[c]` becomes the number of positions holding a symbol `≤ c`. -/
def cumCount (r : List Sym) : Sym → Nat :=
  fun c =>
    match c with
    | .dollar => occCount .dollar r
    | .A => occCount .dollar r + occCount .A r
    | .C => occCount .dollar r + occCount .A r + occCount .C r
    | .G => occCount .dollar r + occCount .A r + occCount .C r + occCount .G r
    | .N => occCount .dollar r + occCount .A r + occCount .C r + occCount .G r
        + occCount .N r
    | .T => occCount .dollar r + occCount .A r + occCount .C r + occCount .G r
        + occCount .N r + occCount .T r

/-- `sort_chars(reference_genome)` of the source. -/
def sortChars (r : List Sym) : List Nat :=
  sortCharsLoop r r.length (cumCount r) (List.replicate r.length 0)

/-- `compute_classes(reference_genome, order)` of the source. -/
def compute_classes (r : List Sym) (order : List Nat) : List Nat :=
  let n := r.length
  let classes0 := (List.replicate n 0).set (order.getD 0 0) 0
  (List.range' 1 (n - 1)).foldl
    (fun classes i =>
      let cur := order.getD i 0
      let prev := order.getD (i - 1) 0
      let v :=
        if r.getD cur Sym.dollar ≠ r.getD prev Sym.dollar then classes.getD prev 0 + 1
        else classes.getD prev 0
      classes.set cur v)
    classes0

/-- `sort_doubled(reference_genome, step, order, classes)` of the source.
`(order[i] - step + n) % n` is written `(order[i] + n - step) % n`, the same
integer since `step < n ≤ order[i] + n`. -/
def sort_doubled (r : List Sym) (step : Nat) (order classes : List Nat) : List Nat :=
  let n := r.length
  let count1 :=
    (List.range n).foldl
      (fun cnt i =>
        let cl := classes.getD i 0
        cnt.set cl (cnt.getD cl 0 + 1))
      (List.replicate n 0)
  let count2 :=
    (List.range' 1 (n - 1)).foldl
      (fun cnt j => cnt.set j (cnt.getD j 0 + cnt.getD (j - 1) 0)) count1
  (downFold
    (fun i (s : List Nat × List Nat) =>
      let start := (order.getD i 0 + n - step) % n
      let cl := classes.getD start 0
      let c2 := s.1.getD cl 0 - 1
      (s.1.set cl c2, s.2.set c2 start))
    n (count2, List.replicate n 0)).2

/-- `updated_classes(order, classes, step)` of the source.  The read
`classes[mid]` is total here (`getD`); in Python it is reached only when
`classes[cur] == classes[prev]`, in which case `mid < n` (the `or` in the
source short-circuits), so the two agree on all executed paths. -/
def updated_classes (order classes : List Nat) (step : Nat) : List Nat :=
  let n := order.length
  let new0 := (List.replicate n 0).set (order.getD 0 0) 0
  (List.range' 1 (n - 1)).foldl
    (fun newClasses i =>
      let cur := order.getD i 0
      let prev := order.getD (i - 1) 0
      let mid := cur + step
      let mid_prev := (prev + step) % n
      let v :=
        if classes.getD cur 0 ≠ classes.getD prev 0
            ∨ classes.getD mid 0 ≠ classes.getD mid_prev 0 then
          newClasses.getD prev 0 + 1
        else newClasses.getD prev 0
      newClasses.set cur v)
    new0

/-- The `while step < n` doubling loop of `suffix_array_manbermyers`;
`fuel = n` covers every run since `2 ^ n > n`. -/
def mmLoop (r : List Sym) (n : Nat) : Nat → Nat → List Nat → List Nat → List Nat
  | 0, _, order, _ => order
  | fuel + 1, step, order, classes =>
    if step < n then
      let order2 := sort_doubled r step order classes
      let classes2 := updated_classes order2 classes step
      mmLoop r n fuel (step * 2) order2 classes2
    else order

/-- `WaveletTree.suffix_array_manbermyers`. -/
def suffix_array_manbermyers (r : List Sym) : List Nat :=
  let order := sortChars r
  let classes := compute_classes r order
  mmLoop r r.length r.length 1 order classes

/-! ### Kaerkkaeinen-Sanders (DC3) builder -/

/-- The `to_int` helper of `suffix_array_kaerkkaeinensanders`:
`$ = 1, A = 2, C = 3, G = 4, N = 5, T = 6`. -/
def to_int (r : List Sym) : List Nat := r.map (fun c => c.toNat + 1)

/-- `leq2` of the source. -/
def leq2 (a1 a2 b1 b2 : Nat) : Bool :=
  a1 < b1 || (a1 = b1 && a2 ≤ b2)

/-- `leq3` of the source. -/
def leq3 (a1 a2 a3 b1 b2 b3 : Nat) : Bool :=
  a1 < b1 || (a1 = b1 && leq2 a2 a3 b2 b3)

/-- `radix_pass(a, r, len_a, len_k)` of the source: counting sort of the first
`len_a` entries of `a` keyed by `r`. -/
def radix_pass (a r : List Nat) (len_a len_k : Nat) : List Nat :=
  let c :=
    (List.range len_a).foldl
      (fun c i =>
        let key := r.getD (a.getD i 0) 0
        c.set key (c.getD key 0 + 1))
      (List.replicate (len_k + 1) 0)
  let c2 :=
    ((List.range (len_k + 1)).foldl
      (fun (s : List Nat × Nat) i =>
        let t := s.1.getD i 0
        (s.1.set i s.2, s.2 + t))
      (c, 0)).1
  ((List.range len_a).foldl
    (fun (s : List Nat × List Nat) i =>
      let key := r.getD (a.getD i 0) 0
      let pos := s.2.getD key 0
      (s.1.set pos (a.getD i 0), s.2.set key (pos + 1)))
    (List.replicate len_a 0, c2)).1

/-- One triple of the naming loop of DC3 (fold state:
`(name, c0, c1, c2, s12)`; the sentinels `c0,c1,c2` start at `-1`). -/
def ksNameStep (s sa12 : List Nat) (n0 : Nat)
    (st : Nat × Int × Int × Int × List Nat) (i : Nat) :
    Nat × Int × Int × Int × List Nat :=
  let pos := sa12.getD i 0
  let v0 : Int := s.getD pos 0
  let v1 : Int := s.getD (pos + 1) 0
  let v2 : Int := s.getD (pos + 2) 0
  let upd := v0 ≠ st.2.1 ∨ v1 ≠ st.2.2.1 ∨ v2 ≠ st.2.2.2.1
  let name := if upd then st.1 + 1 else st.1
  let c0 := if upd then v0 else st.2.1
  let c1 := if upd then v1 else st.2.2.1
  let c2 := if upd then v2 else st.2.2.2.1
  let s12 := st.2.2.2.2
  let s12 :=
    if pos % 3 = 1 then s12.set (pos / 3) name
    else s12.set (pos / 3 + n0) name
  (name, c0, c1, c2, s12)

/-- The merge of DC3 (`while k < n`), as fuel recursion; each outer iteration
advances `k`, so `fuel = n` suffices.  The two inner flush loops are the folds
over `range' p (n0 - p)` and `range' t (n02 - t)`. -/
def ksMergeLoop (s s12 sa12 sa0 : List Nat) (n n0 n02 : Nat) :
    Nat → Nat → Nat → Nat → List Nat → List Nat
  | 0, _, _, _, sa => sa
  | fuel + 1, p, t, k, sa =>
    if k < n then
      let st := sa12.getD t 0
      let i := if st < n0 then st * 3 + 1 else (st - n0) * 3 + 2
      let j := sa0.getD p 0
      let cond :=
        if st < n0 then
          leq2 (s.getD i 0) (s12.getD (st + n0) 0) (s.getD j 0) (s12.getD (j / 3) 0)
        else
          leq3 (s.getD i 0) (s.getD (i + 1) 0) (s12.getD (st - n0 + 1) 0)
            (s.getD j 0) (s.getD (j + 1) 0) (s12.getD (j / 3 + n0) 0)
      if cond then
        let sa1 := sa.set k i
        let t1 := t + 1
        if t1 = n02 then
          let res :=
            (List.range' p (n0 - p)).foldl
              (fun (st2 : List Nat × Nat) q => (st2.1.set st2.2 (sa0.getD q 0), st2.2 + 1))
              (sa1, k + 1)
          ksMergeLoop s s12 sa12 sa0 n n0 n02 fuel n0 t1 (res.2 + 1) res.1
        else ksMergeLoop s s12 sa12 sa0 n n0 n02 fuel p t1 (k + 1) sa1
      else
        let sa1 := sa.set k j
        let p1 := p + 1
        if p1 = n0 then
          let res :=
            (List.range' t (n02 - t)).foldl
              (fun (st2 : List Nat × Nat) q =>
                let sq := sa12.getD q 0
                let enc := if sq < n0 then sq * 3 + 1 else (sq - n0) * 3 + 2
                (st2.1.set st2.2 enc, st2.2 + 1))
              (sa1, k + 1)
          ksMergeLoop s s12 sa12 sa0 n n0 n02 fuel p1 n02 (res.2 + 1) res.1
        else ksMergeLoop s s12 sa12 sa0 n n0 n02 fuel p1 t (k + 1) sa1
    else sa

/-- Body of `suffix_array_kaerkkaeinensanders` on an integer string `s`
(already padded with three zeros); `fuel` bounds the recursion depth
(`n02 < n` for `n ≥ 2`, so `fuel = n` suffices). -/
def saKS (fuel : Nat) (s : List Nat) (n k : Nat) : List Nat :=
  match fuel with
  | 0 => []
  | fuel + 1 =>
    let n0 := (n + 2) / 3
    let n1 := (n + 1) / 3
    let n2 := n / 3
    let n02 := n0 + n2
    let mult := (List.range (n + n0 - n1)).filter (fun i => decide (i % 3 ≠ 0))
    let s12 := mult ++ List.replicate (n02 + 3 - mult.length) 0
    let sa12a := radix_pass s12 (s.drop 2) n02 k ++ [0, 0, 0]
    let s12b := radix_pass sa12a (s.drop 1) n02 k ++ [0, 0, 0]
    let sa12b := radix_pass s12b s n02 k ++ [0, 0, 0]
    let named :=
      (List.range n02).foldl (ksNameStep s sa12b n0) (0, -1, -1, -1, s12b)
    let name := named.1
    let s12c := named.2.2.2.2
    let pair :=
      if name < n02 then
        let rec12 := saKS fuel s12c n02 name
        (rec12,
          (List.range n02).foldl
            (fun s12d i => s12d.set (rec12.getD i 0) (i + 1)) s12c)
      else
        ((List.range n02).foldl
            (fun sa12c i => sa12c.set (s12c.getD i 0 - 1) i) sa12b,
          s12c)
    let sa12 := pair.1
    let s12f := pair.2
    let s0list :=
      ((List.range n02).filter (fun i => decide (sa12.getD i 0 < n0))).map
        (fun i => 3 * (sa12.getD i 0))
    let s0 := s0list ++ List.replicate (n0 - s0list.length) 0
    let sa0 := radix_pass s0 s n0 k
    ksMergeLoop s s12f sa12 sa0 n n0 n02 (n + 1) 0 (n0 - n1) 0
      (List.replicate n 0)

/-- `WaveletTree.suffix_array_kaerkkaeinensanders(reference_genome, n, 6)` on a
symbol string: conversion by `to_int`, padding with three zeros, then the
integer body. -/
def suffix_array_kaerkkaeinensanders (r : List Sym) : List Nat :=
  saKS (r.length + 1) (to_int r ++ [0, 0, 0]) r.length 6

/-! ### BWT, C-table, wavelet-tree bit vectors -/

/-- The character the BWT row `w` contributes: `'$'` if `w = 0` else
`reference[w - 1]`. -/
def bwtChar (r : List Sym) (w : Nat) : Sym :=
  if w = 0 then Sym.dollar else r.getD (w - 1) Sym.dollar

/-- `WaveletTree.get_bwt`: `BWT[i] = '$'` if `SA[i] = 0` else
`reference[SA[i] - 1]`. -/
def get_bwt (r : List Sym) (sa : List Nat) : List Sym :=
  sa.map (bwtChar r)

/-- The BWT of the reference, through the Simple builder. -/
def bwtOf (r : List Sym) : List Sym :=
  get_bwt r (suffix_array_simple r)

/-- `WaveletTree._shifts_f`: cumulative character frequencies in the order
`$ < A < C < G < N < T`; `shifts['$']` is reset to `0`.  (The extra entry
`shifts[None] = len(reference_genome)` is not used by any embedded query.) -/
def shifts_f (r : List Sym) : Sym → Nat :=
  let count_a := occCount .dollar r
  let count_c := count_a + occCount .A r
  let count_g := count_c + occCount .C r
  let count_n := count_g + occCount .G r
  let count_t := count_n + occCount .N r
  fun c =>
    match c with
    | .dollar => 0
    | .A => count_a
    | .C => count_c
    | .G => count_g
    | .N => count_n
    | .T => count_t

/-- Bit emitted at node 0: `0 if char == 'N' or char == 'A' else 1`. -/
def bitf0 (c : Sym) : Bool := if c = Sym.N ∨ c = Sym.A then false else true

/-- Membership test of the left subsequence (`char == 'N' or char == 'A'`). -/
def keepNA (c : Sym) : Bool := decide (c = Sym.N ∨ c = Sym.A)

/-- Bit emitted at node 1: `0 if char == 'N' else 1`. -/
def bitf1 (c : Sym) : Bool := if c = Sym.N then false else true

/-- Bit emitted at node 2: `0 if char == 'C' or char == 'G' else 1`. -/
def bitf2 (c : Sym) : Bool := if c = Sym.C ∨ c = Sym.G then false else true

/-- Membership test `char == 'C' or char == 'G'`. -/
def keepCG (c : Sym) : Bool := decide (c = Sym.C ∨ c = Sym.G)

/-- Membership test `char == 'T' or char == '$'`. -/
def keepTD (c : Sym) : Bool := decide (c = Sym.T ∨ c = Sym.dollar)

/-- Bit emitted at node 3: `0 if char == 'C' else 1`. -/
def bitf3 (c : Sym) : Bool := if c = Sym.C then false else true

/-- Bit emitted at node 4: `0 if char == 'T' else 1`. -/
def bitf4 (c : Sym) : Bool := if c = Sym.T then false else true

/-- `WaveletTree.create_bit_vecs(lbwt)`: the five node bit vectors, their
bucket arrays, and the bucket strides.  Node 0 uses stride
`int(np.log2(len))`; nodes 1-4 use `int(max(np.log2(len), 1))` guarded by
emptiness of the node. -/
def create_bit_vecs (lbwt : List Sym) :
    List (List Bool) × List (List Nat) × List Nat :=
  let bit_vec0 := lbwt.map bitf0
  let bucket0_step := ilog2 bit_vec0.length
  let bucket0 := buildBucket bit_vec0 bucket0_step
  let rbwt := lbwt.filter (fun c => !(keepNA c))
  let lbwt1 := lbwt.filter keepNA
  let bit_vec1 := lbwt1.map bitf1
  let bit_vec2 := rbwt.map bitf2
  let bucket1_step := if 0 < bit_vec1.length then max (ilog2 bit_vec1.length) 1 else 0
  let bucket1 := if 0 < bit_vec1.length then buildBucket bit_vec1 bucket1_step else []
  let bucket2_step := if 0 < bit_vec2.length then max (ilog2 bit_vec2.length) 1 else 0
  let bucket2 := if 0 < bit_vec2.length then buildBucket bit_vec2 bucket2_step else []
  let lbwt2 := rbwt.filter keepCG
  let rbwt2 := rbwt.filter keepTD
  let bit_vec3 := lbwt2.map bitf3
  let bit_vec4 := rbwt2.map bitf4
  let bucket3_step := if 0 < bit_vec3.length then max (ilog2 bit_vec3.length) 1 else 0
  let bucket3 := if 0 < bit_vec3.length then buildBucket bit_vec3 bucket3_step else []
  let bucket4_step := if 0 < bit_vec4.length then max (ilog2 bit_vec4.length) 1 else 0
  let bucket4 := if 0 < bit_vec4.length then buildBucket bit_vec4 bucket4_step else []
  ([bit_vec0, bit_vec1, bit_vec2, bit_vec3, bit_vec4],
    [bucket0, bucket1, bucket2, bucket3, bucket4],
    [bucket0_step, bucket1_step, bucket2_step, bucket3_step, bucket4_step])

/-! ### The index object -/

/-- SA construction strategies of the source. -/
inductive Strategy : Type where
  | KaerkkaeinenSanders : Strategy
  | ManberMyers : Strategy
  | Simple : Strategy
deriving DecidableEq, Repr

/-- The suffix array of the selected strategy. -/
def saOf (strategy : Strategy) (r : List Sym) : List Nat :=
  match strategy with
  | .Simple => suffix_array_simple r
  | .ManberMyers => suffix_array_manbermyers r
  | .KaerkkaeinenSanders => suffix_array_kaerkkaeinensanders r

/-- The compression loop of `WaveletTree.suffix_array` (state processed in
index order: the retained entries, the bits, and the bucket appends). -/
def saCompLoop (comp step : Nat) : List Nat → Nat → Nat → List Nat × List Bool × List Nat
  | [], _, _ => ([], [], [])
  | num :: t, idx, rank =>
    let mark := decide (num % comp = 0)
    let rank2 := if mark then rank + 1 else rank
    let rest := saCompLoop comp step t (idx + 1) rank2
    (if mark then num :: rest.1 else rest.1,
      mark :: rest.2.1,
      if 0 < idx ∧ idx % step = 0 then rank2 :: rest.2.2 else rest.2.2)

/-- `WaveletTree.suffix_array(reference_genome, strategy, compression)`:
returns `(sa, bitvector, bucket, bwt)`; when `compression_sa = 1` the full SA
is returned with no bitmap.  The bucket is seeded with the Boolean
`suffix_array[0] % compression == 0` (as the integer 0/1). -/
def suffix_array_pipeline (r : List Sym) (strategy : Strategy) (comp step_sa : Nat) :
    List Nat × Option (List Bool) × Option (List Nat) × List Sym :=
  let sa := saOf strategy r
  let code := get_bwt r sa
  if comp = 1 then (sa, none, none, code)
  else
    let res := saCompLoop comp step_sa sa 0 0
    (res.1, some res.2.1,
      some ((if sa.headD 0 % comp = 0 then 1 else 0) :: res.2.2), code)

/-- The persistent state of a constructed `WaveletTree` object. -/
structure WaveletTree : Type where
  compression_sa : Nat
  bucket_step_sa : Nat
  sa : List Nat
  bitvector : Option (List Bool)
  bucket_sa : Option (List Nat)
  f : Sym → Nat
  bits : List (List Bool)
  bucket_bits : List (List Nat)
  bucket_step_bits : List Nat
  n : Nat

/-- `WaveletTree.__init__` on a non-empty reference (strategy and
`compression_sa ≥ 1` validation is part of the fallible construction
`initE` below): sentinel normalization, suffix array + BWT, C-table,
wavelet-tree bit vectors. -/
def buildWT (reference : List Sym) (strategy : Strategy) (compression_sa : Nat) :
    WaveletTree :=
  let r := if reference.getLast? ≠ some Sym.dollar then reference ++ [Sym.dollar]
           else reference
  let bucket_step_sa := ilog2 r.length
  let q := suffix_array_pipeline r strategy compression_sa bucket_step_sa
  let cbv := create_bit_vecs q.2.2.2
  { compression_sa := compression_sa
    bucket_step_sa := bucket_step_sa
    sa := q.1
    bitvector := q.2.1
    bucket_sa := q.2.2.1
    f := shifts_f r
    bits := cbv.1
    bucket_bits := cbv.2.1
    bucket_step_bits := cbv.2.2
    n := r.length }

/-! ### Queries -/

/-- The fixed `codes` table: prefix codes of the six symbols
(0 = left, 1 = right). -/
def codes : Sym → List Bool
  | .N => [false, false]
  | .A => [false, true]
  | .C => [true, false, false]
  | .G => [true, false, true]
  | .T => [true, true, false]
  | .dollar => [true, true, true]

/-- A child slot of the fixed `meta` table: an internal node or a leaf. -/
inductive WTChild : Type where
  | node : Nat → WTChild
  | leaf : Sym → WTChild
deriving DecidableEq, Repr

/-- `meta[k][2 + b]` of the fixed `meta` table for the internal rows 0-4. -/
def metaChild (k : Nat) (b : Bool) : WTChild :=
  match k, b with
  | 0, false => .node 1
  | 0, true => .node 2
  | 1, false => .leaf Sym.N
  | 1, true => .leaf Sym.A
  | 2, false => .node 3
  | 2, true => .node 4
  | 3, false => .leaf Sym.C
  | 3, true => .leaf Sym.G
  | 4, false => .leaf Sym.T
  | _, _ => .leaf Sym.dollar

/-- Whether `meta[k][2]` is a symbol (a string in the source): rows 1, 3, 4. -/
def rowLeftIsSym (k : Nat) : Bool := k = 1 || k = 3 || k = 4

/-- The internal child index `meta[k][2 + b]` (0 when the slot is a leaf;
query code descends only through internal slots). -/
def childNode (k : Nat) (b : Bool) : Nat :=
  match metaChild k b with
  | .node j => j
  | .leaf _ => 0

/-- The leaf symbol `meta[k][2 + b]`. -/
def childSym (k : Nat) (b : Bool) : Sym :=
  match metaChild k b with
  | .leaf c => c
  | .node _ => Sym.dollar

/-- `meta[k][1]` for the leaf rows 5-10 of the table. -/
def leafRowSym (k : Nat) : Sym :=
  match k with
  | 5 => Sym.N
  | 6 => Sym.A
  | 7 => Sym.C
  | 8 => Sym.G
  | 9 => Sym.T
  | _ => Sym.dollar

/-- Sum of the bits of `B` at positions `lo, lo+1, ..., lo+len-1` (the scan
`for i in range(lo, lo+len): rank += bits[i]`). -/
def scanBits (B : List Bool) (lo len : Nat) : Nat :=
  ((List.range' lo len).map (fun j => cond (B.getD j false) 1 0)).sum

/-- Core of `WaveletTree.rank_bit_node` on raw data: bucket value plus scan,
then the rank of the bit resident at `index` (`rank` if that bit is 1, else
`index + 1 - rank`).  For `step = 0` the source raises `ZeroDivisionError`;
here `Nat` division by zero yields an unconstrained value (the proofs only
use `step ≥ 1`). -/
def rank_bit_raw (B : List Bool) (bucket : List Nat) (step index : Nat) : Nat :=
  let bi := index / step
  let rank := scanBits B (bi * step + 1) (index - bi * step) + bucket.getD bi 0
  if B.getD index false then rank else index + 1 - rank

/-- `WaveletTree.rank_bit_node(index, node)`. -/
def WaveletTree.rank_bit_node (wt : WaveletTree) (index node : Nat) : Nat :=
  rank_bit_raw (wt.bits.getD node []) (wt.bucket_bits.getD node [])
    (wt.bucket_step_bits.getD node 0) index

/-- `WaveletTree.rank_bit(index)`: rank over the SA sampling bitmap (bucket
value plus scan, no resident-bit adjustment).  The `compression_sa == 0`
branch of the source is dead (`compression_sa ≥ 1` is enforced on
construction) but embedded nonetheless. -/
def WaveletTree.rank_bit (wt : WaveletTree) (index : Nat) : Nat :=
  if wt.compression_sa = 0 then index + 1
  else
    let B := wt.bitvector.getD []
    let bi := index / wt.bucket_step_sa
    scanBits B (bi * wt.bucket_step_sa + 1) (index - bi * wt.bucket_step_sa)
      + (wt.bucket_sa.getD []).getD bi 0

/-- The `for code in codes` loop of `WaveletTree.rank`.  The adjustment
`curr_index - rank + 1` of the source is written `curr_index + 1 - rank`,
the same integer whenever `rank ≤ curr_index + 1` (always true for the rank
of the resident bit). -/
def rankLoop (wt : WaveletTree) : List Bool → Nat → Nat → Nat
  | [], _, _ => 0
  | code :: rest, curr, ci =>
    let r0 := wt.rank_bit_node ci curr
    let r := if (wt.bits.getD curr []).getD ci false ≠ code then ci + 1 - r0 else r0
    if r = 0 then 0
    else
      match rest with
      | [] => r
      | _ :: _ => rankLoop wt rest (childNode curr code) (r - 1)

/-- `WaveletTree.rank(char, index)`: occurrences of `char` in
`BWT[0..index]`, via descent along the prefix code. -/
def WaveletTree.rank (wt : WaveletTree) (c : Sym) (index : Nat) : Nat :=
  rankLoop wt (codes c) 0 index

/-- The `while` descent of `WaveletTree.access`; the tree has depth 2, so
3 units of fuel always suffice (the fuel-0 default is never reached). -/
def accessLoop (wt : WaveletTree) : Nat → Nat → Nat → Bool → Sym
  | 0, _, _, _ => Sym.dollar
  | fuel + 1, curr, ci, bit =>
    if rowLeftIsSym curr then childSym curr bit
    else
      let nxt := childNode curr bit
      let ci2 := wt.rank_bit_node ci curr - 1
      let bit2 := (wt.bits.getD nxt []).getD ci2 false
      accessLoop wt fuel nxt ci2 bit2

/-- `WaveletTree.access(index, node)`: the BWT character at `index`. -/
def WaveletTree.access (wt : WaveletTree) (index : Nat) (node : Nat := 0) : Sym :=
  if 5 ≤ node then leafRowSym node
  else if rowLeftIsSym node then childSym node false
  else accessLoop wt 3 node index ((wt.bits.getD node []).getD index false)

/-- Bit `i` of the SA sampling bitmap. -/
def getBV (wt : WaveletTree) (i : Nat) : Bool :=
  (wt.bitvector.getD []).getD i false

/-- The LF-walk loop of `WaveletTree.get_sa` (condition checked at loop
entry; `none` models fuel exhaustion, which the source would spend looping). -/
def getSALoop (wt : WaveletTree) : Nat → Sym → Nat → Nat → Option Nat
  | 0, _, row, counter =>
    if getBV wt row then some (wt.sa.getD (wt.rank_bit row - 1) 0 + counter)
    else none
  | fuel + 1, nc, row, counter =>
    if getBV wt row then some (wt.sa.getD (wt.rank_bit row - 1) 0 + counter)
    else
      let r := wt.rank nc row
      let row2 := r + wt.f nc - 1
      let nc2 := wt.access row2
      getSALoop wt fuel nc2 row2 (counter + 1)

/-- `WaveletTree.get_sa(index)` with an explicit iteration bound on the
LF-walk loop. -/
def WaveletTree.get_saF (wt : WaveletTree) (fuel index : Nat) : Option Nat :=
  if wt.compression_sa = 1 then some (wt.sa.getD index 0)
  else if getBV wt index then some (wt.sa.getD (wt.rank_bit index - 1) 0)
  else getSALoop wt fuel (wt.access index) index 0

/-- `WaveletTree.get_sa(index)`; fuel `n` always covers the walk. -/
def WaveletTree.get_sa (wt : WaveletTree) (index : Nat) : Option Nat :=
  wt.get_saF wt.n index

/-- The reconstruction loop of `WaveletTree.__str__` (each iteration
LF-steps and prepends the visited character). -/
def strLoop (wt : WaveletTree) : Nat → Sym → Nat → List Sym → List Sym
  | 0, _, _, acc => acc
  | cnt + 1, nc, row, acc =>
    let r := wt.rank nc row
    let row2 := r + wt.f nc - 1
    let nc2 := wt.access row2
    strLoop wt cnt nc2 row2 (nc2 :: acc)

/-- `WaveletTree.__str__`: the original string (without the sentinel),
recovered by `n - 2` LF-steps from row 0. -/
def WaveletTree.reconstruct (wt : WaveletTree) : List Sym :=
  let nc := wt.access 0
  strLoop wt (wt.n - 1 - 1) nc 0 [nc]

/-! ### Backward search (spec 4.7), not present in the source -/

/-- Modelled from the spec: one backward-search update of spec 4.7
(`lo ← C[c] + rank(c, lo−1)`, `hi ← C[c] + rank(c, hi−1)`), the source
providing no `count`/`locate`.  Spec 4.3 defines rank at index `-1` as 0,
which covers the case `lo = 0` (resp. `hi = 0`). -/
def bsStep (wt : WaveletTree) (c : Sym) (lo hi : Nat) : Nat × Nat :=
  (wt.f c + (if lo = 0 then 0 else wt.rank c (lo - 1)),
    wt.f c + (if hi = 0 then 0 else wt.rank c (hi - 1)))

/-- Modelled from the spec: the row interval `[lo, hi)` after scanning the
pattern right-to-left, starting from `[0, n)`. -/
def backwardRange (wt : WaveletTree) (p : List Sym) : Nat × Nat :=
  p.foldr (fun c r => bsStep wt c r.1 r.2) (0, wt.n)

/-- Modelled from the spec: `locate(pattern)` on an in-alphabet pattern,
`{ get_sa(k) : k ∈ [lo, hi) }` per spec 4.7. -/
def locateSyms (wt : WaveletTree) (p : List Sym) : List Nat :=
  let r := backwardRange wt p
  (List.range' r.1 (r.2 - r.1)).map (fun k => (wt.get_sa k).getD 0)

/-- Modelled from the spec: `locate(pattern)` on a byte pattern; a pattern
with a byte outside the alphabet yields the empty result (spec 7). -/
def locate (wt : WaveletTree) (pattern : List Char) : List Nat :=
  match pattern.mapM charToSym with
  | none => []
  | some p => locateSyms wt p

/-- Modelled from the spec: `count(pattern)` (size of the row interval; 0 on
an out-of-alphabet pattern). -/
def countPattern (wt : WaveletTree) (pattern : List Char) : Nat :=
  match pattern.mapM charToSym with
  | none => 0
  | some p =>
    let r := backwardRange wt p
    r.2 - r.1

/-! ### Fallible embedding (Python exception behaviour) -/

/-- Python exception kinds raised by the embedded code. -/
inductive PyErr : Type where
  | keyError : PyErr
  | indexError : PyErr
  | valueError : PyErr
  | zeroDivisionError : PyErr
  | typeError : PyErr
  | nonTermination : PyErr
deriving DecidableEq, Repr

/-- Python list subscription `l[i]`: negative indices in `[-len, 0)` wrap
around, anything else out of `[-len, len)` raises `IndexError`. -/
def pyGetL {α : Type} [Inhabited α] (l : List α) (i : Int) : Except PyErr α :=
  if 0 ≤ i ∧ i < l.length then pure (l.getD i.toNat default)
  else if 0 ≤ i + l.length ∧ i < 0 then pure (l.getD (i + l.length).toNat default)
  else throw PyErr.indexError

/-- Fallible `rank_bit_node`: mirrors the pure version, with Python index
semantics.  `int(index / step)` truncates toward zero (`Int.tdiv`), and the
scan `range(bi*step + 1, index + 1)` has `max(index - bi*step, 0)` items. -/
def rank_bit_nodeE (wt : WaveletTree) (index : Int) (node : Nat) : Except PyErr Int := do
  let B := wt.bits.getD node []
  let bucket := wt.bucket_bits.getD node []
  let step := wt.bucket_step_bits.getD node 0
  if step = 0 then throw PyErr.zeroDivisionError
  else
    let bi : Int := Int.tdiv index step
    let len : Nat := (index - bi * step).toNat
    let scan ← (List.range len).foldlM
      (fun (acc : Int) t => do
        let b ← pyGetL B (bi * step + 1 + t)
        pure (acc + cond b 1 0))
      (0 : Int)
    let bv ← pyGetL bucket bi
    let rank := scan + (bv : Int)
    let resident ← pyGetL B index
    if resident then pure rank else pure (index + 1 - rank)

/-- Fallible `access` descent loop. -/
def accessLoopE (wt : WaveletTree) : Nat → Nat → Int → Bool → Except PyErr Sym
  | 0, _, _, _ => throw PyErr.nonTermination
  | fuel + 1, curr, ci, bit =>
    if rowLeftIsSym curr then pure (childSym curr bit)
    else do
      let nxt := childNode curr bit
      let r ← rank_bit_nodeE wt ci curr
      let ci2 := r - 1
      let bit2 ← pyGetL (wt.bits.getD nxt []) ci2
      accessLoopE wt fuel nxt ci2 bit2

/-- Fallible `access(index)` (default node 0): the first operation on the
main path is the subscription `bits[0][index]`. -/
def accessE (wt : WaveletTree) (index : Int) (node : Nat := 0) : Except PyErr Sym :=
  if 5 ≤ node then pure (leafRowSym node)
  else if rowLeftIsSym node then pure (childSym node false)
  else do
    let bit ← pyGetL (wt.bits.getD node []) index
    accessLoopE wt 3 node index bit

/-- Fallible `rank` loop. -/
def rankLoopE (wt : WaveletTree) : List Bool → Nat → Int → Except PyErr Int
  | [], _, _ => pure 0
  | code :: rest, curr, ci => do
    let r0 ← rank_bit_nodeE wt ci curr
    let resident ← pyGetL (wt.bits.getD curr []) ci
    let r := if resident ≠ code then ci - r0 + 1 else r0
    if r = 0 then pure 0
    else
      match rest with
      | [] => pure r
      | _ :: _ => rankLoopE wt rest (childNode curr code) (r - 1)

/-- Fallible `rank(char, index)`. -/
def rankE (wt : WaveletTree) (c : Sym) (index : Int) : Except PyErr Int :=
  rankLoopE wt (codes c) 0 index

/-- Subscription of the sampling bitmap (`self.bitvector[i]`; `None` when
`compression_sa == 1`, whose subscription raises `TypeError`). -/
def bvE (wt : WaveletTree) (i : Int) : Except PyErr Bool :=
  match wt.bitvector with
  | none => throw PyErr.typeError
  | some B => pyGetL B i

/-- Fallible `rank_bit(index)`. -/
def rank_bitE (wt : WaveletTree) (index : Int) : Except PyErr Int :=
  if wt.compression_sa = 0 then pure (index + 1)
  else
    match wt.bitvector, wt.bucket_sa with
    | some B, some bucket =>
      if wt.bucket_step_sa = 0 then throw PyErr.zeroDivisionError
      else do
        let bi : Int := Int.tdiv index wt.bucket_step_sa
        let len : Nat := (index - bi * wt.bucket_step_sa).toNat
        let scan ← (List.range len).foldlM
          (fun (acc : Int) t => do
            let b ← pyGetL B (bi * wt.bucket_step_sa + 1 + t)
            pure (acc + cond b 1 0))
          (0 : Int)
        let bv ← pyGetL bucket bi
        pure (bv + scan)
    | _, _ => throw PyErr.typeError

/-- Fallible LF-walk loop of `get_sa`. -/
def getSALoopE (wt : WaveletTree) : Nat → Sym → Int → Int → Except PyErr Int
  | 0, _, row, counter => do
    let b ← bvE wt row
    if b then do
      let rb ← rank_bitE wt row
      let v ← pyGetL wt.sa (rb - 1)
      pure ((v : Int) + counter)
    else throw PyErr.nonTermination
  | fuel + 1, nc, row, counter => do
    let b ← bvE wt row
    if b then do
      let rb ← rank_bitE wt row
      let v ← pyGetL wt.sa (rb - 1)
      pure ((v : Int) + counter)
    else do
      let r ← rankE wt nc row
      let row2 := r + (wt.f nc : Int) - 1
      let nc2 ← accessE wt row2
      getSALoopE wt fuel nc2 row2 (counter + 1)

/-- Fallible `get_sa(index)`. -/
def get_saE (wt : WaveletTree) (index : Int) : Except PyErr Int :=
  if wt.compression_sa = 1 then do
    let v ← pyGetL wt.sa index
    pure (v : Int)
  else do
    let b ← bvE wt index
    if b then do
      let rb ← rank_bitE wt index
      let v ← pyGetL wt.sa (rb - 1)
      pure (v : Int)
    else do
      let nc ← accessE wt index
      getSALoopE wt wt.n nc index 0

/-! ### Fallible construction from raw bytes -/

/-- Decoding loop over the bytes of the input; `KeyError` at the first byte
outside the alphabet (dictionary subscription in `_shifts_f` and
`sort_chars`). -/
def toSymsE (chars : List Char) : Except PyErr (List Sym) :=
  chars.mapM (fun c =>
    match charToSym c with
    | some s => pure s
    | none => throw PyErr.keyError)

/-- The `to_int` conversion of the DC3 builder on bytes; `KeyError` at the
first byte outside the alphabet. -/
def to_intE (chars : List Char) : Except PyErr (List Nat) :=
  chars.mapM (fun c =>
    match charToSym c with
    | some s => pure (s.toNat + 1)
    | none => throw PyErr.keyError)

/-- Python `sorted` comparison on pairs `(suffix bytes, index)`. -/
def charPairLe (a b : List Char × Nat) : Prop :=
  a.1 < b.1 ∨ (a.1 = b.1 ∧ a.2 ≤ b.2)

instance : DecidableRel charPairLe := by
  intro a b
  unfold charPairLe
  infer_instance

/-- `suffix_array_simple` on raw bytes (string sorting never raises, for any
bytes). -/
def suffix_array_simpleC (chars : List Char) : List Nat :=
  ((List.insertionSort charPairLe
      ((List.range chars.length).map (fun i => (chars.drop i, i)))).map Prod.snd)

/-- `get_bwt` on raw bytes. -/
def get_bwtC (chars : List Char) (sa : List Nat) : List Char :=
  sa.map (fun w => if w = 0 then '$' else chars.getD (w - 1) '$')

/-- `WaveletTree.__init__` on raw bytes: the full fallible construction.
Validation order follows the source: strategy, emptiness, compression
coefficient, sentinel normalization, then `suffix_array` (where the
`ManberMyers` and `KaerkkaeinenSanders` builders subscript their symbol
dictionaries), then `_shifts_f` (which subscripts its dictionary with every
byte), then `create_bit_vecs`. -/
def initE (chars : List Char) (strategy : String) (comp : Int) :
    Except PyErr WaveletTree :=
  if ¬ (strategy = "KaerkkaeinenSanders" ∨ strategy = "ManberMyers"
      ∨ strategy = "Simple") then throw PyErr.valueError
  else if chars.length < 1 then throw PyErr.valueError
  else if comp < 1 then throw PyErr.valueError
  else
    let cs := if chars.getLast? ≠ some '$' then chars ++ ['$'] else chars
    let step_sa := ilog2 cs.length
    do
      let sa ←
        if strategy = "Simple" then pure (suffix_array_simpleC cs)
        else if strategy = "ManberMyers" then do
          let syms ← toSymsE cs
          pure (suffix_array_manbermyers syms)
        else do
          let ints ← to_intE cs
          pure (saKS (cs.length + 1) (ints ++ [0, 0, 0]) cs.length 6)
      let codeC := get_bwtC cs sa
      let compN := comp.toNat
      let q : List Nat × Option (List Bool) × Option (List Nat) :=
        if compN = 1 then (sa, none, none)
        else
          let res := saCompLoop compN step_sa sa 0 0
          (res.1, some res.2.1,
            some ((if sa.headD 0 % compN = 0 then 1 else 0) :: res.2.2))
      let syms ← toSymsE cs
      let f := shifts_f syms
      let bwtS := codeC.map (fun c => (charToSym c).getD Sym.dollar)
      let cbv := create_bit_vecs bwtS
      pure
        { compression_sa := compN
          bucket_step_sa := step_sa
          sa := q.1
          bitvector := q.2.1
          bucket_sa := q.2.2
          f := f
          bits := cbv.1
          bucket_bits := cbv.2.1
          bucket_step_bits := cbv.2.2
          n := cs.length }

/-! ## Proof development

### Generic counting and bucket lemmas -/

theorem ilog2_pos {n : Nat} (h : 2 ≤ n) : 1 ≤ ilog2 n := by
  obtain ⟨m, rfl⟩ : ∃ m, n = m + 2 := ⟨n - 2, by omega⟩
  show 1 ≤ ilog2Aux (m + 2) (m + 2)
  rw [ilog2Aux]
  simp

theorem countP_take_succ {α : Type} (p : α → Bool) (l : List α) (d : α) (m : Nat)
    (h : m < l.length) :
    (l.take (m + 1)).countP p = (l.take m).countP p + cond (p (l.getD m d)) 1 0 := by
  rw [List.take_succ, List.countP_append, List.getD_eq_getElem l d h]
  have : l[m]? = some l[m] := List.getElem?_eq_getElem h
  rw [this]
  cases hb : p l[m] <;> simp [List.countP_cons, hb]

theorem scanBits_spec (B : List Bool) (lo : Nat) :
    ∀ len, lo + len ≤ B.length →
      scanBits B lo len + (B.take lo).countP id = (B.take (lo + len)).countP id := by
  intro len
  induction len with
  | zero => simp [scanBits]
  | succ k ih =>
    intro h
    have hk : lo + k ≤ B.length := by omega
    have hlt : lo + k < B.length := by omega
    have hrow : scanBits B lo (k + 1) = scanBits B lo k + cond (B.getD (lo + k) false) 1 0 := by
      unfold scanBits
      rw [List.range'_concat]
      simp
    have hind : lo + (k + 1) = (lo + k) + 1 := rfl
    rw [hrow, hind, countP_take_succ id B false (lo + k) hlt]
    simp only [id_eq]
    have := ih hk
    omega

/-- Closed form of the bucket loop: an entry for every position `idx + t > 0`
divisible by `step`, holding the running rank through that position. -/
theorem bucketAux_eq (step : Nat) (l : List Bool) :
    ∀ idx rank, bucketAux step l idx rank =
      ((List.range l.length).filter
          (fun t => decide (0 < idx + t ∧ (idx + t) % step = 0))).map
        (fun t => rank + (l.take (t + 1)).countP id) := by
  induction l with
  | nil => intro idx rank; simp [bucketAux]
  | cons b l ih =>
    intro idx rank
    have hF : ((fun t => rank + (((b :: l).take (t + 1)).countP id)) ∘ Nat.succ)
        = fun t => (rank + cond b 1 0) + ((l.take (t + 1)).countP id) := by
      funext t
      show rank + (((b :: l).take (t + 1 + 1)).countP id) = _
      cases b <;> simp [List.take_succ_cons, List.countP_cons] <;> omega
    have hP : ((fun t => decide (0 < idx + t ∧ (idx + t) % step = 0)) ∘ Nat.succ)
        = fun t => decide (0 < (idx + 1) + t ∧ ((idx + 1) + t) % step = 0) := by
      funext t
      show decide (0 < idx + (t + 1) ∧ (idx + (t + 1)) % step = 0) = _
      have h : idx + (t + 1) = (idx + 1) + t := by omega
      rw [h]
    have hhead : (fun t => rank + (((b :: l).take (t + 1)).countP id)) 0
        = rank + cond b 1 0 := by
      show rank + (([b]).countP id) = _
      cases b <;> rfl
    rw [bucketAux]
    simp only [List.length_cons, List.range_succ_eq_map, List.filter_cons,
      List.filter_map, hP]
    rw [ih (idx + 1) (rank + cond b 1 0)]
    by_cases hc : 0 < idx ∧ idx % step = 0
    · have hc' : decide (0 < idx + 0 ∧ (idx + 0) % step = 0) = true := by
        simpa using hc
      rw [if_pos hc, hc']
      simp [List.map_map, hF, hhead]
      refine ⟨by cases b <;> rfl, ?_⟩
      intro a ha hm
      rw [List.countP_cons]
      cases b <;> simp <;> omega
    · have hc' : decide (0 < idx + 0 ∧ (idx + 0) % step = 0) = false := by
        simpa using hc
      rw [if_neg hc, hc']
      simp [List.map_map, hF]
      intro a ha hm
      rw [List.countP_cons]
      cases b <;> simp <;> omega

theorem div_pred_of_not_dvd {m step : Nat} (h1 : 1 ≤ step) (hm : 1 ≤ m)
    (hnd : m % step ≠ 0) : m / step = (m - 1) / step := by
  have hd := Nat.div_add_mod m step
  have hrlt : m % step < step := Nat.mod_lt _ (by omega)
  have h1r : 1 ≤ m % step := Nat.pos_of_ne_zero hnd
  have hm1 : m - 1 = (m % step - 1) + step * (m / step) := by omega
  rw [hm1, Nat.add_mul_div_left _ _ (show 0 < step by omega),
    Nat.div_eq_of_lt (show m % step - 1 < step by omega)]
  exact (Nat.zero_add _).symm

theorem div_pred_of_dvd {m step : Nat} (h1 : 1 ≤ step) (hm : 1 ≤ m)
    (hnd : m % step = 0) : (m - 1) / step + 1 = m / step := by
  have hd := Nat.div_add_mod m step
  obtain ⟨q, hq⟩ : ∃ q, m / step = q + 1 := by
    refine ⟨m / step - 1, ?_⟩
    have : m / step ≠ 0 := by
      intro h0
      rw [h0, Nat.mul_zero] at hd
      omega
    exact (Nat.succ_pred_eq_of_pos (Nat.pos_of_ne_zero this)).symm
  rw [hq, Nat.mul_succ] at hd
  have hm1 : m - 1 = (step - 1) + step * q := by omega
  rw [hm1, Nat.add_mul_div_left _ _ (show 0 < step by omega),
    Nat.div_eq_of_lt (show step - 1 < step by omega), hq]
  exact congrArg (· + 1) (Nat.zero_add q)

/-- The bucket positions below `m`: the positive multiples of `step`. -/
theorem filter_multiples {step : Nat} (h1 : 1 ≤ step) :
    ∀ m, (List.range m).filter (fun t => decide (0 < t ∧ t % step = 0)) =
      (List.range ((m - 1) / step)).map (fun q => (q + 1) * step) := by
  intro m
  induction m with
  | zero => simp
  | succ k ih =>
    rw [List.range_succ, List.filter_append, ih]
    by_cases hk0 : k = 0
    · subst hk0
      simp
    · by_cases hd : k % step = 0
      · have hcond : decide (0 < k ∧ k % step = 0) = true := by
          rw [decide_eq_true_eq]
          exact ⟨Nat.pos_of_ne_zero hk0, hd⟩
        have hdvd : step ∣ k := Nat.dvd_of_mod_eq_zero hd
        have hppp : (k - 1) / step + 1 = k / step :=
          div_pred_of_dvd h1 (by omega) hd
        have hlast : ((k - 1) / step + 1) * step = k := by
          rw [hppp]
          exact Nat.div_mul_cancel hdvd
        have hone : (k + 1 - 1) / step = (k - 1) / step + 1 := by
          have hk1 : k + 1 - 1 = k := by omega
          rw [hk1, ← hppp]
        rw [hone, List.range_succ, List.map_append]
        congr 1
        rw [List.filter_cons, hcond]
        simp [hlast]
      · have hcond : decide (0 < k ∧ k % step = 0) = false := by
          rw [decide_eq_false_iff_not]
          intro h
          exact hd h.2
        have hone : (k + 1 - 1) / step = (k - 1) / step := by
          have hk1 : k + 1 - 1 = k := by omega
          rw [hk1]
          exact div_pred_of_not_dvd h1 (Nat.pos_of_ne_zero hk0) hd
        rw [hone]
        have hfk : List.filter (fun t => decide (0 < t ∧ t % step = 0)) [k] = [] := by
          rw [List.filter_cons, hcond]
          rfl
        rw [hfk, List.append_nil]

/-- Value of the bucket array: `bucket[j]` is the rank through position
`j * step` inclusive. -/
theorem buildBucket_getD {B : List Bool} {step : Nat} (h1 : 1 ≤ step)
    (hB : B ≠ []) {j : Nat} (hj : j ≤ (B.length - 1) / step) :
    (buildBucket B step).getD j 0 = (B.take (j * step + 1)).countP id := by
  obtain ⟨b, l, rfl⟩ : ∃ b l, B = b :: l := by
    cases B with
    | nil => exact absurd rfl hB
    | cons b l => exact ⟨b, l, rfl⟩
  show ((cond b 1 0) :: bucketAux step (b :: l) 0 0).getD j 0 = _
  rw [bucketAux_eq]
  simp only [Nat.zero_add]
  rw [filter_multiples h1, List.map_map]
  cases j with
  | zero =>
    have h01 : 0 * step + 1 = 1 := by omega
    rw [h01]
    cases b <;> rfl
  | succ q =>
    have hq : q < ((b :: l).length - 1) / step := by omega
    have : (((List.range (((b :: l).length - 1) / step)).map (fun q => (q + 1) * step)).map
        (fun t => 0 + ((b :: l).take (t + 1)).countP id)).getD q 0 =
        ((b :: l).take ((q + 1) * step + 1)).countP id := by
      rw [List.map_map, List.getD_eq_getElem _ 0 (by simpa using hq)]
      simp
    simpa using this

theorem buildBucket_length {B : List Bool} {step : Nat} (h1 : 1 ≤ step) (hB : B ≠ []) :
    (buildBucket B step).length = (B.length - 1) / step + 1 := by
  obtain ⟨b, l, rfl⟩ : ∃ b l, B = b :: l := by
    cases B with
    | nil => exact absurd rfl hB
    | cons b l => exact ⟨b, l, rfl⟩
  show ((cond b 1 0) :: bucketAux step (b :: l) 0 0).length = _
  rw [bucketAux_eq]
  simp only [Nat.zero_add]
  rw [filter_multiples h1]
  simp

/-- The bucket-plus-scan rank computation returns the number of ones through
position `i` inclusive. -/
theorem rank1_eq {B : List Bool} {step : Nat} (h1 : 1 ≤ step) {i : Nat}
    (hi : i < B.length) :
    scanBits B (i / step * step + 1) (i - i / step * step)
        + (buildBucket B step).getD (i / step) 0
      = (B.take (i + 1)).countP id := by
  have hB : B ≠ [] := by
    intro h
    rw [h] at hi
    simp at hi
  have hle : i / step * step ≤ i := Nat.div_mul_le_self i step
  have hj : i / step ≤ (B.length - 1) / step :=
    Nat.div_le_div_right (by omega)
  rw [buildBucket_getD h1 hB hj]
  have hs := scanBits_spec B (i / step * step + 1) (i - i / step * step)
    (by omega)
  have : i / step * step + 1 + (i - i / step * step) = i + 1 := by omega
  rw [this] at hs
  omega

theorem countP_take_le {α : Type} (p : α → Bool) (l : List α) (m : Nat) :
    (l.take m).countP p ≤ m := by
  calc (l.take m).countP p ≤ (l.take m).length := List.countP_le_length p
  _ ≤ m := by simp

/-- `rank_bit_raw` on a well-formed node: rank of the resident bit. -/
theorem rank_bit_raw_eq {B : List Bool} {step : Nat} (h1 : 1 ≤ step) {i : Nat}
    (hi : i < B.length) :
    rank_bit_raw B (buildBucket B step) step i =
      if B.getD i false then (B.take (i + 1)).countP id
      else (i + 1) - (B.take (i + 1)).countP id := by
  simp only [rank_bit_raw]
  rw [rank1_eq h1 hi]

/-- A prefix of the filtered list is the filtered prefix. -/
theorem filter_take_eq {α : Type} (p : α → Bool) (l : List α) :
    ∀ m, (l.take m).filter p = (l.filter p).take ((l.take m).countP p) := by
  induction l with
  | nil => intro m; simp
  | cons a l ih =>
    intro m
    cases m with
    | zero => simp
    | succ k =>
      by_cases hp : p a
      · simp [List.filter_cons, List.countP_cons, hp, ih k]
      · simp [List.filter_cons, List.countP_cons, hp, ih k]

/-- A read below the cut of a `take` sees the original list. -/
theorem getD_take_eq {α : Type} (L : List α) (d : α) {k m : Nat} (hk : k < m) :
    (L.take m).getD k d = L.getD k d := by
  rcases Nat.lt_or_ge k L.length with h | h
  · have hk2 : k < (L.take m).length := by
      simp
      omega
    rw [List.getD_eq_getElem _ d hk2, List.getD_eq_getElem _ d h]
    exact List.getElem_take L
  · have h2 : (L.take m).length ≤ k := by
      simp
      omega
    rw [List.getD_eq_default _ d h2, List.getD_eq_default _ d h]

/-- Element recovery through a filter: the element at `i` sits at position
`rank - 1` of the filtered list. -/
theorem filter_getD_at {α : Type} (p : α → Bool) (l : List α) (d : α) {i : Nat}
    (hi : i < l.length) (hp : p (l.getD i d) = true) :
    (l.filter p).getD ((l.take (i + 1)).countP p - 1) d = l.getD i d := by
  have hpi : p l[i] = true := by
    rw [← List.getD_eq_getElem l d hi]
    exact hp
  have hcnt : (l.take (i + 1)).countP p = (l.take i).countP p + 1 := by
    rw [countP_take_succ p l d i hi, hp]
    rfl
  have hlen : ((l.take i).filter p).length = (l.take i).countP p :=
    (List.countP_eq_length_filter p _).symm
  have htake : (l.take (i + 1)).filter p = (l.take i).filter p ++ [l[i]] := by
    rw [List.take_succ, List.getElem?_eq_getElem hi, List.filter_append]
    simp [hpi]
  have hkey : (l.filter p).take ((l.take i).countP p + 1)
      = (l.take i).filter p ++ [l[i]] := by
    rw [← hcnt, ← filter_take_eq, htake]
  rw [hcnt, Nat.add_sub_cancel,
    ← getD_take_eq (l.filter p) d
      (show (l.take i).countP p < (l.take i).countP p + 1 by omega),
    hkey, List.getD_append_right]
  · have h0 : (l.take i).countP p - ((l.take i).filter p).length = 0 := by omega
    rw [h0, List.getD_eq_getElem l d hi]
    rfl
  · omega

/-! ### Lexicographic order on symbol strings -/

theorem list_lt_iff_lex {u v : List Sym} : u < v ↔ List.Lex (· < ·) u v := Iff.rfl

theorem cons_lt_cons_iff {a b : Sym} {u v : List Sym} :
    (a :: u) < (b :: v) ↔ a < b ∨ (a = b ∧ u < v) := by
  rw [list_lt_iff_lex]
  constructor
  · intro h
    cases h with
    | cons h => exact Or.inr ⟨rfl, h⟩
    | rel h => exact Or.inl h
  · rintro (h | ⟨rfl, h⟩)
    · exact List.Lex.rel h
    · exact List.Lex.cons h

theorem not_lt_nil (u : List Sym) : ¬ u < ([] : List Sym) := by
  rw [list_lt_iff_lex]
  intro h
  cases h

theorem nil_lt_iff {v : List Sym} : ([] : List Sym) < v ↔ v ≠ [] := by
  cases v with
  | nil => simp [lt_irrefl]
  | cons a l =>
    simp only [ne_eq, reduceCtorEq, not_false_eq_true, iff_true]
    exact List.nil_lt_cons a l

/-! ### Valid references and suffixes -/

/-- A valid reference after sentinel normalization: a non-empty body over
`{A, C, G, N, T}` followed by exactly one final `$`. -/
def Valid (r : List Sym) : Prop :=
  ∃ t, t ≠ [] ∧ Sym.dollar ∉ t ∧ r = t ++ [Sym.dollar]

theorem Valid.two_le {r : List Sym} (h : Valid r) : 2 ≤ r.length := by
  obtain ⟨t, ht, _, rfl⟩ := h
  have : 1 ≤ t.length := List.length_pos_of_ne_nil ht
  simp
  omega

theorem Valid.getLast_eq {r : List Sym} (h : Valid r) :
    r.getLast? = some Sym.dollar := by
  obtain ⟨t, _, _, rfl⟩ := h
  exact List.getLast?_concat t

theorem Valid.getD_last {r : List Sym} (h : Valid r) :
    r.getD (r.length - 1) Sym.dollar = Sym.dollar := by
  obtain ⟨t, _, _, rfl⟩ := h
  have hl : (t ++ [Sym.dollar]).length - 1 = t.length := by simp
  rw [hl, List.getD_eq_getElem _ _ (by simp)]
  simp

theorem Valid.dollar_iff {r : List Sym} (h : Valid r) {q : Nat} (hq : q < r.length) :
    r.getD q Sym.dollar = Sym.dollar ↔ q = r.length - 1 := by
  obtain ⟨t, ht, hnd, rfl⟩ := h
  constructor
  · intro he
    by_contra hne
    have hqt : q < t.length := by
      simp at hq hne
      omega
    rw [List.getD_eq_getElem _ _ (by simp; omega), List.getElem_append_left hqt] at he
    exact hnd (he ▸ List.getElem_mem hqt)
  · intro he
    subst he
    exact Valid.getD_last ⟨t, ht, hnd, rfl⟩

/-- The suffix starting at `q`. -/
theorem drop_cons_getD {r : List Sym} {q : Nat} (hq : q < r.length) :
    r.drop q = r.getD q Sym.dollar :: r.drop (q + 1) := by
  rw [List.getD_eq_getElem _ _ hq]
  exact List.drop_eq_getElem_cons hq

theorem drop_injective {r : List Sym} {p q : Nat} (hp : p ≤ r.length)
    (hq : q ≤ r.length) (h : r.drop p = r.drop q) : p = q := by
  have := congrArg List.length h
  simp at this
  omega

/-! ### Properties of the Simple suffix-array builder -/

instance : IsTotal (List Sym × Nat) suffixPairLe := by
  constructor
  intro a b
  unfold suffixPairLe
  rcases lt_trichotomy a.1 b.1 with h | h | h
  · exact Or.inl (Or.inl h)
  · rcases Nat.le_total a.2 b.2 with h2 | h2
    · exact Or.inl (Or.inr ⟨h, h2⟩)
    · exact Or.inr (Or.inr ⟨h.symm, h2⟩)
  · exact Or.inr (Or.inl h)

instance : IsTrans (List Sym × Nat) suffixPairLe := by
  constructor
  intro a b c hab hbc
  unfold suffixPairLe at *
  rcases hab with h1 | ⟨he1, hn1⟩
  · rcases hbc with h2 | ⟨he2, _⟩
    · exact Or.inl (lt_trans h1 h2)
    · exact Or.inl (he2 ▸ h1)
  · rcases hbc with h2 | ⟨he2, hn2⟩
    · exact Or.inl (he1 ▸ h2)
    · exact Or.inr ⟨he1.trans he2, le_trans hn1 hn2⟩

theorem sas_length (r : List Sym) : (suffix_array_simple r).length = r.length := by
  unfold suffix_array_simple
  simp [List.length_insertionSort]

theorem sas_perm (r : List Sym) :
    (suffix_array_simple r).Perm (List.range r.length) := by
  unfold suffix_array_simple
  have h1 := List.perm_insertionSort suffixPairLe
    ((List.range r.length).map (fun i => (r.drop i, i)))
  have h2 := h1.map Prod.snd
  have h3 : ((List.range r.length).map (fun i => (r.drop i, i))).map Prod.snd
      = List.range r.length := by
    simp
    exact List.map_id _
  rw [h3] at h2
  exact h2

theorem sas_nodup (r : List Sym) : (suffix_array_simple r).Nodup :=
  ((sas_perm r).nodup_iff).mpr (List.nodup_range r.length)

theorem sas_mem {r : List Sym} {p : Nat} (h : p ∈ suffix_array_simple r) :
    p < r.length := by
  have := (sas_perm r).mem_iff.mp h
  simpa using this

/-- Each entry of the sorted pair list pairs a suffix with its offset. -/
theorem sorted_pairs_shape (r : List Sym) {x : List Sym × Nat}
    (hx : x ∈ List.insertionSort suffixPairLe
      ((List.range r.length).map (fun i => (r.drop i, i)))) :
    x.1 = r.drop x.2 ∧ x.2 < r.length := by
  have hmem := (List.perm_insertionSort suffixPairLe _).mem_iff.mp hx
  obtain ⟨i, hi, rfl⟩ := List.mem_map.mp hmem
  exact ⟨rfl, List.mem_range.mp hi⟩

theorem sas_pairwise (r : List Sym) :
    (suffix_array_simple r).Pairwise
      (fun p q => r.drop p < r.drop q ∨ (r.drop p = r.drop q ∧ p ≤ q)) := by
  unfold suffix_array_simple
  rw [List.pairwise_map]
  have hs : (List.insertionSort suffixPairLe
      ((List.range r.length).map (fun i => (r.drop i, i)))).Pairwise suffixPairLe :=
    List.sorted_insertionSort suffixPairLe _
  refine List.Pairwise.imp_of_mem ?_ hs
  intro a b ha hb hab
  obtain ⟨ha1, _⟩ := sorted_pairs_shape r ha
  obtain ⟨hb1, _⟩ := sorted_pairs_shape r hb
  unfold suffixPairLe at hab
  rw [ha1, hb1] at hab
  exact hab

/-- Strict sortedness of the Simple suffix array: distinct suffixes in
increasing lexicographic order. -/
theorem sas_pairwise_lt (r : List Sym) :
    (suffix_array_simple r).Pairwise (fun p q => r.drop p < r.drop q) := by
  have h1 := (sas_pairwise r).and ((sas_nodup r).imp (fun h => h))
  refine List.Pairwise.imp_of_mem ?_ h1
  intro a b ha hb hab
  obtain ⟨hord, hne⟩ := hab
  rcases hord with h | ⟨he, _⟩
  · exact h
  · exact absurd (drop_injective (le_of_lt (sas_mem ha)) (le_of_lt (sas_mem hb)) he) hne

/-- Row order reflects suffix order. -/
theorem sas_lt_iff {r : List Sym} {i j : Nat} (hi : i < r.length) (hj : j < r.length) :
    i < j ↔ r.drop ((suffix_array_simple r).getD i 0) <
      r.drop ((suffix_array_simple r).getD j 0) := by
  have hlen := sas_length r
  have hpw := List.pairwise_iff_getElem.mp (sas_pairwise_lt r)
  constructor
  · intro hij
    have := hpw i j (by omega) (by omega) hij
    rwa [List.getD_eq_getElem _ 0 (by omega), List.getD_eq_getElem _ 0 (by omega)]
  · intro hlt
    by_contra hne
    rcases Nat.lt_or_ge j i with h | h
    · have := hpw j i (by omega) (by omega) h
      rw [List.getD_eq_getElem _ 0 (by omega), List.getD_eq_getElem _ 0 (by omega)] at hlt
      exact absurd hlt (lt_asymm this)
    · have : i = j := by omega
      subst this
      exact lt_irrefl _ hlt

/-- The number of suffixes strictly below the suffix at `p`: the row of `p`. -/
def rowOf (r : List Sym) (p : Nat) : Nat :=
  (List.range r.length).countP (fun q => decide (r.drop q < r.drop p))

theorem countP_lt_countP {α : Type} {P Q : α → Bool} {l : List α}
    (hPQ : ∀ x ∈ l, P x = true → Q x = true)
    (hx : ∃ x ∈ l, Q x = true ∧ P x = false) : l.countP P < l.countP Q := by
  induction l with
  | nil => simp at hx
  | cons a l ih =>
    rw [List.countP_cons, List.countP_cons]
    obtain ⟨x, hxl, hQ, hP⟩ := hx
    rcases List.mem_cons.mp hxl with rfl | hxl2
    · rw [hP, hQ]
      have : l.countP P ≤ l.countP Q :=
        List.countP_mono_left (fun y hy => hPQ y (List.mem_cons_of_mem _ hy))
      simp
      omega
    · have h1 := ih (fun y hy => hPQ y (List.mem_cons_of_mem _ hy)) ⟨x, hxl2, hQ, hP⟩
      have h2 : (if P a then 1 else 0) ≤ (if Q a then 1 else 0) := by
        by_cases hPa : P a
        · rw [if_pos hPa, if_pos (hPQ a (List.mem_cons_self a l) hPa)]
        · rw [if_neg hPa]
          omega
      omega

theorem countP_lt_length_of_mem {α : Type} {P : α → Bool} {l : List α} {x : α}
    (hx : x ∈ l) (hPx : P x = false) : l.countP P < l.length := by
  rcases Nat.lt_or_ge (l.countP P) l.length with h | h
  · exact h
  · have heq : l.countP P = l.length := le_antisymm (List.countP_le_length P) h
    have := List.countP_eq_length.mp heq x hx
    rw [hPx] at this
    exact absurd this (by simp)

theorem rowOf_lt {r : List Sym} {p : Nat} (hp : p < r.length) :
    rowOf r p < r.length := by
  have : rowOf r p < (List.range r.length).length :=
    countP_lt_length_of_mem (List.mem_range.mpr hp) (by simp)
  simpa using this

/-- Strict monotonicity of the row map. -/
theorem rowOf_strictMono {r : List Sym} {p q : Nat} (hp : p < r.length)
    (hq : q < r.length) (h : r.drop p < r.drop q) : rowOf r p < rowOf r q := by
  unfold rowOf
  refine countP_lt_countP ?_ ⟨p, List.mem_range.mpr hp, ?_, ?_⟩
  · intro x _ hx
    simp at hx
    simp
    exact lt_trans hx h
  · simpa using h
  · simp

/-- The row of the entry at row `i` is `i`: counting over the sorted list. -/
theorem rowOf_sas {r : List Sym} {i : Nat} (hi : i < r.length) :
    rowOf r ((suffix_array_simple r).getD i 0) = i := by
  set sa := suffix_array_simple r with hsa
  have hlen : sa.length = r.length := sas_length r
  set P : Nat → Bool := fun q => decide (r.drop q < r.drop (sa.getD i 0)) with hP
  have hperm : (List.range r.length).countP P = sa.countP P :=
    ((sas_perm r).countP_eq P).symm
  have hsplit : sa.countP P = (sa.take i).countP P + (sa.drop i).countP P := by
    rw [← List.countP_append, List.take_append_drop]
  have htake : (sa.take i).countP P = i := by
    have hall : ∀ x ∈ sa.take i, P x = true := by
      intro x hx
      obtain ⟨j, hj, hjx⟩ := List.mem_iff_getElem.mp hx
      have hjlen : j < i := by
        have := hj
        simp at this
        omega
      have hji : x = sa.getD j 0 := by
        rw [List.getD_eq_getElem _ 0 (by omega), ← hjx, List.getElem_take]
      rw [hP]
      simp only [decide_eq_true_eq]
      rw [hji]
      exact (sas_lt_iff (by omega) hi).mp hjlen
    rw [List.countP_eq_length.mpr hall]
    simp
    omega
  have hdrop : (sa.drop i).countP P = 0 := by
    rw [List.countP_eq_zero]
    intro x hx
    obtain ⟨j, hj, hjx⟩ := List.mem_iff_getElem.mp hx
    have hjx2 : x = sa.getD (i + j) 0 := by
      rw [List.getD_eq_getElem _ 0 (by simp at hj; omega), ← hjx, List.getElem_drop]
    rw [hP]
    simp only [decide_eq_true_eq]
    rw [hjx2]
    intro hcon
    have := (sas_lt_iff (show i + j < r.length by simp at hj; omega) hi).mpr hcon
    omega
  unfold rowOf
  rw [← hP]
  omega

/-- The entry at the row of `p` is `p`. -/
theorem sas_rowOf {r : List Sym} {p : Nat} (hp : p < r.length) :
    (suffix_array_simple r).getD (rowOf r p) 0 = p := by
  set sa := suffix_array_simple r with hsa
  have hrow := rowOf_lt hp
  set p2 := sa.getD (rowOf r p) 0 with hp2
  have hp2lt : p2 < r.length := by
    have : p2 ∈ sa := by
      rw [hp2]
      rw [List.getD_eq_getElem _ 0 (by rw [sas_length]; omega)]
      exact List.getElem_mem _
    exact sas_mem this
  have hrr : rowOf r p2 = rowOf r p := rowOf_sas hrow
  rcases lt_trichotomy (r.drop p2) (r.drop p) with h | h | h
  · have := rowOf_strictMono hp2lt hp h
    omega
  · exact (drop_injective (by omega) (by omega) h).symm ▸ rfl
  · have := rowOf_strictMono hp hp2lt h
    omega

/-! ### BWT counting and C-table -/

theorem bwtOf_length (r : List Sym) : (bwtOf r).length = r.length := by
  unfold bwtOf get_bwt
  rw [List.length_map, sas_length]

theorem bwtOf_getD {r : List Sym} {i : Nat} (hi : i < r.length) :
    (bwtOf r).getD i Sym.dollar = bwtChar r ((suffix_array_simple r).getD i 0) := by
  unfold bwtOf get_bwt
  rw [List.getD_eq_getElem _ _ (by rw [List.length_map, sas_length]; omega),
    List.getElem_map, List.getD_eq_getElem _ 0 (by rw [sas_length]; omega)]

theorem countP_take_le_countP {α : Type} (p : α → Bool) (l : List α) (m : Nat) :
    (l.take m).countP p ≤ l.countP p := by
  conv_rhs => rw [← List.take_append_drop m l]
  rw [List.countP_append]
  omega

/-- Membership in a prefix of the sorted suffix array: exactly the suffixes
at most the one at row `i`. -/
theorem mem_sas_take_iff {r : List Sym} {i p : Nat} (hi : i < r.length) :
    p ∈ (suffix_array_simple r).take (i + 1) ↔
      p < r.length ∧ r.drop p ≤ r.drop ((suffix_array_simple r).getD i 0) := by
  set sa := suffix_array_simple r with hsa
  have hlen : sa.length = r.length := sas_length r
  constructor
  · intro hp
    obtain ⟨j, hj, hjp⟩ := List.mem_iff_getElem.mp hp
    have hji : j ≤ i ∧ j < r.length := by
      simp at hj
      omega
    have hpj : p = sa.getD j 0 := by
      rw [List.getD_eq_getElem _ 0 (by omega), ← hjp, List.getElem_take]
    have hplt : p < r.length := by
      rw [hpj]
      apply sas_mem
      rw [List.getD_eq_getElem _ 0 (by omega)]
      exact List.getElem_mem _
    refine ⟨hplt, ?_⟩
    rcases Nat.lt_or_ge j i with h | h
    · exact le_of_lt (by rw [hpj]; exact (sas_lt_iff (by omega) hi).mp h)
    · have : j = i := by omega
      subst this
      rw [hpj]
  · rintro ⟨hp, hle⟩
    have hrow : (suffix_array_simple r).getD (rowOf r p) 0 = p := sas_rowOf hp
    have hrlt : rowOf r p < r.length := rowOf_lt hp
    have hri : rowOf r p ≤ i := by
      rcases lt_or_eq_of_le hle with h | h
      · have := rowOf_strictMono hp (sas_mem (by
          rw [← hsa, List.getD_eq_getElem _ 0 (by omega)]
          exact List.getElem_mem _)) h
        rw [rowOf_sas hi] at this
        omega
      · have h2 : p = sa.getD i 0 :=
          drop_injective (by omega)
            (le_of_lt (sas_mem (by
              rw [← hsa, List.getD_eq_getElem _ 0 (by omega)]
              exact List.getElem_mem _))) h
        have h3 : rowOf r p = i := by
          rw [h2, hsa]
          exact rowOf_sas hi
        omega
    rw [← hrow]
    apply List.mem_iff_getElem.mpr
    refine ⟨rowOf r p, by simp; omega, ?_⟩
    rw [List.getElem_take, ← List.getD_eq_getElem _ 0 (by omega), hsa]

/-- Counting over a prefix of the sorted suffix array equals counting the
dominated suffixes. -/
theorem countP_sas_take {r : List Sym} (P : Nat → Bool) {i : Nat} (hi : i < r.length) :
    ((suffix_array_simple r).take (i + 1)).countP P =
      (List.range r.length).countP
        (fun q => P q && decide (r.drop q ≤ r.drop ((suffix_array_simple r).getD i 0))) := by
  set sa := suffix_array_simple r with hsa
  set M := (List.range r.length).filter
    (fun q => decide (r.drop q ≤ r.drop (sa.getD i 0))) with hM
  have hnd1 : (sa.take (i + 1)).Nodup := (List.take_sublist _ _).nodup (sas_nodup r)
  have hnd2 : M.Nodup := List.Nodup.filter _ (List.nodup_range _)
  have hperm : (sa.take (i + 1)).Perm M := by
    rw [List.perm_ext_iff_of_nodup hnd1 hnd2]
    intro q
    rw [hM, List.mem_filter, List.mem_range]
    constructor
    · intro hq
      have := (mem_sas_take_iff hi).mp hq
      exact ⟨this.1, by simpa using this.2⟩
    · rintro ⟨h1, h2⟩
      exact (mem_sas_take_iff hi).mpr ⟨h1, by simpa using h2⟩
  rw [hperm.countP_eq P, hM, List.countP_filter]

/-- `occCount` through the BWT prefix, as a count over text positions. -/
theorem bwt_occCount {r : List Sym} (c : Sym) {i : Nat} (hi : i < r.length) :
    occCount c ((bwtOf r).take (i + 1)) =
      (List.range r.length).countP
        (fun q => decide (bwtChar r q = c)
          && decide (r.drop q ≤ r.drop ((suffix_array_simple r).getD i 0))) := by
  unfold occCount bwtOf get_bwt
  rw [← List.map_take, List.countP_map]
  have : ((fun x => decide (x = c)) ∘ bwtChar r) = fun q => decide (bwtChar r q = c) :=
    rfl
  rw [this, countP_sas_take (fun q => decide (bwtChar r q = c)) hi]

/-- The C-table `_shifts_f` counts the symbols strictly below `c`. -/
theorem shifts_f_eq (r : List Sym) (c : Sym) :
    shifts_f r c = r.countP (fun x => decide (x < c)) := by
  induction r with
  | nil => cases c <;> simp [shifts_f, occCount]
  | cons a r ih =>
    have hx := ih
    cases c <;> cases a <;>
      simp [shifts_f, occCount, List.countP_cons, Sym.lt_iff, Sym.toNat] at hx ⊢ <;>
      omega

/-! ### Wavelet-tree node data -/

/-- The subsequence of the BWT routed through node `k`. -/
def nodeSeq (s : List Sym) : Nat → List Sym
  | 0 => s
  | 1 => s.filter keepNA
  | 2 => s.filter (fun c => !(keepNA c))
  | 3 => (s.filter (fun c => !(keepNA c))).filter keepCG
  | 4 => (s.filter (fun c => !(keepNA c))).filter keepTD
  | _ => []

/-- The bit function of node `k`. -/
def nodeBitf : Nat → Sym → Bool
  | 0 => bitf0
  | 1 => bitf1
  | 2 => bitf2
  | 3 => bitf3
  | 4 => bitf4
  | _ => bitf0

/-- The stored data of a non-empty wavelet-tree node (for node 0 on a BWT of
length at least 2): its bit vector, bucket array and a positive stride. -/
theorem wt_node_data (s : List Sym) (k : Nat) (hk : k < 5)
    (hne : nodeSeq s k ≠ []) (h0 : k = 0 → 2 ≤ s.length) :
    ∃ step, 1 ≤ step ∧
      (create_bit_vecs s).1.getD k [] = (nodeSeq s k).map (nodeBitf k) ∧
      (create_bit_vecs s).2.1.getD k [] =
        buildBucket ((nodeSeq s k).map (nodeBitf k)) step ∧
      (create_bit_vecs s).2.2.getD k 0 = step := by
  interval_cases k
  · exact ⟨ilog2 s.length, ilog2_pos (h0 rfl), by simp [create_bit_vecs, nodeSeq, nodeBitf],
      by simp [create_bit_vecs, nodeSeq, nodeBitf], by simp [create_bit_vecs]⟩
  · have hpos : 0 < (s.filter keepNA).length := List.length_pos_of_ne_nil hne
    refine ⟨max (ilog2 (s.filter keepNA).length) 1, le_max_right _ _, ?_, ?_, ?_⟩
    · simp [create_bit_vecs, nodeSeq, nodeBitf]
    · simp [create_bit_vecs, nodeSeq, nodeBitf, hpos]
    · simp [create_bit_vecs, nodeSeq, hpos]
  · have hpos : 0 < (s.filter (fun c => !(keepNA c))).length :=
      List.length_pos_of_ne_nil hne
    refine ⟨max (ilog2 (s.filter (fun c => !(keepNA c))).length) 1,
      le_max_right _ _, ?_, ?_, ?_⟩
    · simp [create_bit_vecs, nodeSeq, nodeBitf]
    · simp [create_bit_vecs, nodeSeq, nodeBitf, hpos]
    · simp [create_bit_vecs, nodeSeq, hpos]
  · have hpos : 0 < ((s.filter (fun c => !(keepNA c))).filter keepCG).length :=
      List.length_pos_of_ne_nil hne
    rw [List.filter_filter] at hpos
    refine ⟨max (ilog2 ((s.filter (fun c => !(keepNA c))).filter keepCG).length) 1,
      le_max_right _ _, ?_, ?_, ?_⟩
    · simp [create_bit_vecs, nodeSeq, nodeBitf]
    · simp [create_bit_vecs, nodeSeq, nodeBitf, hpos]
    · simp [create_bit_vecs, nodeSeq, hpos]
  · have hpos : 0 < ((s.filter (fun c => !(keepNA c))).filter keepTD).length :=
      List.length_pos_of_ne_nil hne
    rw [List.filter_filter] at hpos
    refine ⟨max (ilog2 ((s.filter (fun c => !(keepNA c))).filter keepTD).length) 1,
      le_max_right _ _, ?_, ?_, ?_⟩
    · simp [create_bit_vecs, nodeSeq, nodeBitf]
    · simp [create_bit_vecs, nodeSeq, nodeBitf, hpos]
    · simp [create_bit_vecs, nodeSeq, hpos]

/-- One level of the rank descent: the adjusted rank (rank of the resident
bit, corrected to the code bit `b`) counts the symbols of the node prefix
whose bit is `b`. -/
theorem level_rank (wt : WaveletTree) (s2 : List Sym) (k : Nat) (g : Sym → Bool)
    (step : Nat)
    (hbits : wt.bits.getD k [] = s2.map g)
    (hbk : wt.bucket_bits.getD k [] = buildBucket (s2.map g) step)
    (hst : wt.bucket_step_bits.getD k 0 = step)
    (h1 : 1 ≤ step) {i : Nat} (hi : i < s2.length) (b : Bool) :
    (if (wt.bits.getD k []).getD i false ≠ b then i + 1 - wt.rank_bit_node i k
     else wt.rank_bit_node i k)
    = (s2.take (i + 1)).countP (fun x => decide (g x = b)) := by
  have hmlen : i < (s2.map g).length := by simpa using hi
  have hraw : wt.rank_bit_node i k =
      if (s2.map g).getD i false then ((s2.map g).take (i + 1)).countP id
      else (i + 1) - ((s2.map g).take (i + 1)).countP id := by
    unfold WaveletTree.rank_bit_node
    rw [hbits, hbk, hst]
    exact rank_bit_raw_eq h1 hmlen
  have hres : (s2.map g).getD i false = g (s2.getD i Sym.dollar) := by
    rw [List.getD_eq_getElem _ _ hmlen, List.getElem_map,
      List.getD_eq_getElem _ _ hi]
  have hcnt : ((s2.map g).take (i + 1)).countP id = (s2.take (i + 1)).countP g := by
    rw [← List.map_take, List.countP_map]
    rfl
  have htrue : (s2.take (i + 1)).countP (fun x => decide (g x = true)) =
      (s2.take (i + 1)).countP g := by
    refine List.countP_congr ?_
    intro x _
    simp
  have hlen1 : (s2.take (i + 1)).length = i + 1 := by
    simp
    omega
  have hfalse : (s2.take (i + 1)).countP (fun x => decide (g x = false)) =
      (i + 1) - (s2.take (i + 1)).countP g := by
    have hsum := List.length_eq_countP_add_countP g (s2.take (i + 1))
    rw [hlen1] at hsum
    have : (s2.take (i + 1)).countP (fun x => decide (g x = false)) =
        (s2.take (i + 1)).countP (fun a => decide ¬ g a = true) := by
      refine List.countP_congr ?_
      intro x _
      cases hgx : g x <;> simp
    omega
  have hcle : (s2.take (i + 1)).countP g ≤ i + 1 :=
    le_trans (List.countP_le_length g) (by simp)
  rw [hbits, hraw, hres, hcnt]
  cases b <;> cases hgi : g (s2.getD i Sym.dollar) <;>
    simp only [hgi, if_true, if_false, ne_eq, Bool.true_eq_false, Bool.false_eq_true,
      not_false_eq_true, not_true_eq_false, if_neg, if_pos, htrue, hfalse] <;>
    first
      | rfl
      | omega
      | (rw [htrue]; rfl)
      | (rw [hfalse]; omega)

/-! ### Symbol-count helpers for the descent -/

theorem occCount_filter_of {c : Sym} {q : Sym → Bool} (hq : q c = true)
    (l : List Sym) : occCount c (l.filter q) = occCount c l := by
  unfold occCount
  rw [List.countP_filter]
  refine List.countP_congr ?_
  intro x _
  by_cases hx : x = c
  · subst hx
    simp [hq]
  · simp [hx]

theorem occCount_descend {c : Sym} {q : Sym → Bool} (hq : q c = true)
    (l : List Sym) (m : Nat) :
    occCount c ((l.filter q).take ((l.take m).countP q)) = occCount c (l.take m) := by
  rw [← filter_take_eq]
  exact occCount_filter_of hq (l.take m)

theorem occCount_le_countP {c : Sym} {q : Sym → Bool} (hq : q c = true)
    (l : List Sym) : occCount c l ≤ l.countP q := by
  refine List.countP_mono_left ?_
  intro x _ hx
  have : x = c := by simpa using hx
  rw [this]
  exact hq

/-! ### Rank correctness -/

/-- The stored data of node `k` feeds one descent level. -/
theorem node_level (wt : WaveletTree) (s : List Sym)
    (hb : wt.bits = (create_bit_vecs s).1)
    (hkk : wt.bucket_bits = (create_bit_vecs s).2.1)
    (hss : wt.bucket_step_bits = (create_bit_vecs s).2.2)
    (k : Nat) (hk : k < 5) (h0 : k = 0 → 2 ≤ s.length)
    {i : Nat} (hi : i < (nodeSeq s k).length) (b : Bool) :
    (if (wt.bits.getD k []).getD i false ≠ b then i + 1 - wt.rank_bit_node i k
     else wt.rank_bit_node i k)
    = ((nodeSeq s k).take (i + 1)).countP (fun x => decide (nodeBitf k x = b)) := by
  have hne : nodeSeq s k ≠ [] := by
    intro h
    rw [h] at hi
    simp at hi
  obtain ⟨step, h1, hb2, hk2, hs2⟩ := wt_node_data s k hk hne h0
  exact level_rank wt (nodeSeq s k) k (nodeBitf k) step
    (by rw [hb]; exact hb2) (by rw [hkk]; exact hk2) (by rw [hss]; exact hs2)
    h1 hi b

theorem rankLoop_single (wt : WaveletTree) (b : Bool) (k ci : Nat) :
    rankLoop wt [b] k ci =
      (let r := if (wt.bits.getD k []).getD ci false ≠ b
          then ci + 1 - wt.rank_bit_node ci k else wt.rank_bit_node ci k
       if r = 0 then 0 else r) := rfl

theorem rankLoop_cons2 (wt : WaveletTree) (b b2 : Bool) (rest : List Bool)
    (k ci : Nat) :
    rankLoop wt (b :: b2 :: rest) k ci =
      (let r := if (wt.bits.getD k []).getD ci false ≠ b
          then ci + 1 - wt.rank_bit_node ci k else wt.rank_bit_node ci k
       if r = 0 then 0
       else rankLoop wt (b2 :: rest) (childNode k b) (r - 1)) := rfl

theorem mem_node1 {s : List Sym} {x : Sym} (hx : x ∈ nodeSeq s 1) :
    keepNA x = true := by
  simpa using (List.mem_filter.mp hx).2

theorem mem_node2 {s : List Sym} {x : Sym} (hx : x ∈ nodeSeq s 2) :
    keepNA x = false := by
  have := (List.mem_filter.mp hx).2
  simpa using this

theorem mem_node3 {s : List Sym} {x : Sym} (hx : x ∈ nodeSeq s 3) :
    keepCG x = true := by
  simpa using (List.mem_filter.mp hx).2

theorem mem_node4 {s : List Sym} {x : Sym} (hx : x ∈ nodeSeq s 4) :
    keepTD x = true := by
  simpa using (List.mem_filter.mp hx).2

/-- Final level of the rank descent (a leaf-parent node). -/
theorem rankLoop_last (wt : WaveletTree) (s : List Sym)
    (hb : wt.bits = (create_bit_vecs s).1)
    (hkk : wt.bucket_bits = (create_bit_vecs s).2.1)
    (hss : wt.bucket_step_bits = (create_bit_vecs s).2.2)
    (k : Nat) (hk : k < 5) (h0 : k = 0 → 2 ≤ s.length) (b : Bool) (c : Sym)
    (hcb : ∀ x ∈ nodeSeq s k, decide (nodeBitf k x = b) = decide (x = c))
    {i : Nat} (hi : i < (nodeSeq s k).length) :
    rankLoop wt [b] k i = occCount c ((nodeSeq s k).take (i + 1)) := by
  have l := node_level wt s hb hkk hss k hk h0 hi b
  have hXc : (if (wt.bits.getD k []).getD i false ≠ b
      then i + 1 - wt.rank_bit_node i k else wt.rank_bit_node i k)
      = occCount c ((nodeSeq s k).take (i + 1)) := by
    rw [l]
    unfold occCount
    refine List.countP_congr ?_
    intro x hx
    rw [hcb x (List.mem_of_mem_take hx)]
  simp only [rankLoop_single]
  rw [hXc]
  by_cases h : occCount c ((nodeSeq s k).take (i + 1)) = 0
  · rw [if_pos h, h]
  · rw [if_neg h]

/-- Intermediate level of the rank descent: either the branch count is zero
(and so is the symbol count), or the loop descends into the child with the
counts carried across the filter. -/
theorem rankLoop_mid (wt : WaveletTree) (s : List Sym)
    (hb : wt.bits = (create_bit_vecs s).1)
    (hkk : wt.bucket_bits = (create_bit_vecs s).2.1)
    (hss : wt.bucket_step_bits = (create_bit_vecs s).2.2)
    (k : Nat) (hk : k < 5) (h0 : k = 0 → 2 ≤ s.length)
    (b b2 : Bool) (rest : List Bool) (q : Sym → Bool) (c : Sym)
    (hqb : ∀ x ∈ nodeSeq s k, decide (nodeBitf k x = b) = q x)
    (hqc : q c = true)
    (hchild : nodeSeq s (childNode k b) = (nodeSeq s k).filter q)
    {i : Nat} (hi : i < (nodeSeq s k).length)
    (hrec : ∀ {i2 : Nat}, i2 < (nodeSeq s (childNode k b)).length →
      rankLoop wt (b2 :: rest) (childNode k b) i2 =
        occCount c ((nodeSeq s (childNode k b)).take (i2 + 1))) :
    rankLoop wt (b :: b2 :: rest) k i = occCount c ((nodeSeq s k).take (i + 1)) := by
  have l := node_level wt s hb hkk hss k hk h0 hi b
  have hXq : (if (wt.bits.getD k []).getD i false ≠ b
      then i + 1 - wt.rank_bit_node i k else wt.rank_bit_node i k)
      = ((nodeSeq s k).take (i + 1)).countP q := by
    rw [l]
    refine List.countP_congr ?_
    intro x hx
    rw [hqb x (List.mem_of_mem_take hx)]
  simp only [rankLoop_cons2]
  rw [hXq]
  set X := ((nodeSeq s k).take (i + 1)).countP q with hXdef
  by_cases hX : X = 0
  · rw [if_pos hX]
    have hle : occCount c ((nodeSeq s k).take (i + 1)) ≤ X := occCount_le_countP hqc _
    omega
  · rw [if_neg hX]
    have hXle : X ≤ (nodeSeq s (childNode k b)).length := by
      rw [hchild, ← List.countP_eq_length_filter]
      exact countP_take_le_countP q (nodeSeq s k) (i + 1)
    have hi2 : X - 1 < (nodeSeq s (childNode k b)).length := by omega
    rw [hrec hi2]
    have h1X : X - 1 + 1 = X := by omega
    rw [h1X, hchild, hXdef]
    exact occCount_descend hqc (nodeSeq s k) (i + 1)

/-- Correctness of `WaveletTree.rank`: the number of occurrences of `c` in
the prefix `s[0..i]` of the string the wavelet tree was built from. -/
theorem rank_correct (wt : WaveletTree) (s : List Sym)
    (hb : wt.bits = (create_bit_vecs s).1)
    (hkk : wt.bucket_bits = (create_bit_vecs s).2.1)
    (hss : wt.bucket_step_bits = (create_bit_vecs s).2.2)
    (h2 : 2 ≤ s.length) (c : Sym) {i : Nat} (hi : i < s.length) :
    wt.rank c i = occCount c (s.take (i + 1)) := by
  have hi0 : i < (nodeSeq s 0).length := hi
  cases c with
  | N =>
    exact rankLoop_mid wt s hb hkk hss 0 (by omega) (fun _ => h2)
      false false [] keepNA Sym.N
      (fun x hx => by clear hx; revert x; decide) (by decide) rfl hi0
      (fun {i2} hi2 =>
        rankLoop_last wt s hb hkk hss 1 (by omega) (by omega) false Sym.N
          (fun x hx => by
            have h := mem_node1 hx
            clear hx
            revert x
            decide) hi2)
  | A =>
    exact rankLoop_mid wt s hb hkk hss 0 (by omega) (fun _ => h2)
      false true [] keepNA Sym.A
      (fun x hx => by clear hx; revert x; decide) (by decide) rfl hi0
      (fun {i2} hi2 =>
        rankLoop_last wt s hb hkk hss 1 (by omega) (by omega) true Sym.A
          (fun x hx => by
            have h := mem_node1 hx
            clear hx
            revert x
            decide) hi2)
  | C =>
    exact rankLoop_mid wt s hb hkk hss 0 (by omega) (fun _ => h2)
      true false [false] (fun x => !(keepNA x)) Sym.C
      (fun x hx => by clear hx; revert x; decide) (by decide) rfl hi0
      (fun {i2} hi2 =>
        rankLoop_mid wt s hb hkk hss 2 (by omega) (by omega)
          false false [] keepCG Sym.C
          (fun x hx => by
            have h := mem_node2 hx
            clear hx
            revert x
            decide) (by decide) rfl hi2
          (fun {i3} hi3 =>
            rankLoop_last wt s hb hkk hss 3 (by omega) (by omega) false Sym.C
              (fun x hx => by
                have h := mem_node3 hx
                clear hx
                revert x
                decide) hi3))
  | G =>
    exact rankLoop_mid wt s hb hkk hss 0 (by omega) (fun _ => h2)
      true false [true] (fun x => !(keepNA x)) Sym.G
      (fun x hx => by clear hx; revert x; decide) (by decide) rfl hi0
      (fun {i2} hi2 =>
        rankLoop_mid wt s hb hkk hss 2 (by omega) (by omega)
          false true [] keepCG Sym.G
          (fun x hx => by
            have h := mem_node2 hx
            clear hx
            revert x
            decide) (by decide) rfl hi2
          (fun {i3} hi3 =>
            rankLoop_last wt s hb hkk hss 3 (by omega) (by omega) true Sym.G
              (fun x hx => by
                have h := mem_node3 hx
                clear hx
                revert x
                decide) hi3))
  | T =>
    exact rankLoop_mid wt s hb hkk hss 0 (by omega) (fun _ => h2)
      true true [false] (fun x => !(keepNA x)) Sym.T
      (fun x hx => by clear hx; revert x; decide) (by decide) rfl hi0
      (fun {i2} hi2 =>
        rankLoop_mid wt s hb hkk hss 2 (by omega) (by omega)
          true false [] keepTD Sym.T
          (fun x hx => by
            have h := mem_node2 hx
            clear hx
            revert x
            decide) (by decide) rfl hi2
          (fun {i3} hi3 =>
            rankLoop_last wt s hb hkk hss 4 (by omega) (by omega) false Sym.T
              (fun x hx => by
                have h := mem_node4 hx
                clear hx
                revert x
                decide) hi3))
  | dollar =>
    exact rankLoop_mid wt s hb hkk hss 0 (by omega) (fun _ => h2)
      true true [true] (fun x => !(keepNA x)) Sym.dollar
      (fun x hx => by clear hx; revert x; decide) (by decide) rfl hi0
      (fun {i2} hi2 =>
        rankLoop_mid wt s hb hkk hss 2 (by omega) (by omega)
          true true [] keepTD Sym.dollar
          (fun x hx => by
            have h := mem_node2 hx
            clear hx
            revert x
            decide) (by decide) rfl hi2
          (fun {i3} hi3 =>
            rankLoop_last wt s hb hkk hss 4 (by omega) (by omega) true Sym.dollar
              (fun x hx => by
                have h := mem_node4 hx
                clear hx
                revert x
                decide) hi3))

/-! ### Access correctness -/

theorem accessLoop_succ (wt : WaveletTree) (fuel curr ci : Nat) (bit : Bool) :
    accessLoop wt (fuel + 1) curr ci bit =
      if rowLeftIsSym curr then childSym curr bit
      else accessLoop wt fuel (childNode curr bit) (wt.rank_bit_node ci curr - 1)
        ((wt.bits.getD (childNode curr bit) []).getD (wt.rank_bit_node ci curr - 1)
          false) := rfl

/-- The stored bit of node `k` at `j` is the bit function of the routed
symbol. -/
theorem bits_getD (wt : WaveletTree) (s : List Sym)
    (hb : wt.bits = (create_bit_vecs s).1) (k : Nat) (hk : k < 5)
    {j : Nat} (hj : j < (nodeSeq s k).length) :
    (wt.bits.getD k []).getD j false = nodeBitf k ((nodeSeq s k).getD j Sym.dollar) := by
  have hbk : (create_bit_vecs s).1.getD k [] = (nodeSeq s k).map (nodeBitf k) := by
    interval_cases k <;> simp [create_bit_vecs, nodeSeq, nodeBitf]
  rw [hb, hbk, List.getD_eq_getElem _ _ (by simpa using hj), List.getElem_map,
    List.getD_eq_getElem _ _ hj]

theorem countP_take_pos {α : Type} {q : α → Bool} {l : List α} (d : α) {i : Nat}
    (hi : i < l.length) (hq : q (l.getD i d) = true) :
    1 ≤ (l.take (i + 1)).countP q := by
  rw [countP_take_succ q l d i hi, hq]
  simp

/-- One step of the access descent: the child index is in range and the
routed symbol is preserved. -/
theorem access_descend (wt : WaveletTree) (s : List Sym)
    (hb : wt.bits = (create_bit_vecs s).1)
    (hkk : wt.bucket_bits = (create_bit_vecs s).2.1)
    (hss : wt.bucket_step_bits = (create_bit_vecs s).2.2)
    (k : Nat) (hk : k < 5) (h0 : k = 0 → 2 ≤ s.length) (q : Sym → Bool)
    {i : Nat} (hi : i < (nodeSeq s k).length)
    (hqb : ∀ y ∈ nodeSeq s k,
      decide (nodeBitf k y = nodeBitf k ((nodeSeq s k).getD i Sym.dollar)) = q y)
    (hqx : q ((nodeSeq s k).getD i Sym.dollar) = true) :
    wt.rank_bit_node i k - 1 < ((nodeSeq s k).filter q).length ∧
      ((nodeSeq s k).filter q).getD (wt.rank_bit_node i k - 1) Sym.dollar
        = (nodeSeq s k).getD i Sym.dollar := by
  have hne : nodeSeq s k ≠ [] := by
    intro h
    rw [h] at hi
    simp at hi
  obtain ⟨step, h1, hb2, hk2, hs2⟩ := wt_node_data s k hk hne h0
  have hres : (wt.bits.getD k []).getD i false
      = nodeBitf k ((nodeSeq s k).getD i Sym.dollar) := bits_getD wt s hb k hk hi
  have l := node_level wt s hb hkk hss k hk h0 hi
    (nodeBitf k ((nodeSeq s k).getD i Sym.dollar))
  rw [hres] at l
  rw [if_neg (fun h => h rfl)] at l
  have hrr : wt.rank_bit_node i k =
      ((nodeSeq s k).take (i + 1)).countP q := by
    rw [l]
    refine List.countP_congr ?_
    intro y hy
    rw [hqb y (List.mem_of_mem_take hy)]
  have hpos : 1 ≤ ((nodeSeq s k).take (i + 1)).countP q :=
    countP_take_pos Sym.dollar hi hqx
  have hub : ((nodeSeq s k).take (i + 1)).countP q ≤ ((nodeSeq s k).filter q).length := by
    rw [← List.countP_eq_length_filter]
    exact countP_take_le_countP q (nodeSeq s k) (i + 1)
  refine ⟨by omega, ?_⟩
  rw [hrr]
  exact filter_getD_at q (nodeSeq s k) Sym.dollar hi hqx

/-- Correctness of `WaveletTree.access`: the BWT character at `index`. -/
theorem access_correct (wt : WaveletTree) (s : List Sym)
    (hb : wt.bits = (create_bit_vecs s).1)
    (hkk : wt.bucket_bits = (create_bit_vecs s).2.1)
    (hss : wt.bucket_step_bits = (create_bit_vecs s).2.2)
    (h2 : 2 ≤ s.length) {i : Nat} (hi : i < s.length) :
    wt.access i = s.getD i Sym.dollar := by
  have hi0 : i < (nodeSeq s 0).length := hi
  cases hxe : s.getD i Sym.dollar with
  | N =>
    obtain ⟨hlt1, hget1⟩ := access_descend wt s hb hkk hss 0 (by omega)
      (fun _ => h2) keepNA hi0
      (by
        intro y hy
        clear hy
        rw [show (nodeSeq s 0).getD i Sym.dollar = Sym.N from hxe]
        revert y
        decide)
      (by rw [show (nodeSeq s 0).getD i Sym.dollar = Sym.N from hxe]; decide)
    show accessLoop wt 3 0 i ((wt.bits.getD 0 []).getD i false) = Sym.N
    rw [bits_getD wt s hb 0 (by omega) hi0,
      show (nodeSeq s 0).getD i Sym.dollar = _ from hxe]
    show accessLoop wt 2 1 (wt.rank_bit_node i 0 - 1)
      ((wt.bits.getD 1 []).getD (wt.rank_bit_node i 0 - 1) false) = Sym.N
    rw [bits_getD wt s hb 1 (by omega) hlt1,
      show (nodeSeq s 1).getD (wt.rank_bit_node i 0 - 1) Sym.dollar = Sym.N from
        hget1.trans hxe]
    rfl
  | A =>
    obtain ⟨hlt1, hget1⟩ := access_descend wt s hb hkk hss 0 (by omega)
      (fun _ => h2) keepNA hi0
      (by
        intro y hy
        clear hy
        rw [show (nodeSeq s 0).getD i Sym.dollar = Sym.A from hxe]
        revert y
        decide)
      (by rw [show (nodeSeq s 0).getD i Sym.dollar = Sym.A from hxe]; decide)
    show accessLoop wt 3 0 i ((wt.bits.getD 0 []).getD i false) = Sym.A
    rw [bits_getD wt s hb 0 (by omega) hi0,
      show (nodeSeq s 0).getD i Sym.dollar = _ from hxe]
    show accessLoop wt 2 1 (wt.rank_bit_node i 0 - 1)
      ((wt.bits.getD 1 []).getD (wt.rank_bit_node i 0 - 1) false) = Sym.A
    rw [bits_getD wt s hb 1 (by omega) hlt1,
      show (nodeSeq s 1).getD (wt.rank_bit_node i 0 - 1) Sym.dollar = Sym.A from
        hget1.trans hxe]
    rfl
  | C =>
    obtain ⟨hlt2, hget2⟩ := access_descend wt s hb hkk hss 0 (by omega)
      (fun _ => h2) (fun y => !(keepNA y)) hi0
      (by
        intro y hy
        clear hy
        rw [show (nodeSeq s 0).getD i Sym.dollar = Sym.C from hxe]
        revert y
        decide)
      (by rw [show (nodeSeq s 0).getD i Sym.dollar = Sym.C from hxe]; decide)
    obtain ⟨hlt3, hget3⟩ := access_descend wt s hb hkk hss 2 (by omega)
      (by omega) keepCG hlt2
      (by
        intro y hy
        have hm := mem_node2 hy
        clear hy
        rw [show (nodeSeq s 2).getD (wt.rank_bit_node i 0 - 1) Sym.dollar = Sym.C from
          hget2.trans hxe]
        revert y
        decide)
      (by
        rw [show (nodeSeq s 2).getD (wt.rank_bit_node i 0 - 1) Sym.dollar = Sym.C from
          hget2.trans hxe]
        decide)
    show accessLoop wt 3 0 i ((wt.bits.getD 0 []).getD i false) = Sym.C
    rw [bits_getD wt s hb 0 (by omega) hi0,
      show (nodeSeq s 0).getD i Sym.dollar = _ from hxe]
    show accessLoop wt 2 2 (wt.rank_bit_node i 0 - 1)
      ((wt.bits.getD 2 []).getD (wt.rank_bit_node i 0 - 1) false) = Sym.C
    rw [bits_getD wt s hb 2 (by omega) hlt2,
      show (nodeSeq s 2).getD (wt.rank_bit_node i 0 - 1) Sym.dollar = _ from
        hget2.trans hxe]
    show accessLoop wt 1 3 (wt.rank_bit_node (wt.rank_bit_node i 0 - 1) 2 - 1)
      ((wt.bits.getD 3 []).getD (wt.rank_bit_node (wt.rank_bit_node i 0 - 1) 2 - 1)
        false) = Sym.C
    rw [bits_getD wt s hb 3 (by omega) hlt3,
      show (nodeSeq s 3).getD (wt.rank_bit_node (wt.rank_bit_node i 0 - 1) 2 - 1)
          Sym.dollar = _ from hget3.trans (hget2.trans hxe)]
    rfl
  | G =>
    obtain ⟨hlt2, hget2⟩ := access_descend wt s hb hkk hss 0 (by omega)
      (fun _ => h2) (fun y => !(keepNA y)) hi0
      (by
        intro y hy
        clear hy
        rw [show (nodeSeq s 0).getD i Sym.dollar = Sym.G from hxe]
        revert y
        decide)
      (by rw [show (nodeSeq s 0).getD i Sym.dollar = Sym.G from hxe]; decide)
    obtain ⟨hlt3, hget3⟩ := access_descend wt s hb hkk hss 2 (by omega)
      (by omega) keepCG hlt2
      (by
        intro y hy
        have hm := mem_node2 hy
        clear hy
        rw [show (nodeSeq s 2).getD (wt.rank_bit_node i 0 - 1) Sym.dollar = Sym.G from
          hget2.trans hxe]
        revert y
        decide)
      (by
        rw [show (nodeSeq s 2).getD (wt.rank_bit_node i 0 - 1) Sym.dollar = Sym.G from
          hget2.trans hxe]
        decide)
    show accessLoop wt 3 0 i ((wt.bits.getD 0 []).getD i false) = Sym.G
    rw [bits_getD wt s hb 0 (by omega) hi0,
      show (nodeSeq s 0).getD i Sym.dollar = _ from hxe]
    show accessLoop wt 2 2 (wt.rank_bit_node i 0 - 1)
      ((wt.bits.getD 2 []).getD (wt.rank_bit_node i 0 - 1) false) = Sym.G
    rw [bits_getD wt s hb 2 (by omega) hlt2,
      show (nodeSeq s 2).getD (wt.rank_bit_node i 0 - 1) Sym.dollar = _ from
        hget2.trans hxe]
    show accessLoop wt 1 3 (wt.rank_bit_node (wt.rank_bit_node i 0 - 1) 2 - 1)
      ((wt.bits.getD 3 []).getD (wt.rank_bit_node (wt.rank_bit_node i 0 - 1) 2 - 1)
        false) = Sym.G
    rw [bits_getD wt s hb 3 (by omega) hlt3,
      show (nodeSeq s 3).getD (wt.rank_bit_node (wt.rank_bit_node i 0 - 1) 2 - 1)
          Sym.dollar = _ from hget3.trans (hget2.trans hxe)]
    rfl
  | T =>
    obtain ⟨hlt2, hget2⟩ := access_descend wt s hb hkk hss 0 (by omega)
      (fun _ => h2) (fun y => !(keepNA y)) hi0
      (by
        intro y hy
        clear hy
        rw [show (nodeSeq s 0).getD i Sym.dollar = Sym.T from hxe]
        revert y
        decide)
      (by rw [show (nodeSeq s 0).getD i Sym.dollar = Sym.T from hxe]; decide)
    obtain ⟨hlt4, hget4⟩ := access_descend wt s hb hkk hss 2 (by omega)
      (by omega) keepTD hlt2
      (by
        intro y hy
        have hm := mem_node2 hy
        clear hy
        rw [show (nodeSeq s 2).getD (wt.rank_bit_node i 0 - 1) Sym.dollar = Sym.T from
          hget2.trans hxe]
        revert y
        decide)
      (by
        rw [show (nodeSeq s 2).getD (wt.rank_bit_node i 0 - 1) Sym.dollar = Sym.T from
          hget2.trans hxe]
        decide)
    show accessLoop wt 3 0 i ((wt.bits.getD 0 []).getD i false) = Sym.T
    rw [bits_getD wt s hb 0 (by omega) hi0,
      show (nodeSeq s 0).getD i Sym.dollar = _ from hxe]
    show accessLoop wt 2 2 (wt.rank_bit_node i 0 - 1)
      ((wt.bits.getD 2 []).getD (wt.rank_bit_node i 0 - 1) false) = Sym.T
    rw [bits_getD wt s hb 2 (by omega) hlt2,
      show (nodeSeq s 2).getD (wt.rank_bit_node i 0 - 1) Sym.dollar = _ from
        hget2.trans hxe]
    show accessLoop wt 1 4 (wt.rank_bit_node (wt.rank_bit_node i 0 - 1) 2 - 1)
      ((wt.bits.getD 4 []).getD (wt.rank_bit_node (wt.rank_bit_node i 0 - 1) 2 - 1)
        false) = Sym.T
    rw [bits_getD wt s hb 4 (by omega) hlt4,
      show (nodeSeq s 4).getD (wt.rank_bit_node (wt.rank_bit_node i 0 - 1) 2 - 1)
          Sym.dollar = _ from hget4.trans (hget2.trans hxe)]
    rfl
  | dollar =>
    obtain ⟨hlt2, hget2⟩ := access_descend wt s hb hkk hss 0 (by omega)
      (fun _ => h2) (fun y => !(keepNA y)) hi0
      (by
        intro y hy
        clear hy
        rw [show (nodeSeq s 0).getD i Sym.dollar = Sym.dollar from hxe]
        revert y
        decide)
      (by rw [show (nodeSeq s 0).getD i Sym.dollar = Sym.dollar from hxe]; decide)
    obtain ⟨hlt4, hget4⟩ := access_descend wt s hb hkk hss 2 (by omega)
      (by omega) keepTD hlt2
      (by
        intro y hy
        have hm := mem_node2 hy
        clear hy
        rw [show (nodeSeq s 2).getD (wt.rank_bit_node i 0 - 1) Sym.dollar = Sym.dollar from
          hget2.trans hxe]
        revert y
        decide)
      (by
        rw [show (nodeSeq s 2).getD (wt.rank_bit_node i 0 - 1) Sym.dollar = Sym.dollar from
          hget2.trans hxe]
        decide)
    show accessLoop wt 3 0 i ((wt.bits.getD 0 []).getD i false) = Sym.dollar
    rw [bits_getD wt s hb 0 (by omega) hi0,
      show (nodeSeq s 0).getD i Sym.dollar = _ from hxe]
    show accessLoop wt 2 2 (wt.rank_bit_node i 0 - 1)
      ((wt.bits.getD 2 []).getD (wt.rank_bit_node i 0 - 1) false) = Sym.dollar
    rw [bits_getD wt s hb 2 (by omega) hlt2,
      show (nodeSeq s 2).getD (wt.rank_bit_node i 0 - 1) Sym.dollar = _ from
        hget2.trans hxe]
    show accessLoop wt 1 4 (wt.rank_bit_node (wt.rank_bit_node i 0 - 1) 2 - 1)
      ((wt.bits.getD 4 []).getD (wt.rank_bit_node (wt.rank_bit_node i 0 - 1) 2 - 1)
        false) = Sym.dollar
    rw [bits_getD wt s hb 4 (by omega) hlt4,
      show (nodeSeq s 4).getD (wt.rank_bit_node (wt.rank_bit_node i 0 - 1) 2 - 1)
          Sym.dollar = _ from hget4.trans (hget2.trans hxe)]
    rfl

/-! ### Components of the SA compression pipeline -/

theorem saCompLoop_cons (comp step num idx rank : Nat) (t : List Nat) :
    saCompLoop comp step (num :: t) idx rank =
      ((if decide (num % comp = 0) then num ::
          (saCompLoop comp step t (idx + 1)
            (if decide (num % comp = 0) then rank + 1 else rank)).1
        else (saCompLoop comp step t (idx + 1)
            (if decide (num % comp = 0) then rank + 1 else rank)).1),
        decide (num % comp = 0) ::
          (saCompLoop comp step t (idx + 1)
            (if decide (num % comp = 0) then rank + 1 else rank)).2.1,
        (if 0 < idx ∧ idx % step = 0 then
          (if decide (num % comp = 0) then rank + 1 else rank) ::
            (saCompLoop comp step t (idx + 1)
              (if decide (num % comp = 0) then rank + 1 else rank)).2.2
         else (saCompLoop comp step t (idx + 1)
              (if decide (num % comp = 0) then rank + 1 else rank)).2.2)) := rfl

theorem saCompLoop_fst (comp step : Nat) :
    ∀ (l : List Nat) (idx rank : Nat),
      (saCompLoop comp step l idx rank).1
        = l.filter (fun x => decide (x % comp = 0)) := by
  intro l
  induction l with
  | nil => intro idx rank; rfl
  | cons num t ih =>
    intro idx rank
    rw [saCompLoop_cons, List.filter_cons]
    by_cases hm : num % comp = 0 <;> simp [hm, ih]

theorem saCompLoop_bits (comp step : Nat) :
    ∀ (l : List Nat) (idx rank : Nat),
      (saCompLoop comp step l idx rank).2.1
        = l.map (fun x => decide (x % comp = 0)) := by
  intro l
  induction l with
  | nil => intro idx rank; rfl
  | cons num t ih =>
    intro idx rank
    rw [saCompLoop_cons, List.map_cons]
    simp [ih]

theorem saCompLoop_bucket (comp step : Nat) :
    ∀ (l : List Nat) (idx rank : Nat),
      (saCompLoop comp step l idx rank).2.2
        = bucketAux step (l.map (fun x => decide (x % comp = 0))) idx rank := by
  intro l
  induction l with
  | nil => intro idx rank; rfl
  | cons num t ih =>
    intro idx rank
    rw [saCompLoop_cons, List.map_cons]
    have hbA : bucketAux step
        (decide (num % comp = 0) :: t.map (fun x => decide (x % comp = 0))) idx rank
      = (if 0 < idx ∧ idx % step = 0 then
          (rank + cond (decide (num % comp = 0)) 1 0) ::
            bucketAux step (t.map (fun x => decide (x % comp = 0))) (idx + 1)
              (rank + cond (decide (num % comp = 0)) 1 0)
         else bucketAux step (t.map (fun x => decide (x % comp = 0))) (idx + 1)
              (rank + cond (decide (num % comp = 0)) 1 0)) := rfl
    have hr2 : (if decide (num % comp = 0) then rank + 1 else rank)
        = rank + cond (decide (num % comp = 0)) 1 0 := by
      cases hdm : decide (num % comp = 0) <;> simp
    rw [hbA, hr2, ih]

theorem pipeline_comp1 (r : List Sym) (st : Strategy) (step : Nat) :
    suffix_array_pipeline r st 1 step
      = (saOf st r, none, none, get_bwt r (saOf st r)) := by
  simp [suffix_array_pipeline]

theorem pipeline_fst (r : List Sym) (st : Strategy) {comp : Nat} (step : Nat)
    (h : comp ≠ 1) :
    (suffix_array_pipeline r st comp step).1
      = (saOf st r).filter (fun x => decide (x % comp = 0)) := by
  simp only [suffix_array_pipeline]
  rw [if_neg h]
  exact saCompLoop_fst comp step (saOf st r) 0 0

theorem pipeline_bitvector (r : List Sym) (st : Strategy) {comp : Nat} (step : Nat)
    (h : comp ≠ 1) :
    (suffix_array_pipeline r st comp step).2.1
      = some ((saOf st r).map (fun x => decide (x % comp = 0))) := by
  simp only [suffix_array_pipeline]
  rw [if_neg h]
  simp [saCompLoop_bits comp step (saOf st r) 0 0]

theorem pipeline_bucket (r : List Sym) (st : Strategy) {comp : Nat} (step : Nat)
    (h : comp ≠ 1) (hne : saOf st r ≠ []) :
    (suffix_array_pipeline r st comp step).2.2.1
      = some (buildBucket ((saOf st r).map (fun x => decide (x % comp = 0))) step) := by
  obtain ⟨num, t, hsa⟩ : ∃ num t, saOf st r = num :: t := by
    cases hcase : saOf st r with
    | nil => exact absurd hcase hne
    | cons num t => exact ⟨num, t, rfl⟩
  simp only [suffix_array_pipeline]
  rw [if_neg h, hsa, saCompLoop_bucket]
  show some ((if (num :: t).headD 0 % comp = 0 then 1 else 0)
      :: bucketAux step ((num :: t).map (fun x => decide (x % comp = 0))) 0 0) = _
  rw [List.map_cons]
  show _ = some ((cond (decide (num % comp = 0)) 1 0)
      :: bucketAux step (decide (num % comp = 0) :: t.map (fun x => decide (x % comp = 0))) 0 0)
  have hhead : (if (num :: t).headD 0 % comp = 0 then 1 else 0)
      = cond (decide (num % comp = 0)) 1 0 := by
    by_cases hm : num % comp = 0 <;> simp [hm]
  rw [hhead]

theorem pipeline_bwt (r : List Sym) (st : Strategy) (comp step : Nat) :
    (suffix_array_pipeline r st comp step).2.2.2 = get_bwt r (saOf st r) := by
  simp only [suffix_array_pipeline]
  split <;> rfl

/-- `buildWT` on an already-terminated reference: all stored fields. -/
theorem buildWT_norm (r : List Sym) (st : Strategy) (comp : Nat)
    (hlast : r.getLast? = some Sym.dollar) :
    buildWT r st comp =
      { compression_sa := comp
        bucket_step_sa := ilog2 r.length
        sa := (suffix_array_pipeline r st comp (ilog2 r.length)).1
        bitvector := (suffix_array_pipeline r st comp (ilog2 r.length)).2.1
        bucket_sa := (suffix_array_pipeline r st comp (ilog2 r.length)).2.2.1
        f := shifts_f r
        bits := (create_bit_vecs (get_bwt r (saOf st r))).1
        bucket_bits := (create_bit_vecs (get_bwt r (saOf st r))).2.1
        bucket_step_bits := (create_bit_vecs (get_bwt r (saOf st r))).2.2
        n := r.length } := by
  have hcond : (if r.getLast? ≠ some Sym.dollar then r ++ [Sym.dollar] else r) = r := by
    rw [if_neg (by simp [hlast])]
  simp only [buildWT, hcond, pipeline_bwt]

/-! ### The LF step -/

theorem countP_congr_bool {α : Type} {p q : α → Bool} {l : List α}
    (h : ∀ x ∈ l, p x = q x) : l.countP p = l.countP q :=
  List.countP_congr (fun x hx => by rw [h x hx])

theorem countP_eq_range {α : Type} (P : α → Bool) (d : α) (l : List α) :
    l.countP P = (List.range l.length).countP (fun q => P (l.getD q d)) := by
  induction l with
  | nil => simp
  | cons a l ih =>
    rw [List.countP_cons, List.length_cons, List.range_succ_eq_map, List.countP_cons,
      List.countP_map]
    have hfun : ∀ w ∈ List.range l.length,
        ((fun q => P ((a :: l).getD q d)) ∘ Nat.succ) w
          = (fun q => P (l.getD q d)) w := by
      intro w hw
      show P ((a :: l).getD (w + 1) d) = P (l.getD w d)
      rw [List.getD_cons_succ]
    rw [countP_congr_bool hfun, ← ih]
    simp

theorem countP_or_disjoint {α : Type} {P Q : α → Bool} {l : List α}
    (h : ∀ x ∈ l, ¬(P x = true ∧ Q x = true)) :
    l.countP (fun x => P x || Q x) = l.countP P + l.countP Q := by
  induction l with
  | nil => simp
  | cons a l ih =>
    rw [List.countP_cons, List.countP_cons, List.countP_cons,
      ih (fun x hx => h x (List.mem_cons_of_mem a hx))]
    have ha := h a (List.mem_cons_self a l)
    by_cases hP : P a = true <;> by_cases hQ : Q a = true
    · exact absurd ⟨hP, hQ⟩ ha
    · simp [hP, hQ]
      omega
    · simp [hP, hQ]
      omega
    · simp [hP, hQ]

theorem countP_range_eq_single {x : Nat} :
    ∀ {m : Nat}, x < m → (List.range m).countP (fun w => decide (w = x)) = 1 := by
  intro m
  induction m with
  | zero => intro h; omega
  | succ k ih =>
    intro h
    rw [List.range_succ, List.countP_append]
    rcases Nat.lt_or_ge x k with h2 | h2
    · rw [ih h2]
      have hone : ([k] : List Nat).countP (fun w => decide (w = x)) = 0 := by
        simp [List.countP_cons]
        omega
      rw [hone]
    · have hxk : x = k := by omega
      subst hxk
      have h0 : (List.range x).countP (fun w => decide (w = x)) = 0 := by
        rw [List.countP_eq_zero]
        intro w hw
        simp at hw ⊢
        omega
      rw [h0]
      simp [List.countP_cons]

/-- The LF mapping along the Simple suffix array: for a row `p` whose SA
value `v` is nonzero, `C[c] + rank_c(BWT, p) - 1` (with `c = BWT[p] =
r[v-1]`) is the row of the suffix starting at `v - 1`, and the rank is
positive. -/
theorem lf_count {r : List Sym} (hr : Valid r) {p : Nat} (hp : p < r.length)
    (hv : (suffix_array_simple r).getD p 0 ≠ 0) :
    1 ≤ occCount (r.getD ((suffix_array_simple r).getD p 0 - 1) Sym.dollar)
        ((bwtOf r).take (p + 1)) ∧
    shifts_f r (r.getD ((suffix_array_simple r).getD p 0 - 1) Sym.dollar)
        + occCount (r.getD ((suffix_array_simple r).getD p 0 - 1) Sym.dollar)
          ((bwtOf r).take (p + 1)) - 1
      = rowOf r ((suffix_array_simple r).getD p 0 - 1) := by
  have hn2 : 2 ≤ r.length := hr.two_le
  set sa := suffix_array_simple r with hsadef
  set v := sa.getD p 0 with hvdef
  have hvlt : v < r.length := by
    apply sas_mem
    rw [hvdef, hsadef, List.getD_eq_getElem _ 0 (by rw [sas_length]; omega)]
    exact List.getElem_mem _
  have hv1 : 1 ≤ v := by omega
  set c := r.getD (v - 1) Sym.dollar with hcdef
  have hcne : c ≠ Sym.dollar := by
    intro hcd
    have := (hr.dollar_iff (show v - 1 < r.length by omega)).mp (hcdef ▸ hcd)
    omega
  have hvm1cons : r.drop (v - 1) = c :: r.drop v := by
    rw [drop_cons_getD (show v - 1 < r.length by omega), ← hcdef]
    have : v - 1 + 1 = v := by omega
    rw [this]
  -- Part A: the BWT-prefix count as a text-position count, reindexed.
  have hA : occCount c ((bwtOf r).take (p + 1))
      = (List.range (r.length - 1)).countP
          (fun w => decide (r.getD w Sym.dollar = c ∧ r.drop (w + 1) ≤ r.drop v)) := by
    rw [bwt_occCount c hp, ← hsadef, ← hvdef]
    have hsplit : r.length = (r.length - 1) + 1 := by omega
    rw [hsplit, List.range_succ_eq_map, List.countP_cons, List.countP_map]
    have hzero : (decide (bwtChar r 0 = c) && decide (r.drop 0 ≤ r.drop v)) = false := by
      have hb0 : bwtChar r 0 = Sym.dollar := rfl
      simp [hb0, hcne.symm]
    rw [hzero]
    have hfun : ∀ w ∈ List.range (r.length - 1),
        ((fun q => decide (bwtChar r q = c) && decide (r.drop q ≤ r.drop v))
          ∘ Nat.succ) w
        = (fun w => decide (r.getD w Sym.dollar = c ∧ r.drop (w + 1) ≤ r.drop v)) w := by
      intro w hw
      show (decide (bwtChar r (w + 1) = c) && decide (r.drop (w + 1) ≤ r.drop v))
        = decide (r.getD w Sym.dollar = c ∧ r.drop (w + 1) ≤ r.drop v)
      have hb : bwtChar r (w + 1) = r.getD w Sym.dollar := by
        unfold bwtChar
        rw [if_neg (by omega)]
        have hww : w + 1 - 1 = w := by omega
        rw [hww]
      rw [hb, ← Bool.decide_and]
    rw [countP_congr_bool hfun]
    simp
  -- The prefix count splits as the strictly-smaller suffixes plus the row itself.
  have hB : (List.range (r.length - 1)).countP
        (fun w => decide (r.getD w Sym.dollar = c ∧ r.drop (w + 1) ≤ r.drop v))
      = (List.range (r.length - 1)).countP
          (fun w => decide (r.getD w Sym.dollar = c ∧ r.drop (w + 1) < r.drop v)) + 1 := by
    have hpt : ∀ w ∈ List.range (r.length - 1),
        (fun w => decide (r.getD w Sym.dollar = c ∧ r.drop (w + 1) ≤ r.drop v)) w
        = (fun w => decide (r.getD w Sym.dollar = c ∧ r.drop (w + 1) < r.drop v)
            || decide (r.getD w Sym.dollar = c ∧ w + 1 = v)) w := by
      intro w hw
      have hwlt : w < r.length - 1 := List.mem_range.mp hw
      show decide (r.getD w Sym.dollar = c ∧ r.drop (w + 1) ≤ r.drop v)
        = (decide (r.getD w Sym.dollar = c ∧ r.drop (w + 1) < r.drop v)
            || decide (r.getD w Sym.dollar = c ∧ w + 1 = v))
      have hiff : (r.getD w Sym.dollar = c ∧ r.drop (w + 1) ≤ r.drop v)
          ↔ ((r.getD w Sym.dollar = c ∧ r.drop (w + 1) < r.drop v)
            ∨ (r.getD w Sym.dollar = c ∧ w + 1 = v)) := by
        constructor
        · rintro ⟨h1, h2⟩
          rcases lt_or_eq_of_le h2 with h3 | h3
          · exact Or.inl ⟨h1, h3⟩
          · exact Or.inr ⟨h1, drop_injective (by omega) (by omega) h3⟩
        · rintro (⟨h1, h2⟩ | ⟨h1, h2⟩)
          · exact ⟨h1, le_of_lt h2⟩
          · exact ⟨h1, by rw [h2]⟩
      rw [decide_eq_decide.mpr hiff, Bool.decide_or]
    rw [countP_congr_bool hpt, countP_or_disjoint ?disj]
    case disj =>
      rintro w hw ⟨h1, h2⟩
      have h1b := of_decide_eq_true h1
      have h2b := of_decide_eq_true h2
      rw [h2b.2] at h1b
      exact absurd h1b.2 (lt_irrefl _)
    have hone : (List.range (r.length - 1)).countP
        (fun w => decide (r.getD w Sym.dollar = c ∧ w + 1 = v)) = 1 := by
      have hpt2 : ∀ w ∈ List.range (r.length - 1),
          (fun w => decide (r.getD w Sym.dollar = c ∧ w + 1 = v)) w
          = (fun w => decide (w = v - 1)) w := by
        intro w hw
        show decide (r.getD w Sym.dollar = c ∧ w + 1 = v) = decide (w = v - 1)
        apply decide_eq_decide.mpr
        constructor
        · rintro ⟨_, h2⟩
          omega
        · intro h2
          subst h2
          exact ⟨hcdef.symm, by omega⟩
      rw [countP_congr_bool hpt2]
      exact countP_range_eq_single (by omega)
    rw [hone]
  -- Part B: the row of `v - 1`, decomposed over the first character.
  have hC : rowOf r (v - 1)
      = r.countP (fun x => decide (x < c))
        + (List.range r.length).countP
            (fun q => decide (r.getD q Sym.dollar = c ∧ r.drop (q + 1) < r.drop v)) := by
    unfold rowOf
    have hpt : ∀ q ∈ List.range r.length,
        (fun q => decide (r.drop q < r.drop (v - 1))) q
        = (fun q => decide (r.getD q Sym.dollar < c)
            || decide (r.getD q Sym.dollar = c ∧ r.drop (q + 1) < r.drop v)) q := by
      intro q hq
      have hqn : q < r.length := List.mem_range.mp hq
      show decide (r.drop q < r.drop (v - 1))
        = (decide (r.getD q Sym.dollar < c)
            || decide (r.getD q Sym.dollar = c ∧ r.drop (q + 1) < r.drop v))
      have hiff : (r.drop q < r.drop (v - 1))
          ↔ (r.getD q Sym.dollar < c
            ∨ (r.getD q Sym.dollar = c ∧ r.drop (q + 1) < r.drop v)) := by
        rw [drop_cons_getD hqn, hvm1cons]
        exact cons_lt_cons_iff
      rw [decide_eq_decide.mpr hiff, Bool.decide_or]
    rw [countP_congr_bool hpt, countP_or_disjoint ?disj2]
    case disj2 =>
      rintro q hq ⟨h1, h2⟩
      have h1b := of_decide_eq_true h1
      have h2b := of_decide_eq_true h2
      rw [h2b.1] at h1b
      exact absurd h1b (lt_irrefl _)
    rw [countP_eq_range (fun x => decide (x < c)) Sym.dollar r]
  -- The `q = n - 1` summand of Part B vanishes ($ sits there), matching Part A.
  have hD : (List.range r.length).countP
        (fun q => decide (r.getD q Sym.dollar = c ∧ r.drop (q + 1) < r.drop v))
      = (List.range (r.length - 1)).countP
          (fun w => decide (r.getD w Sym.dollar = c ∧ r.drop (w + 1) < r.drop v)) := by
    have hsplit : r.length = (r.length - 1) + 1 := by omega
    rw [hsplit, List.range_succ, List.countP_append, ← hsplit]
    have hlast : ([r.length - 1] : List Nat).countP
        (fun q => decide (r.getD q Sym.dollar = c ∧ r.drop (q + 1) < r.drop v)) = 0 := by
      simp only [List.countP_cons, List.countP_nil]
      have hdl : r.getD (r.length - 1) Sym.dollar = Sym.dollar := hr.getD_last
      have hfalse : decide (r.getD (r.length - 1) Sym.dollar = c
          ∧ r.drop (r.length - 1 + 1) < r.drop v) = false := by
        apply decide_eq_false
        rintro ⟨h1, _⟩
        rw [hdl] at h1
        exact hcne h1.symm
      rw [hfalse]
      rfl
    rw [hlast]
    omega
  refine ⟨by omega, ?_⟩
  rw [hA, hB, hC, hD, shifts_f_eq]
  omega

/-! ### Queries on a Simple-strategy index -/

theorem buildWT_simple_bits (r : List Sym) (comp : Nat)
    (hlast : r.getLast? = some Sym.dollar) :
    (buildWT r .Simple comp).bits = (create_bit_vecs (bwtOf r)).1 := by
  rw [buildWT_norm r .Simple comp hlast]
  rfl

theorem buildWT_simple_bucket_bits (r : List Sym) (comp : Nat)
    (hlast : r.getLast? = some Sym.dollar) :
    (buildWT r .Simple comp).bucket_bits = (create_bit_vecs (bwtOf r)).2.1 := by
  rw [buildWT_norm r .Simple comp hlast]
  rfl

theorem buildWT_simple_step_bits (r : List Sym) (comp : Nat)
    (hlast : r.getLast? = some Sym.dollar) :
    (buildWT r .Simple comp).bucket_step_bits = (create_bit_vecs (bwtOf r)).2.2 := by
  rw [buildWT_norm r .Simple comp hlast]
  rfl

theorem buildWT_simple_f (r : List Sym) (comp : Nat)
    (hlast : r.getLast? = some Sym.dollar) :
    (buildWT r .Simple comp).f = shifts_f r := by
  rw [buildWT_norm r .Simple comp hlast]

theorem buildWT_simple_n (r : List Sym) (comp : Nat)
    (hlast : r.getLast? = some Sym.dollar) :
    (buildWT r .Simple comp).n = r.length := by
  rw [buildWT_norm r .Simple comp hlast]

theorem buildWT_simple_comp (r : List Sym) (comp : Nat)
    (hlast : r.getLast? = some Sym.dollar) :
    (buildWT r .Simple comp).compression_sa = comp := by
  rw [buildWT_norm r .Simple comp hlast]

theorem buildWT_simple_sa1 (r : List Sym) (hlast : r.getLast? = some Sym.dollar) :
    (buildWT r .Simple 1).sa = suffix_array_simple r := by
  rw [buildWT_norm r .Simple 1 hlast]
  show (suffix_array_pipeline r .Simple 1 (ilog2 r.length)).1 = _
  rw [pipeline_comp1]
  rfl

theorem buildWT_simple_saC (r : List Sym) (comp : Nat)
    (hlast : r.getLast? = some Sym.dollar) (h1 : comp ≠ 1) :
    (buildWT r .Simple comp).sa
      = (suffix_array_simple r).filter (fun x => decide (x % comp = 0)) := by
  rw [buildWT_norm r .Simple comp hlast]
  show (suffix_array_pipeline r .Simple comp (ilog2 r.length)).1 = _
  exact pipeline_fst r .Simple (ilog2 r.length) h1

theorem buildWT_simple_bitvector (r : List Sym) (comp : Nat)
    (hlast : r.getLast? = some Sym.dollar) (h1 : comp ≠ 1) :
    (buildWT r .Simple comp).bitvector
      = some ((suffix_array_simple r).map (fun x => decide (x % comp = 0))) := by
  rw [buildWT_norm r .Simple comp hlast]
  show (suffix_array_pipeline r .Simple comp (ilog2 r.length)).2.1 = _
  exact pipeline_bitvector r .Simple (ilog2 r.length) h1

theorem buildWT_simple_bucket_sa {r : List Sym} (hr : Valid r) (comp : Nat)
    (h1 : comp ≠ 1) :
    (buildWT r .Simple comp).bucket_sa
      = some (buildBucket ((suffix_array_simple r).map (fun x => decide (x % comp = 0)))
          (ilog2 r.length)) := by
  rw [buildWT_norm r .Simple comp hr.getLast_eq]
  show (suffix_array_pipeline r .Simple comp (ilog2 r.length)).2.2.1 = _
  refine pipeline_bucket r .Simple (ilog2 r.length) h1 ?_
  intro hnil
  have hlen := congrArg List.length hnil
  rw [show saOf Strategy.Simple r = suffix_array_simple r from rfl, sas_length] at hlen
  have h2 := hr.two_le
  rw [List.length_nil] at hlen
  omega

/-- The SA sampling bitmap of a compressed Simple index. -/
theorem getBV_built {r : List Sym} (hr : Valid r) {comp : Nat} (h1 : comp ≠ 1)
    {i : Nat} (hi : i < r.length) :
    getBV (buildWT r .Simple comp) i
      = decide ((suffix_array_simple r).getD i 0 % comp = 0) := by
  unfold getBV
  rw [buildWT_simple_bitvector r comp hr.getLast_eq h1]
  show ((suffix_array_simple r).map (fun x => decide (x % comp = 0))).getD i false = _
  rw [List.getD_eq_getElem _ _ (by rw [List.length_map, sas_length]; omega),
    List.getElem_map, List.getD_eq_getElem _ 0 (by rw [sas_length]; omega)]

/-- `rank_bit` on a compressed Simple index counts the sampled rows through
`i` inclusive. -/
theorem rank_bit_built {r : List Sym} (hr : Valid r) {comp : Nat} (h1 : comp ≠ 1)
    (h0 : comp ≠ 0) {i : Nat} (hi : i < r.length) :
    (buildWT r .Simple comp).rank_bit i
      = ((suffix_array_simple r).take (i + 1)).countP (fun x => decide (x % comp = 0)) := by
  have hlast := hr.getLast_eq
  unfold WaveletTree.rank_bit
  rw [buildWT_simple_comp r comp hlast, if_neg h0,
    buildWT_simple_bitvector r comp hlast h1, buildWT_simple_bucket_sa hr comp h1]
  have hstep : (buildWT r .Simple comp).bucket_step_sa = ilog2 r.length := by
    rw [buildWT_norm r .Simple comp hlast]
  rw [hstep]
  show scanBits ((suffix_array_simple r).map (fun x => decide (x % comp = 0)))
      (i / ilog2 r.length * ilog2 r.length + 1) (i - i / ilog2 r.length * ilog2 r.length)
    + (buildBucket ((suffix_array_simple r).map (fun x => decide (x % comp = 0)))
        (ilog2 r.length)).getD (i / ilog2 r.length) 0 = _
  have hi2 : i < ((suffix_array_simple r).map (fun x => decide (x % comp = 0))).length := by
    rw [List.length_map, sas_length]
    omega
  rw [rank1_eq (ilog2_pos hr.two_le) hi2, ← List.map_take, List.countP_map]
  rfl

/-- Looking up the compressed SA at a sampled row returns the SA value. -/
theorem sampled_lookup {r : List Sym} (hr : Valid r) {comp : Nat} (h1 : comp ≠ 1)
    (h0 : comp ≠ 0) {i : Nat} (hi : i < r.length)
    (hm : (suffix_array_simple r).getD i 0 % comp = 0) :
    (buildWT r .Simple comp).sa.getD ((buildWT r .Simple comp).rank_bit i - 1) 0
      = (suffix_array_simple r).getD i 0 := by
  rw [rank_bit_built hr h1 h0 hi, buildWT_simple_saC r comp hr.getLast_eq h1]
  have hi2 : i < (suffix_array_simple r).length := by
    rw [sas_length]
    omega
  exact filter_getD_at (fun x => decide (x % comp = 0)) (suffix_array_simple r) 0 hi2
    (decide_eq_true hm)

/-- `access` on a Simple index reads the BWT. -/
theorem access_built {r : List Sym} (hr : Valid r) (comp : Nat) {row : Nat}
    (hrow : row < r.length) :
    (buildWT r .Simple comp).access row = (bwtOf r).getD row Sym.dollar := by
  have hlast := hr.getLast_eq
  exact access_correct (buildWT r .Simple comp) (bwtOf r)
    (buildWT_simple_bits r comp hlast) (buildWT_simple_bucket_bits r comp hlast)
    (buildWT_simple_step_bits r comp hlast)
    (by rw [bwtOf_length]; exact hr.two_le)
    (by rw [bwtOf_length]; exact hrow)

/-- `rank` on a Simple index counts over the BWT prefix. -/
theorem rank_built {r : List Sym} (hr : Valid r) (comp : Nat) (c : Sym) {i : Nat}
    (hi : i < r.length) :
    (buildWT r .Simple comp).rank c i = occCount c ((bwtOf r).take (i + 1)) := by
  have hlast := hr.getLast_eq
  exact rank_correct (buildWT r .Simple comp) (bwtOf r)
    (buildWT_simple_bits r comp hlast) (buildWT_simple_bucket_bits r comp hlast)
    (buildWT_simple_step_bits r comp hlast)
    (by rw [bwtOf_length]; exact hr.two_le) c
    (by rw [bwtOf_length]; exact hi)

/-! ### The LF walk of get_sa -/

theorem getSALoop_marked (wt : WaveletTree) (fuel : Nat) (nc : Sym) (row counter : Nat)
    (h : getBV wt row = true) :
    getSALoop wt fuel nc row counter
      = some (wt.sa.getD (wt.rank_bit row - 1) 0 + counter) := by
  cases fuel <;> simp [getSALoop, h]

theorem getSALoop_succ (wt : WaveletTree) (fuel : Nat) (nc : Sym) (row counter : Nat) :
    getSALoop wt (fuel + 1) nc row counter =
      if getBV wt row then some (wt.sa.getD (wt.rank_bit row - 1) 0 + counter)
      else getSALoop wt fuel (wt.access (wt.rank nc row + wt.f nc - 1))
        (wt.rank nc row + wt.f nc - 1) (counter + 1) := rfl

/-- The LF walk of `get_sa`: starting from any row whose SA value has
residue `k` modulo the sample rate, `k` units of fuel reach a sampled row
and the loop returns the row's SA value plus the accumulated counter. -/
theorem getSALoop_walk {r : List Sym} (hr : Valid r) {comp : Nat} (hc2 : 2 ≤ comp) :
    ∀ (k : Nat), ∀ {fuel row counter : Nat}, row < r.length →
      (suffix_array_simple r).getD row 0 % comp = k → k ≤ fuel →
      getSALoop (buildWT r .Simple comp) fuel
          ((buildWT r .Simple comp).access row) row counter
        = some ((suffix_array_simple r).getD row 0 + counter) := by
  have h1 : comp ≠ 1 := by omega
  have h0 : comp ≠ 0 := by omega
  intro k
  induction k with
  | zero =>
    intro fuel row counter hrow hk _
    have hbv : getBV (buildWT r .Simple comp) row = true := by
      rw [getBV_built hr h1 hrow]
      exact decide_eq_true hk
    rw [getSALoop_marked _ _ _ _ _ hbv, sampled_lookup hr h1 h0 hrow hk]
  | succ k ih =>
    intro fuel row counter hrow hk hfuel
    have hbv : getBV (buildWT r .Simple comp) row = false := by
      rw [getBV_built hr h1 hrow, hk]
      simp
    obtain ⟨fuel2, rfl⟩ : ∃ f2, fuel = f2 + 1 := ⟨fuel - 1, by omega⟩
    have hvne0 : (suffix_array_simple r).getD row 0 ≠ 0 := by
      intro hv0
      rw [hv0, Nat.zero_mod] at hk
      omega
    have hlf := lf_count hr hrow hvne0
    set v := (suffix_array_simple r).getD row 0 with hvdef
    have hvlt : v < r.length := by
      apply sas_mem
      rw [hvdef, List.getD_eq_getElem _ 0 (by rw [sas_length]; omega)]
      exact List.getElem_mem _
    set c := r.getD (v - 1) Sym.dollar with hcdef
    have hacc : (buildWT r .Simple comp).access row = c := by
      rw [access_built hr comp hrow, bwtOf_getD hrow, ← hvdef]
      unfold bwtChar
      rw [if_neg hvne0, hcdef]
    have hrank : (buildWT r .Simple comp).rank c row
        = occCount c ((bwtOf r).take (row + 1)) := rank_built hr comp c hrow
    have hf : (buildWT r .Simple comp).f c = shifts_f r c := by
      rw [buildWT_simple_f r comp hr.getLast_eq]
    rw [getSALoop_succ, if_neg (by rw [hbv]; simp), hacc, hrank, hf]
    have hrow2 : occCount c ((bwtOf r).take (row + 1)) + shifts_f r c - 1
        = rowOf r (v - 1) := by
      have hx := hlf.2
      have hy := hlf.1
      omega
    rw [hrow2]
    have hr2lt : rowOf r (v - 1) < r.length := rowOf_lt (by omega)
    have hval2 : (suffix_array_simple r).getD (rowOf r (v - 1)) 0 = v - 1 :=
      sas_rowOf (by omega)
    have hmod2 : (v - 1) % comp = k := by
      have hdm := Nat.div_add_mod v comp
      have hkc : k + 1 < comp := by
        have := Nat.mod_lt v (show 0 < comp by omega)
        omega
      have hveq : v - 1 = comp * (v / comp) + k := by omega
      rw [hveq, Nat.mul_add_mod]
      exact Nat.mod_eq_of_lt (by omega)
    have hrec := @ih fuel2 (rowOf r (v - 1)) (counter + 1) hr2lt
      (by rw [hval2]; exact hmod2) (by omega)
    rw [hrec, hval2]
    have hv1 : 1 ≤ v := by omega
    congr 1
    omega

/-- `get_saF` on a Simple index with enough fuel returns the full SA entry. -/
theorem get_saF_built {r : List Sym} (hr : Valid r) {comp : Nat} (hc1 : 1 ≤ comp)
    {fuel i : Nat} (hi : i < r.length)
    (hfuel : (suffix_array_simple r).getD i 0 % comp ≤ fuel) :
    (buildWT r .Simple comp).get_saF fuel i
      = some ((suffix_array_simple r).getD i 0) := by
  unfold WaveletTree.get_saF
  rcases Nat.lt_or_ge comp 2 with hc2 | hc2
  · have hc : comp = 1 := by omega
    subst hc
    rw [if_pos (buildWT_simple_comp r 1 hr.getLast_eq), buildWT_simple_sa1 r hr.getLast_eq]
  · have h1 : comp ≠ 1 := by omega
    have h0 : comp ≠ 0 := by omega
    rw [if_neg (by rw [buildWT_simple_comp r comp hr.getLast_eq]; omega)]
    by_cases hm : (suffix_array_simple r).getD i 0 % comp = 0
    · rw [if_pos (by rw [getBV_built hr h1 hi]; exact decide_eq_true hm),
        sampled_lookup hr h1 h0 hi hm]
    · rw [if_neg (by
        rw [getBV_built hr h1 hi]
        simp only [decide_eq_true_eq]
        exact hm)]
      have hwalk := @getSALoop_walk r hr comp hc2 ((suffix_array_simple r).getD i 0 % comp)
        fuel i 0 hi rfl hfuel
      rw [hwalk, Nat.add_zero]

/-- `get_sa` on a Simple index returns the full SA entry. -/
theorem get_sa_built {r : List Sym} (hr : Valid r) {comp : Nat} (hc1 : 1 ≤ comp)
    {i : Nat} (hi : i < r.length) :
    (buildWT r .Simple comp).get_sa i
      = some ((suffix_array_simple r).getD i 0) := by
  unfold WaveletTree.get_sa
  rw [buildWT_simple_n r comp hr.getLast_eq]
  refine get_saF_built hr hc1 hi ?_
  have hvlt : (suffix_array_simple r).getD i 0 < r.length := by
    apply sas_mem
    rw [List.getD_eq_getElem _ 0 (by rw [sas_length]; omega)]
    exact List.getElem_mem _
  calc (suffix_array_simple r).getD i 0 % comp
      ≤ (suffix_array_simple r).getD i 0 := Nat.mod_le _ _
  _ ≤ r.length := by omega

/-! ### Reconstruction (the reverse transform of `__str__`) -/

theorem not_lt_dollar (x : Sym) : ¬ x < Sym.dollar := by
  cases x <;> simp [Sym.lt_iff, Sym.toNat]

/-- Row 0 of the sorted suffix array is the sentinel suffix `n - 1`. -/
theorem sas_getD_zero {r : List Sym} (hr : Valid r) :
    (suffix_array_simple r).getD 0 0 = r.length - 1 := by
  have hn2 := hr.two_le
  have hlast : r.length - 1 < r.length := by omega
  have hdrop : r.drop (r.length - 1) = [Sym.dollar] := by
    rw [drop_cons_getD hlast, hr.getD_last]
    have : r.length - 1 + 1 = r.length := by omega
    rw [this, List.drop_length]
  have hrow : rowOf r (r.length - 1) = 0 := by
    unfold rowOf
    rw [List.countP_eq_zero]
    intro q hq
    have hqn : q < r.length := List.mem_range.mp hq
    simp only [decide_eq_true_eq]
    rw [hdrop, drop_cons_getD hqn]
    intro hlt
    rcases cons_lt_cons_iff.mp hlt with h | ⟨_, h⟩
    · exact not_lt_dollar _ h
    · exact not_lt_nil _ h
  have := sas_rowOf hlast
  rw [hrow] at this
  exact this

theorem strLoop_succ (wt : WaveletTree) (cnt : Nat) (nc : Sym) (row : Nat)
    (acc : List Sym) :
    strLoop wt (cnt + 1) nc row acc
      = strLoop wt cnt (wt.access (wt.rank nc row + wt.f nc - 1))
          (wt.rank nc row + wt.f nc - 1)
          (wt.access (wt.rank nc row + wt.f nc - 1) :: acc) := rfl

/-- Prefix of `take` as a map over `range`. -/
theorem take_eq_range_map {α : Type} (l : List α) (d : α) {m : Nat}
    (hm : m ≤ l.length) :
    (List.range m).map (fun j => l.getD j d) = l.take m := by
  apply List.ext_getElem
  · simp
    omega
  · intro i h1 h2
    have him : i < m := by simpa using h1
    have hil : i < l.length := by omega
    rw [List.getElem_map, List.getElem_range, List.getElem_take,
      List.getD_eq_getElem _ _ hil]

/-- The `__str__` loop walks the text backwards: `cnt` steps from a row with
SA value `v ≥ cnt + 1` prepend the text segment `[v - cnt - 1, v - 1)`. -/
theorem strLoop_segment {r : List Sym} (hr : Valid r) (comp : Nat) :
    ∀ (cnt : Nat) {row : Nat} (acc : List Sym), row < r.length →
      cnt + 1 ≤ (suffix_array_simple r).getD row 0 →
      strLoop (buildWT r .Simple comp) cnt ((buildWT r .Simple comp).access row) row acc
        = (List.range cnt).map (fun j =>
            r.getD ((suffix_array_simple r).getD row 0 - cnt - 1 + j) Sym.dollar)
          ++ acc := by
  intro cnt
  induction cnt with
  | zero =>
    intro row acc _ _
    simp [strLoop]
  | succ cnt ih =>
    intro row acc hrow hcnt
    have hvne0 : (suffix_array_simple r).getD row 0 ≠ 0 := by omega
    have hlf := lf_count hr hrow hvne0
    set v := (suffix_array_simple r).getD row 0 with hvdef
    have hv2 : cnt + 2 ≤ v := hcnt
    have hvlt : v < r.length := by
      apply sas_mem
      rw [hvdef, List.getD_eq_getElem _ 0 (by rw [sas_length]; omega)]
      exact List.getElem_mem _
    set c := r.getD (v - 1) Sym.dollar with hcdef
    have hacc : (buildWT r .Simple comp).access row = c := by
      rw [access_built hr comp hrow, bwtOf_getD hrow, ← hvdef]
      unfold bwtChar
      rw [if_neg hvne0, hcdef]
    have hrank : (buildWT r .Simple comp).rank c row
        = occCount c ((bwtOf r).take (row + 1)) := rank_built hr comp c hrow
    have hf : (buildWT r .Simple comp).f c = shifts_f r c := by
      rw [buildWT_simple_f r comp hr.getLast_eq]
    rw [strLoop_succ, hacc, hrank, hf]
    have hrow2 : occCount c ((bwtOf r).take (row + 1)) + shifts_f r c - 1
        = rowOf r (v - 1) := by
      have hx := hlf.2
      have hy := hlf.1
      omega
    rw [hrow2]
    have hr2lt : rowOf r (v - 1) < r.length := rowOf_lt (by omega)
    have hval2 : (suffix_array_simple r).getD (rowOf r (v - 1)) 0 = v - 1 :=
      sas_rowOf (by omega)
    have hrec := @ih (rowOf r (v - 1))
      ((buildWT r .Simple comp).access (rowOf r (v - 1)) :: acc) hr2lt
      (by rw [hval2]; omega)
    rw [hrec, hval2]
    have hacc2 : (buildWT r .Simple comp).access (rowOf r (v - 1))
        = r.getD (v - 2) Sym.dollar := by
      rw [access_built hr comp hr2lt, bwtOf_getD hr2lt, hval2]
      unfold bwtChar
      rw [if_neg (by omega)]
      have : v - 1 - 1 = v - 2 := by omega
      rw [this]
    rw [hacc2]
    rw [List.range_succ, List.map_append]
    have hfun : (fun j => r.getD (v - 1 - cnt - 1 + j) Sym.dollar)
        = (fun j => r.getD (v - (cnt + 1) - 1 + j) Sym.dollar) := by
      funext j
      congr 1
      omega
    rw [hfun]
    have hlastel : (List.map (fun j => r.getD (v - (cnt + 1) - 1 + j) Sym.dollar) [cnt])
        = [r.getD (v - 2) Sym.dollar] := by
      simp only [List.map_cons, List.map_nil]
      congr 2
      omega
    rw [hlastel, List.append_assoc]
    rfl

/-- `__str__` on a Simple index returns the reference without its sentinel. -/
theorem reconstruct_built {r : List Sym} (hr : Valid r) (comp : Nat) :
    (buildWT r .Simple comp).reconstruct = r.take (r.length - 1) := by
  have hn2 := hr.two_le
  have hrow0 : (0 : Nat) < r.length := by omega
  have hsa0 : (suffix_array_simple r).getD 0 0 = r.length - 1 := sas_getD_zero hr
  show strLoop (buildWT r .Simple comp) ((buildWT r .Simple comp).n - 1 - 1)
      ((buildWT r .Simple comp).access 0) 0 [(buildWT r .Simple comp).access 0]
    = r.take (r.length - 1)
  rw [buildWT_simple_n r comp hr.getLast_eq]
  rw [strLoop_segment hr comp (r.length - 1 - 1)
    [(buildWT r .Simple comp).access 0] hrow0 (by rw [hsa0]; omega)]
  have hacc0 : (buildWT r .Simple comp).access 0 = r.getD (r.length - 2) Sym.dollar := by
    rw [access_built hr comp hrow0, bwtOf_getD hrow0, hsa0]
    unfold bwtChar
    rw [if_neg (by omega)]
    have : r.length - 1 - 1 = r.length - 2 := by omega
    rw [this]
  rw [hacc0, hsa0]
  have hfun : (fun j => r.getD (r.length - 1 - (r.length - 1 - 1) - 1 + j) Sym.dollar)
      = (fun j => r.getD j Sym.dollar) := by
    funext j
    congr 1
    omega
  rw [hfun, take_eq_range_map r Sym.dollar (by omega)]
  have hsplit : r.length - 1 = (r.length - 2) + 1 := by omega
  rw [hsplit, List.take_succ, List.getElem?_eq_getElem (by omega)]
  have hgd : r.getD (r.length - 2) Sym.dollar = r[r.length - 2] :=
    List.getD_eq_getElem _ _ (by omega)
  rw [hgd]
  rfl

/-! ### Backward search: the row interval of a pattern -/

/-- Number of suffixes lexicographically below the pattern (the lower end of
the row interval). -/
def lowerCount (r Q : List Sym) : Nat :=
  (List.range r.length).countP (fun q => decide (r.drop q < Q))

/-- Number of occurrences of the pattern: suffixes it prefixes. -/
def occTotal (r Q : List Sym) : Nat :=
  (List.range r.length).countP (fun q => decide (Q <+: r.drop q))

theorem not_append_lt (l : List Sym) : ∀ t, ¬ (l ++ t < l) := by
  induction l with
  | nil => intro t; exact not_lt_nil t
  | cons a l ih =>
    intro t hlt
    rcases cons_lt_cons_iff.mp hlt with h | ⟨_, h⟩
    · exact absurd h (lt_irrefl a)
    · exact ih t h

theorem lt_of_lt_not_le {Q s : List Sym} (h1 : Q < s) (h2 : ¬ Q <+: s) :
    ∀ t, Q ++ t < s := by
  induction Q generalizing s with
  | nil => exact absurd ( List.nil_prefix) h2
  | cons a Q2 ih =>
    cases s with
    | nil => exact absurd h1 (not_lt_nil _)
    | cons b s2 =>
      intro t
      rcases cons_lt_cons_iff.mp h1 with h | ⟨rfl, h⟩
      · exact cons_lt_cons_iff.mpr (Or.inl h)
      · have h2b : ¬ Q2 <+: s2 := fun hp =>
          h2 (List.cons_prefix_cons.mpr ⟨rfl, hp⟩)
        exact cons_lt_cons_iff.mpr (Or.inr ⟨rfl, ih h h2b t⟩)

theorem dollar_mem_drop {r : List Sym} (hr : Valid r) {q : Nat} (hq : q < r.length) :
    Sym.dollar ∈ r.drop q := by
  obtain ⟨t, _, _, rfl⟩ := hr
  have hqt : q ≤ t.length := by
    simp at hq
    omega
  rw [List.drop_append_of_le_length hqt]
  simp

/-- A pattern without the sentinel never equals a suffix. -/
theorem ne_drop_of_no_dollar {r : List Sym} (hr : Valid r) {Q : List Sym}
    (hQ : Sym.dollar ∉ Q) {q : Nat} (hq : q < r.length) : Q ≠ r.drop q := by
  intro h
  exact hQ (h ▸ dollar_mem_drop hr hq)

/-- The lower cut: a suffix row sits below `lowerCount` exactly when the
suffix is lexicographically below the pattern. -/
theorem rowOf_lt_lowerCount {r : List Sym} {Q : List Sym} {u : Nat}
    (hu : u < r.length) :
    rowOf r u < lowerCount r Q ↔ r.drop u < Q := by
  constructor
  · intro hlt
    by_contra hns
    have hle : Q ≤ r.drop u := le_of_not_lt hns
    have hmono : lowerCount r Q ≤ rowOf r u := by
      refine List.countP_mono_left ?_
      intro q _ hq
      simp only [decide_eq_true_eq] at hq ⊢
      exact lt_of_lt_of_le hq hle
    omega
  · intro hlt
    refine countP_lt_countP ?_ ⟨u, List.mem_range.mpr hu, ?_, ?_⟩
    · intro q _ hq
      simp only [decide_eq_true_eq] at hq ⊢
      exact lt_trans hq hlt
    · simpa using hlt
    · simp

/-- The upper cut: a suffix row sits below `lowerCount + occTotal` exactly
when the suffix is below the pattern or prefixed by it. -/
theorem rowOf_lt_upperCount {r : List Sym} (hr : Valid r) {Q : List Sym}
    (hQ : Sym.dollar ∉ Q) {u : Nat} (hu : u < r.length) :
    rowOf r u < (List.range r.length).countP
        (fun q => decide (r.drop q < Q) || decide (Q <+: r.drop q))
      ↔ (r.drop u < Q ∨ Q <+: r.drop u) := by
  have hU : ∀ q1 q2, q1 < r.length → q2 < r.length →
      (r.drop q1 < Q ∨ Q <+: r.drop q1) → ¬(r.drop q2 < Q ∨ Q <+: r.drop q2) →
      r.drop q1 < r.drop q2 := by
    intro q1 q2 hq1 hq2 h1 h2
    push_neg at h2
    obtain ⟨h2a, h2b⟩ := h2
    have h2lt : Q < r.drop q2 :=
      lt_of_le_of_ne h2a (ne_drop_of_no_dollar hr hQ hq2)
    rcases h1 with h1 | h1
    · exact lt_trans h1 h2lt
    · obtain ⟨t, ht⟩ := h1
      rw [← ht]
      exact lt_of_lt_not_le h2lt h2b t
  constructor
  · intro hlt
    by_contra hns
    have hmono : (List.range r.length).countP
        (fun q => decide (r.drop q < Q) || decide (Q <+: r.drop q)) ≤ rowOf r u := by
      refine List.countP_mono_left ?_
      intro q hq hmem
      have hqn : q < r.length := List.mem_range.mp hq
      simp only [Bool.or_eq_true, decide_eq_true_eq] at hmem
      simp only [decide_eq_true_eq]
      exact hU q u hqn hu hmem hns
    omega
  · intro hin
    refine countP_lt_countP ?_ ⟨u, List.mem_range.mpr hu, ?_, ?_⟩
    · intro q hq hdq
      have hqn : q < r.length := List.mem_range.mp hq
      simp only [decide_eq_true_eq] at hdq
      simp only [Bool.or_eq_true, decide_eq_true_eq]
      by_contra hqout
      push_neg at hqout
      have := hU u q hu hqn hin (by
        intro hcon
        rcases hcon with h | h
        · exact absurd h (not_lt.mpr hqout.1)
        · exact absurd h hqout.2)
      exact absurd hdq (lt_asymm this)
    · simp only [Bool.or_eq_true, decide_eq_true_eq]
      exact hin
    · simp

/-- Membership in an arbitrary prefix of the sorted suffix array. -/
theorem mem_sas_take_gen {r : List Sym} {x p : Nat} (hx : x ≤ r.length) :
    p ∈ (suffix_array_simple r).take x ↔ p < r.length ∧ rowOf r p < x := by
  constructor
  · intro hp
    obtain ⟨j, hj, hjp⟩ := List.mem_iff_getElem.mp hp
    have hjb : j < x ∧ j < r.length := by
      have := hj
      simp [sas_length] at this
      omega
    have hpj : p = (suffix_array_simple r).getD j 0 := by
      rw [List.getD_eq_getElem _ 0 (by rw [sas_length]; omega), ← hjp,
        List.getElem_take]
    have hplt : p < r.length := by
      rw [hpj]
      apply sas_mem
      rw [List.getD_eq_getElem _ 0 (by rw [sas_length]; omega)]
      exact List.getElem_mem _
    refine ⟨hplt, ?_⟩
    rw [hpj, rowOf_sas hjb.2]
    omega
  · rintro ⟨hp, hrow⟩
    have hget := sas_rowOf hp
    rw [← hget]
    apply List.mem_iff_getElem.mpr
    have hrlt : rowOf r p < r.length := rowOf_lt hp
    refine ⟨rowOf r p, by simp [sas_length]; omega, ?_⟩
    rw [List.getElem_take, ← List.getD_eq_getElem _ 0 (by rw [sas_length]; omega)]

/-- Counting a prefix of the sorted suffix array, cut at any row. -/
theorem countP_sas_take_gen {r : List Sym} (P : Nat → Bool) {x : Nat}
    (hx : x ≤ r.length) :
    ((suffix_array_simple r).take x).countP P
      = (List.range r.length).countP (fun v => P v && decide (rowOf r v < x)) := by
  set M := (List.range r.length).filter (fun v => decide (rowOf r v < x)) with hM
  have hnd1 : ((suffix_array_simple r).take x).Nodup :=
    (List.take_sublist _ _).nodup (sas_nodup r)
  have hnd2 : M.Nodup := List.Nodup.filter _ (List.nodup_range _)
  have hperm : ((suffix_array_simple r).take x).Perm M := by
    rw [List.perm_ext_iff_of_nodup hnd1 hnd2]
    intro v
    rw [hM, List.mem_filter, List.mem_range]
    constructor
    · intro hv
      have := (mem_sas_take_gen hx).mp hv
      exact ⟨this.1, by simpa using this.2⟩
    · rintro ⟨h1, h2⟩
      exact (mem_sas_take_gen hx).mpr ⟨h1, by simpa using h2⟩
  rw [hperm.countP_eq P, hM, List.countP_filter]

/-- Occurrences of a non-sentinel symbol in an arbitrary BWT prefix, as
text positions whose next suffix sits below the cut. -/
theorem occCount_bwt_cut {r : List Sym} (hr : Valid r) {c : Sym}
    (hc : c ≠ Sym.dollar) {x : Nat} (hx : x ≤ r.length) :
    occCount c ((bwtOf r).take x)
      = (List.range (r.length - 1)).countP
          (fun w => decide (r.getD w Sym.dollar = c)
            && decide (rowOf r (w + 1) < x)) := by
  have hn2 := hr.two_le
  unfold occCount bwtOf get_bwt
  rw [← List.map_take, List.countP_map,
    countP_sas_take_gen ((fun x => decide (x = c)) ∘ bwtChar r) hx]
  have hsplit : r.length = (r.length - 1) + 1 := by omega
  rw [hsplit, List.range_succ_eq_map, List.countP_cons]
  have hzero : (((fun x => decide (x = c)) ∘ bwtChar r) 0
      && decide (rowOf r 0 < x)) = false := by
    have hb0 : bwtChar r 0 = Sym.dollar := rfl
    simp [hb0, hc.symm]
  rw [hzero, List.countP_map]
  have hfun : ∀ w ∈ List.range (r.length - 1),
      ((fun v => ((fun x => decide (x = c)) ∘ bwtChar r) v && decide (rowOf r v < x))
        ∘ Nat.succ) w
      = (fun w => decide (r.getD w Sym.dollar = c) && decide (rowOf r (w + 1) < x)) w := by
    intro w hw
    show (decide (bwtChar r (w + 1) = c) && decide (rowOf r (w + 1) < x)) = _
    have hb : bwtChar r (w + 1) = r.getD w Sym.dollar := by
      unfold bwtChar
      rw [if_neg (by omega)]
      have hww : w + 1 - 1 = w := by omega
      rw [hww]
    rw [hb]
  rw [countP_congr_bool hfun]
  simp

/-- First-character decomposition of the lower count. -/
theorem lowerCount_cons {r : List Sym} (hr : Valid r) {c : Sym}
    (hc : c ≠ Sym.dollar) (Q : List Sym) :
    lowerCount r (c :: Q)
      = shifts_f r c
        + (List.range (r.length - 1)).countP
            (fun w => decide (r.getD w Sym.dollar = c)
              && decide (r.drop (w + 1) < Q)) := by
  have hn2 := hr.two_le
  unfold lowerCount
  have hpt : ∀ q ∈ List.range r.length,
      (fun q => decide (r.drop q < c :: Q)) q
      = (fun q => decide (r.getD q Sym.dollar < c)
          || (decide (r.getD q Sym.dollar = c) && decide (r.drop (q + 1) < Q))) q := by
    intro q hq
    have hqn : q < r.length := List.mem_range.mp hq
    show decide (r.drop q < c :: Q)
      = (decide (r.getD q Sym.dollar < c)
          || (decide (r.getD q Sym.dollar = c) && decide (r.drop (q + 1) < Q)))
    have hiff : (r.drop q < c :: Q)
        ↔ (r.getD q Sym.dollar < c ∨ (r.getD q Sym.dollar = c ∧ r.drop (q + 1) < Q)) := by
      rw [drop_cons_getD hqn]
      exact cons_lt_cons_iff
    rw [decide_eq_decide.mpr hiff, Bool.decide_or, Bool.decide_and]
  rw [countP_congr_bool hpt, countP_or_disjoint ?disj]
  case disj =>
    rintro q hq ⟨h1, h2⟩
    have h1b := of_decide_eq_true h1
    have h2b := of_decide_eq_true (Bool.and_elim_left h2)
    rw [h2b] at h1b
    exact absurd h1b (lt_irrefl _)
  have hfirst : (List.range r.length).countP
      (fun q => decide (r.getD q Sym.dollar < c)) = shifts_f r c := by
    rw [shifts_f_eq, countP_eq_range (fun x => decide (x < c)) Sym.dollar r]
  have hsecond : (List.range r.length).countP
        (fun q => decide (r.getD q Sym.dollar = c) && decide (r.drop (q + 1) < Q))
      = (List.range (r.length - 1)).countP
          (fun w => decide (r.getD w Sym.dollar = c) && decide (r.drop (w + 1) < Q)) := by
    have hsplit : r.length = (r.length - 1) + 1 := by omega
    rw [hsplit, List.range_succ, List.countP_append, ← hsplit]
    have hlast : ([r.length - 1] : List Nat).countP
        (fun q => decide (r.getD q Sym.dollar = c) && decide (r.drop (q + 1) < Q)) = 0 := by
      simp only [List.countP_cons, List.countP_nil]
      have hdl : r.getD (r.length - 1) Sym.dollar = Sym.dollar := hr.getD_last
      have hfc : decide (r.getD (r.length - 1) Sym.dollar = c) = false := by
        rw [hdl]
        exact decide_eq_false (fun h => hc h.symm)
      rw [hfc, Bool.false_and]
      rfl
    rw [hlast]
    omega
  rw [hfirst, hsecond]

/-- First-character decomposition of the upper count. -/
theorem upperCount_cons {r : List Sym} (hr : Valid r) {c : Sym}
    (hc : c ≠ Sym.dollar) (Q : List Sym) :
    (List.range r.length).countP
        (fun q => decide (r.drop q < c :: Q) || decide ((c :: Q) <+: r.drop q))
      = shifts_f r c
        + (List.range (r.length - 1)).countP
            (fun w => decide (r.getD w Sym.dollar = c)
              && (decide (r.drop (w + 1) < Q) || decide (Q <+: r.drop (w + 1)))) := by
  have hn2 := hr.two_le
  have hpt : ∀ q ∈ List.range r.length,
      (fun q => decide (r.drop q < c :: Q) || decide ((c :: Q) <+: r.drop q)) q
      = (fun q => decide (r.getD q Sym.dollar < c)
          || (decide (r.getD q Sym.dollar = c)
              && (decide (r.drop (q + 1) < Q) || decide (Q <+: r.drop (q + 1))))) q := by
    intro q hq
    have hqn : q < r.length := List.mem_range.mp hq
    show (decide (r.drop q < c :: Q) || decide ((c :: Q) <+: r.drop q))
      = (decide (r.getD q Sym.dollar < c)
          || (decide (r.getD q Sym.dollar = c)
              && (decide (r.drop (q + 1) < Q) || decide (Q <+: r.drop (q + 1)))))
    have hiff : ((r.drop q < c :: Q) ∨ ((c :: Q) <+: r.drop q))
        ↔ (r.getD q Sym.dollar < c
          ∨ (r.getD q Sym.dollar = c
              ∧ (r.drop (q + 1) < Q ∨ Q <+: r.drop (q + 1)))) := by
      rw [drop_cons_getD hqn, List.cons_prefix_cons, cons_lt_cons_iff]
      constructor
      · rintro ((h | ⟨he, h⟩) | ⟨he, h⟩)
        · exact Or.inl h
        · exact Or.inr ⟨he, Or.inl h⟩
        · exact Or.inr ⟨he.symm, Or.inr h⟩
      · rintro (h | ⟨he, h | h⟩)
        · exact Or.inl (Or.inl h)
        · exact Or.inl (Or.inr ⟨he, h⟩)
        · exact Or.inr ⟨he.symm, h⟩
    rw [← Bool.decide_or, ← Bool.decide_or, decide_eq_decide.mpr hiff,
      Bool.decide_or, Bool.decide_and, Bool.decide_or]
  rw [countP_congr_bool hpt, countP_or_disjoint ?disj]
  case disj =>
    rintro q hq ⟨h1, h2⟩
    have h1b := of_decide_eq_true h1
    have h2b := of_decide_eq_true (Bool.and_elim_left h2)
    rw [h2b] at h1b
    exact absurd h1b (lt_irrefl _)
  have hfirst : (List.range r.length).countP
      (fun q => decide (r.getD q Sym.dollar < c)) = shifts_f r c := by
    rw [shifts_f_eq, countP_eq_range (fun x => decide (x < c)) Sym.dollar r]
  have hsecond : (List.range r.length).countP
        (fun q => decide (r.getD q Sym.dollar = c)
          && (decide (r.drop (q + 1) < Q) || decide (Q <+: r.drop (q + 1))))
      = (List.range (r.length - 1)).countP
          (fun w => decide (r.getD w Sym.dollar = c)
            && (decide (r.drop (w + 1) < Q) || decide (Q <+: r.drop (w + 1)))) := by
    have hsplit : r.length = (r.length - 1) + 1 := by omega
    rw [hsplit, List.range_succ, List.countP_append, ← hsplit]
    have hlast : ([r.length - 1] : List Nat).countP
        (fun q => decide (r.getD q Sym.dollar = c)
          && (decide (r.drop (q + 1) < Q) || decide (Q <+: r.drop (q + 1)))) = 0 := by
      simp only [List.countP_cons, List.countP_nil]
      have hdl : r.getD (r.length - 1) Sym.dollar = Sym.dollar := hr.getD_last
      have hfc : decide (r.getD (r.length - 1) Sym.dollar = c) = false := by
        rw [hdl]
        exact decide_eq_false (fun h => hc h.symm)
      rw [hfc, Bool.false_and]
      rfl
    rw [hlast]
    omega
  rw [hfirst, hsecond]

/-- The two counts are a disjoint split of the upper count. -/
theorem upperCount_split {r : List Sym} (Q : List Sym) :
    (List.range r.length).countP
        (fun q => decide (r.drop q < Q) || decide (Q <+: r.drop q))
      = lowerCount r Q + occTotal r Q := by
  unfold lowerCount occTotal
  refine countP_or_disjoint ?_
  rintro q hq ⟨h1, h2⟩
  have h1b := of_decide_eq_true h1
  obtain ⟨t, ht⟩ := of_decide_eq_true h2
  rw [← ht] at h1b
  exact not_append_lt Q t h1b

theorem lowerCount_le {r : List Sym} (Q : List Sym) : lowerCount r Q ≤ r.length := by
  unfold lowerCount
  calc (List.range r.length).countP _ ≤ (List.range r.length).length :=
        List.countP_le_length _
  _ = r.length := List.length_range _

theorem upperCount_le {r : List Sym} (Q : List Sym) :
    lowerCount r Q + occTotal r Q ≤ r.length := by
  rw [← upperCount_split]
  calc (List.range r.length).countP _ ≤ (List.range r.length).length :=
        List.countP_le_length _
  _ = r.length := List.length_range _

/-- Modelled from the spec: correctness of the backward-search interval of
spec 4.7 over a sentinel-free pattern: the returned pair is
`(lowerCount, lowerCount + occTotal)`. -/
theorem backwardRange_correct {r : List Sym} (hr : Valid r) (comp : Nat) :
    ∀ Q : List Sym, Sym.dollar ∉ Q →
      backwardRange (buildWT r .Simple comp) Q
        = (lowerCount r Q, lowerCount r Q + occTotal r Q) := by
  have hn2 := hr.two_le
  intro Q
  induction Q with
  | nil =>
    intro _
    show ((0 : Nat), (buildWT r .Simple comp).n) = _
    rw [buildWT_simple_n r comp hr.getLast_eq]
    have h1 : lowerCount r [] = 0 := by
      unfold lowerCount
      rw [List.countP_eq_zero]
      intro q _
      simp only [decide_eq_true_eq]
      exact not_lt_nil _
    have h2 : occTotal r [] = r.length := by
      unfold occTotal
      rw [List.countP_eq_length.mpr]
      · exact List.length_range _
      · intro q _
        simp
    rw [h1, h2]
    simp
  | cons c Q ih =>
    intro hQd
    have hc : c ≠ Sym.dollar := fun h => hQd (h ▸ List.mem_cons_self c Q)
    have hQ : Sym.dollar ∉ Q := fun h => hQd (List.mem_cons_of_mem c h)
    show bsStep (buildWT r .Simple comp) c
        (backwardRange (buildWT r .Simple comp) Q).1
        (backwardRange (buildWT r .Simple comp) Q).2 = _
    rw [ih hQ]
    unfold bsStep
    have hf : (buildWT r .Simple comp).f c = shifts_f r c := by
      rw [buildWT_simple_f r comp hr.getLast_eq]
    have hrankx : ∀ x : Nat, x ≤ r.length →
        (if x = 0 then 0 else (buildWT r .Simple comp).rank c (x - 1))
          = occCount c ((bwtOf r).take x) := by
      intro x hx
      cases x with
      | zero => simp [occCount]
      | succ y =>
        rw [if_neg (by omega)]
        have : y + 1 - 1 = y := by omega
        rw [this, rank_built hr comp c (show y < r.length by omega)]
    have hlow : shifts_f r c + occCount c ((bwtOf r).take (lowerCount r Q))
        = lowerCount r (c :: Q) := by
      rw [occCount_bwt_cut hr hc (lowerCount_le Q), lowerCount_cons hr hc Q]
      have hpt : ∀ w ∈ List.range (r.length - 1),
          (fun w => decide (r.getD w Sym.dollar = c)
            && decide (rowOf r (w + 1) < lowerCount r Q)) w
          = (fun w => decide (r.getD w Sym.dollar = c)
            && decide (r.drop (w + 1) < Q)) w := by
        intro w hw
        have hwn : w + 1 < r.length := by
          have := List.mem_range.mp hw
          omega
        show (decide (r.getD w Sym.dollar = c)
            && decide (rowOf r (w + 1) < lowerCount r Q)) = _
        rw [decide_eq_decide.mpr (rowOf_lt_lowerCount hwn)]
      rw [countP_congr_bool hpt]
    have hupp : shifts_f r c
          + occCount c ((bwtOf r).take (lowerCount r Q + occTotal r Q))
        = lowerCount r (c :: Q) + occTotal r (c :: Q) := by
      rw [occCount_bwt_cut hr hc (upperCount_le Q), ← upperCount_split (c :: Q),
        upperCount_cons hr hc Q]
      have hpt : ∀ w ∈ List.range (r.length - 1),
          (fun w => decide (r.getD w Sym.dollar = c)
            && decide (rowOf r (w + 1) < lowerCount r Q + occTotal r Q)) w
          = (fun w => decide (r.getD w Sym.dollar = c)
            && (decide (r.drop (w + 1) < Q) || decide (Q <+: r.drop (w + 1)))) w := by
        intro w hw
        have hwn : w + 1 < r.length := by
          have := List.mem_range.mp hw
          omega
        show (decide (r.getD w Sym.dollar = c)
            && decide (rowOf r (w + 1) < lowerCount r Q + occTotal r Q)) = _
        have hiff := rowOf_lt_upperCount hr hQ hwn
        rw [upperCount_split Q] at hiff
        rw [decide_eq_decide.mpr hiff, Bool.decide_or]
      rw [countP_congr_bool hpt]
    show ((buildWT r .Simple comp).f c
        + (if lowerCount r Q = 0 then 0
           else (buildWT r .Simple comp).rank c (lowerCount r Q - 1)),
      (buildWT r .Simple comp).f c
        + (if lowerCount r Q + occTotal r Q = 0 then 0
           else (buildWT r .Simple comp).rank c (lowerCount r Q + occTotal r Q - 1)))
      = (lowerCount r (c :: Q), lowerCount r (c :: Q) + occTotal r (c :: Q))
    rw [hf, hrankx (lowerCount r Q) (lowerCount_le Q),
      hrankx (lowerCount r Q + occTotal r Q) (upperCount_le Q), hlow, hupp]

/-- A pattern prefixing a suffix is never lexicographically above it. -/
theorem not_lt_of_pre {Q s : List Sym} (h : Q <+: s) : ¬ s < Q := by
  obtain ⟨t, rfl⟩ := h
  exact not_append_lt Q t

/-- Modelled from the spec: `locate` (on an in-alphabet, sentinel-free
pattern) returns exactly the occurrence offsets. -/
theorem locateSyms_mem {r : List Sym} (hr : Valid r) {comp : Nat}
    (hc1 : 1 ≤ comp) {Q : List Sym} (hQ : Sym.dollar ∉ Q) (u : Nat) :
    u ∈ locateSyms (buildWT r .Simple comp) Q
      ↔ (u < r.length ∧ Q <+: r.drop u) := by
  unfold locateSyms
  rw [backwardRange_correct hr comp Q hQ]
  have hAP : lowerCount r Q + occTotal r Q - lowerCount r Q = occTotal r Q := by
    omega
  show u ∈ (List.range' (lowerCount r Q) (lowerCount r Q + occTotal r Q - lowerCount r Q)).map
      (fun k => ((buildWT r .Simple comp).get_sa k).getD 0) ↔ _
  rw [hAP, List.mem_map]
  constructor
  · rintro ⟨k, hk, hku⟩
    rw [List.mem_range'_1] at hk
    have hkn : k < r.length := by
      have := upperCount_le (r := r) Q
      omega
    rw [get_sa_built hr hc1 hkn] at hku
    have hval : u = (suffix_array_simple r).getD k 0 := by
      rw [← hku]
      rfl
    have hun : u < r.length := by
      rw [hval]
      apply sas_mem
      rw [List.getD_eq_getElem _ 0 (by rw [sas_length]; omega)]
      exact List.getElem_mem _
    have hrowu : rowOf r u = k := by
      rw [hval, rowOf_sas hkn]
    refine ⟨hun, ?_⟩
    have hup := (rowOf_lt_upperCount hr hQ hun).mp
      (by rw [upperCount_split Q, hrowu]; omega)
    rcases hup with h | h
    · have := (rowOf_lt_lowerCount hun).mpr h
      omega
    · exact h
  · rintro ⟨hun, hpre⟩
    refine ⟨rowOf r u, ?_, ?_⟩
    · rw [List.mem_range'_1]
      have hlo : ¬ rowOf r u < lowerCount r Q := by
        intro hcon
        exact not_lt_of_pre hpre ((rowOf_lt_lowerCount hun).mp hcon)
      have hhi : rowOf r u < lowerCount r Q + occTotal r Q := by
        rw [← upperCount_split Q]
        exact (rowOf_lt_upperCount hr hQ hun).mpr (Or.inr hpre)
      omega
    · have hrn : rowOf r u < r.length := rowOf_lt hun
      rw [get_sa_built hr hc1 hrn]
      show (suffix_array_simple r).getD (rowOf r u) 0 = u
      exact sas_rowOf hun

/-! ### Out-of-range queries (the fallible embedding) -/

theorem pyGetL_oob {α : Type} [Inhabited α] (l : List α) {i : Int}
    (h : (l.length : Int) ≤ i) : pyGetL l i = .error PyErr.indexError := by
  unfold pyGetL
  rw [if_neg (by omega), if_neg (by omega)]
  rfl

theorem except_bind_error_left {α β : Type} {a : Except PyErr α} {e : PyErr}
    (f : α → Except PyErr β) (h : a = .error e) : (a >>= f) = .error e := by
  rw [h]
  rfl

theorem except_bind_error {α β : Type} (a : Except PyErr α) (f : α → Except PyErr β)
    (h : ∀ v, a = .ok v → ∃ e, f v = .error e) :
    ∃ e, (a >>= f) = .error e := by
  cases ha : a with
  | error e => exact ⟨e, rfl⟩
  | ok v =>
    obtain ⟨e, he⟩ := h v ha
    exact ⟨e, he⟩

/-- `rank_bit_node` raises on an index at or beyond the node length (the
resident-bit subscription is out of range; an earlier scan or bucket
subscription may raise first). -/
theorem rank_bit_nodeE_oob (wt : WaveletTree) (node : Nat) {i : Int}
    (hstep : wt.bucket_step_bits.getD node 0 ≠ 0)
    (hi : (((wt.bits.getD node []).length : Int)) ≤ i) :
    ∃ e, rank_bit_nodeE wt i node = .error e := by
  unfold rank_bit_nodeE
  rw [if_neg hstep]
  refine except_bind_error _ _ ?_
  intro scan _
  refine except_bind_error _ _ ?_
  intro bv _
  refine ⟨PyErr.indexError, ?_⟩
  exact except_bind_error_left _ (pyGetL_oob _ hi)

/-- `access` raises on an index at or beyond the root length. -/
theorem accessE_oob (wt : WaveletTree) {i : Int}
    (hi : (((wt.bits.getD 0 []).length : Int)) ≤ i) :
    ∃ e, accessE wt i = .error e := by
  refine ⟨PyErr.indexError, ?_⟩
  show (pyGetL (wt.bits.getD 0 []) i >>= fun bit => accessLoopE wt 3 0 i bit)
    = Except.error PyErr.indexError
  exact except_bind_error_left _ (pyGetL_oob _ hi)

/-- `rank` raises on an index at or beyond the root length. -/
theorem rankE_oob (wt : WaveletTree) (c : Sym) {i : Int}
    (hstep : wt.bucket_step_bits.getD 0 0 ≠ 0)
    (hi : (((wt.bits.getD 0 []).length : Int)) ≤ i) :
    ∃ e, rankE wt c i = .error e := by
  obtain ⟨code, rest, hcodes⟩ : ∃ code rest, codes c = code :: rest := by
    cases c <;> exact ⟨_, _, rfl⟩
  unfold rankE
  rw [hcodes]
  obtain ⟨e, he⟩ := rank_bit_nodeE_oob wt 0 hstep hi
  refine ⟨e, ?_⟩
  show (rank_bit_nodeE wt i 0 >>= fun r0 =>
      pyGetL (wt.bits.getD 0 []) i >>= fun resident =>
        (let r := if resident ≠ code then i - r0 + 1 else r0
         if r = 0 then pure 0
         else
           match rest with
           | [] => pure r
           | _ :: _ => rankLoopE wt rest (childNode 0 code) (r - 1)))
    = Except.error e
  exact except_bind_error_left _ he

theorem bits0_len_built {r : List Sym} (hr : Valid r) (comp : Nat) :
    ((buildWT r .Simple comp).bits.getD 0 []).length = r.length := by
  rw [buildWT_simple_bits r comp hr.getLast_eq]
  have hb0 : (create_bit_vecs (bwtOf r)).1.getD 0 [] = (bwtOf r).map bitf0 := by
    simp [create_bit_vecs]
  rw [hb0, List.length_map, bwtOf_length]

theorem step0_built {r : List Sym} (hr : Valid r) (comp : Nat) :
    (buildWT r .Simple comp).bucket_step_bits.getD 0 0 = ilog2 r.length := by
  rw [buildWT_simple_step_bits r comp hr.getLast_eq]
  have hs0 : (create_bit_vecs (bwtOf r)).2.2.getD 0 0
      = ilog2 ((bwtOf r).map bitf0).length := by
    simp [create_bit_vecs]
  rw [hs0, List.length_map, bwtOf_length]

/-- `get_sa` raises on an index at or beyond `n` (both compression paths). -/
theorem get_saE_oob_built {r : List Sym} (hr : Valid r) {comp : Nat}
    (hc1 : 1 ≤ comp) {i : Int} (hi : (r.length : Int) ≤ i) :
    ∃ e, get_saE (buildWT r .Simple comp) i = .error e := by
  unfold get_saE
  by_cases h1 : comp = 1
  · subst h1
    rw [if_pos (buildWT_simple_comp r 1 hr.getLast_eq)]
    refine ⟨PyErr.indexError, ?_⟩
    refine except_bind_error_left _ (pyGetL_oob _ ?_)
    rw [buildWT_simple_sa1 r hr.getLast_eq, sas_length]
    exact hi
  · rw [if_neg (by rw [buildWT_simple_comp r comp hr.getLast_eq]; exact h1)]
    refine ⟨PyErr.indexError, ?_⟩
    refine except_bind_error_left _ ?_
    show bvE (buildWT r .Simple comp) i = _
    unfold bvE
    rw [buildWT_simple_bitvector r comp hr.getLast_eq h1]
    refine pyGetL_oob _ ?_
    rw [List.length_map, sas_length]
    exact hi

/-! ### Construction on invalid bytes -/

/-- `mapM` over a function whose only failure is `e` fails exactly so when
some element fails. -/
theorem mapM_error {α β : Type} (f : α → Except PyErr β) (e : PyErr)
    (hall : ∀ c, f c = .error e ∨ ∃ s, f c = .ok s) :
    ∀ {l : List α}, (∃ c ∈ l, f c = .error e) → l.mapM f = .error e := by
  intro l
  induction l with
  | nil =>
    rintro ⟨c, hc, _⟩
    simp at hc
  | cons a t ih =>
    rintro ⟨c, hc, herr⟩
    rw [List.mapM_cons]
    rcases List.mem_cons.mp hc with rfl | hct
    · rw [herr]
      rfl
    · rcases hall a with ha | ⟨s, ha⟩
      · rw [ha]
        rfl
      · rw [ha]
        have hred : ((Except.ok s : Except PyErr β) >>= fun x =>
            t.mapM f >>= fun xs => pure (x :: xs))
          = (t.mapM f >>= fun xs => pure (s :: xs)) := rfl
        rw [hred]
        exact except_bind_error_left _ (ih ⟨c, hct, herr⟩)

theorem toSymsE_error {l : List Char} (h : ∃ c ∈ l, charToSym c = none) :
    toSymsE l = .error PyErr.keyError := by
  obtain ⟨c, hc, hn⟩ := h
  refine mapM_error _ PyErr.keyError ?_ ⟨c, hc, ?_⟩
  · intro d
    cases hd : charToSym d with
    | none => exact Or.inl rfl
    | some s => exact Or.inr ⟨s, rfl⟩
  · rw [hn]
    rfl

theorem to_intE_error {l : List Char} (h : ∃ c ∈ l, charToSym c = none) :
    to_intE l = .error PyErr.keyError := by
  obtain ⟨c, hc, hn⟩ := h
  refine mapM_error _ PyErr.keyError ?_ ⟨c, hc, ?_⟩
  · intro d
    cases hd : charToSym d with
    | none => exact Or.inl rfl
    | some s => exact Or.inr ⟨s.toNat + 1, rfl⟩
  · rw [hn]
    rfl

/-- Construction on a byte outside the alphabet fails, whatever the
strategy: each builder path subscripts its symbol dictionary. -/
theorem initE_error (chars : List Char) (st : String) (comp : Int)
    (hbad : ∃ c ∈ chars, charToSym c = none) :
    ∃ e, initE chars st comp = .error e := by
  unfold initE
  by_cases hstrat : st = "KaerkkaeinenSanders" ∨ st = "ManberMyers" ∨ st = "Simple"
  · rw [if_neg (not_not_intro hstrat)]
    by_cases hlen : chars.length < 1
    · rw [if_pos hlen]
      exact ⟨PyErr.valueError, rfl⟩
    · rw [if_neg hlen]
      by_cases hcomp : comp < 1
      · rw [if_pos hcomp]
        exact ⟨PyErr.valueError, rfl⟩
      · rw [if_neg hcomp]
        have hbad2 : ∃ c ∈ (if chars.getLast? ≠ some '$' then chars ++ ['$'] else chars),
            charToSym c = none := by
          obtain ⟨c, hc, hn⟩ := hbad
          refine ⟨c, ?_, hn⟩
          split
          · exact List.mem_append_left _ hc
          · exact hc
        rcases hstrat with rfl | rfl | rfl
        · rw [if_neg (by decide), if_neg (by decide)]
          refine ⟨PyErr.keyError, ?_⟩
          exact except_bind_error_left _ (to_intE_error hbad2)
        · rw [if_neg (by decide), if_pos rfl]
          refine ⟨PyErr.keyError, ?_⟩
          exact except_bind_error_left _ (toSymsE_error hbad2)
        · rw [if_pos rfl]
          refine ⟨PyErr.keyError, ?_⟩
          rw [pure_bind]
          exact except_bind_error_left _ (toSymsE_error hbad2)
  · rw [if_pos hstrat]
    exact ⟨PyErr.valueError, rfl⟩

/-! ### Bucket strides of the wavelet-tree nodes -/

/-- The stored strides: nodes 1-4 use `max(log2, 1)`; node 0 has the same
form only when the BWT has length at least 2. -/
theorem step_bits_formula (s : List Sym) (k : Nat) (hk : k < 5)
    (h0 : k = 0 → 2 ≤ s.length)
    (hne : (create_bit_vecs s).1.getD k [] ≠ []) :
    (create_bit_vecs s).2.2.getD k 0
      = max (ilog2 ((create_bit_vecs s).1.getD k []).length) 1 := by
  interval_cases k
  · have hlen : ((create_bit_vecs s).1.getD 0 []).length = s.length := by
      simp [create_bit_vecs]
    have hstep : (create_bit_vecs s).2.2.getD 0 0 = ilog2 s.length := by
      simp [create_bit_vecs]
    rw [hlen, hstep]
    exact (Nat.max_eq_left (ilog2_pos (h0 rfl))).symm
  · have hb : (create_bit_vecs s).1.getD 1 [] = (s.filter keepNA).map bitf1 := by
      simp [create_bit_vecs]
    rw [hb] at hne ⊢
    have hpos : 0 < ((s.filter keepNA).map bitf1).length :=
      List.length_pos_of_ne_nil hne
    have hstep : (create_bit_vecs s).2.2.getD 1 0
        = max (ilog2 ((s.filter keepNA).map bitf1).length) 1 := by
      simp only [create_bit_vecs]
      rw [List.getD_eq_getElem _ 0 (by simp)]
      show (if 0 < ((s.filter keepNA).map bitf1).length
        then max (ilog2 ((s.filter keepNA).map bitf1).length) 1 else 0) = _
      rw [if_pos hpos]
    exact hstep
  · have hb : (create_bit_vecs s).1.getD 2 []
        = (s.filter (fun c => !(keepNA c))).map bitf2 := by
      simp [create_bit_vecs]
    rw [hb] at hne ⊢
    have hpos : 0 < ((s.filter (fun c => !(keepNA c))).map bitf2).length :=
      List.length_pos_of_ne_nil hne
    have hstep : (create_bit_vecs s).2.2.getD 2 0
        = max (ilog2 ((s.filter (fun c => !(keepNA c))).map bitf2).length) 1 := by
      simp only [create_bit_vecs]
      rw [List.getD_eq_getElem _ 0 (by simp)]
      show (if 0 < ((s.filter (fun c => !(keepNA c))).map bitf2).length
        then max (ilog2 ((s.filter (fun c => !(keepNA c))).map bitf2).length) 1 else 0) = _
      rw [if_pos hpos]
    exact hstep
  · have hb : (create_bit_vecs s).1.getD 3 []
        = ((s.filter (fun c => !(keepNA c))).filter keepCG).map bitf3 := by
      simp [create_bit_vecs]
    rw [hb] at hne ⊢
    have hpos : 0 < (((s.filter (fun c => !(keepNA c))).filter keepCG).map bitf3).length :=
      List.length_pos_of_ne_nil hne
    have hstep : (create_bit_vecs s).2.2.getD 3 0
        = max (ilog2 (((s.filter (fun c => !(keepNA c))).filter keepCG).map bitf3).length)
            1 := by
      simp only [create_bit_vecs]
      rw [List.getD_eq_getElem _ 0 (by simp)]
      show (if 0 < (((s.filter (fun c => !(keepNA c))).filter keepCG).map bitf3).length
        then max
          (ilog2 (((s.filter (fun c => !(keepNA c))).filter keepCG).map bitf3).length) 1
        else 0) = _
      rw [if_pos hpos]
    exact hstep
  · have hb : (create_bit_vecs s).1.getD 4 []
        = ((s.filter (fun c => !(keepNA c))).filter keepTD).map bitf4 := by
      simp [create_bit_vecs]
    rw [hb] at hne ⊢
    have hpos : 0 < (((s.filter (fun c => !(keepNA c))).filter keepTD).map bitf4).length :=
      List.length_pos_of_ne_nil hne
    have hstep : (create_bit_vecs s).2.2.getD 4 0
        = max (ilog2 (((s.filter (fun c => !(keepNA c))).filter keepTD).map bitf4).length)
            1 := by
      simp only [create_bit_vecs]
      rw [List.getD_eq_getElem _ 0 (by simp)]
      show (if 0 < (((s.filter (fun c => !(keepNA c))).filter keepTD).map bitf4).length
        then max
          (ilog2 (((s.filter (fun c => !(keepNA c))).filter keepTD).map bitf4).length) 1
        else 0) = _
      rw [if_pos hpos]
    exact hstep

/-- Normalization of an unterminated reference appends the sentinel. -/
theorem buildWT_append_dollar (t : List Sym) (hne : t.getLast? ≠ some Sym.dollar)
    (st : Strategy) (comp : Nat) :
    buildWT t st comp = buildWT (t ++ [Sym.dollar]) st comp := by
  simp only [buildWT]
  rw [if_pos hne, if_neg (by simp [List.getLast?_concat])]

/-! ## The claims -/

/-- C1: for every valid sentinel-terminated reference, symbol `c` and index
`i < n`, `rank(c, i)` on the constructed index (Simple builder, any sample
rate) returns the number of occurrences of `c` in `BWT[0..i]` inclusive. -/
theorem C1_rank_counts (r : List Sym) (hr : Valid r) (comp : Nat) (c : Sym)
    {i : Nat} (hi : i < r.length) :
    (buildWT r .Simple comp).rank c i = occCount c ((bwtOf r).take (i + 1)) :=
  rank_built hr comp c hi

theorem C1_rank_counts_witness :
    Valid [Sym.A, Sym.dollar] ∧
      (buildWT [Sym.A, Sym.dollar] .Simple 1).rank Sym.A 1
        = occCount Sym.A ((bwtOf [Sym.A, Sym.dollar]).take (1 + 1)) :=
  ⟨⟨[Sym.A], by decide, by decide, rfl⟩,
    C1_rank_counts [Sym.A, Sym.dollar] ⟨[Sym.A], by decide, by decide, rfl⟩ 1 Sym.A
      (by decide)⟩

/-- C2: for every valid reference, sample rate `s ≥ 1` and index `i < n`,
`get_sa(i)` on an index built with `compression_sa = s` returns the full
(rate-1) suffix-array entry `SA[i]`. -/
theorem C2_get_sa_agrees (r : List Sym) (hr : Valid r) {s : Nat} (hs : 1 ≤ s)
    {i : Nat} (hi : i < r.length) :
    (buildWT r .Simple s).get_sa i = some ((buildWT r .Simple 1).sa.getD i 0) := by
  rw [get_sa_built hr hs hi, buildWT_simple_sa1 r hr.getLast_eq]

theorem C2_get_sa_agrees_witness :
    Valid [Sym.A, Sym.dollar] ∧
      (buildWT [Sym.A, Sym.dollar] .Simple 2).get_sa 0
        = some ((buildWT [Sym.A, Sym.dollar] .Simple 1).sa.getD 0 0) :=
  ⟨⟨[Sym.A], by decide, by decide, rfl⟩,
    C2_get_sa_agrees [Sym.A, Sym.dollar] ⟨[Sym.A], by decide, by decide, rfl⟩
      (by decide) (by decide)⟩

/-- C3 counterexample: on the already-terminated valid input `"A$"` the
reverse transform returns `"A"`, not the input itself, falsifying the
literal round-trip `reconstruct(build(T)) == T`. -/
theorem C3_roundtrip_cex :
    (buildWT [Sym.A, Sym.dollar] .Simple 1).reconstruct ≠ [Sym.A, Sym.dollar] := by
  decide

/-- C3 (amended): the reverse transform strips the sentinel: on a nonempty
sentinel-free body `t`, terminated or not, `__str__` returns exactly `t`
(length `n - 1`). -/
theorem C3_roundtrip (t : List Sym) (ht : t ≠ []) (hd : Sym.dollar ∉ t)
    (b : Bool) (comp : Nat) :
    (buildWT (if b then t ++ [Sym.dollar] else t) .Simple comp).reconstruct = t := by
  have hval : Valid (t ++ [Sym.dollar]) := ⟨t, ht, hd, rfl⟩
  have hlen : (t ++ [Sym.dollar]).length - 1 = t.length := by
    simp
  have hmain : (buildWT (t ++ [Sym.dollar]) .Simple comp).reconstruct = t := by
    rw [reconstruct_built hval comp, hlen, List.take_left]
  cases b with
  | true => simpa using hmain
  | false =>
    have hne : t.getLast? ≠ some Sym.dollar := by
      intro hcon
      exact hd ( List.mem_of_mem_getLast? (Option.mem_def.mpr hcon))
    show (buildWT t .Simple comp).reconstruct = t
    rw [buildWT_append_dollar t hne .Simple comp]
    exact hmain

theorem C3_roundtrip_witness :
    ([Sym.A] ≠ ([] : List Sym) ∧ Sym.dollar ∉ [Sym.A]) ∧
      (buildWT (if true then [Sym.A] ++ [Sym.dollar] else [Sym.A]) .Simple 1).reconstruct
        = [Sym.A] :=
  ⟨⟨by decide, by decide⟩, C3_roundtrip [Sym.A] (by decide) (by decide) true 1⟩

/-- C5 counterexample: `locate` (modelled from spec 4.7) on the pattern
`"$A"` over the reference `"AG"` returns the offset 2, which is not an
occurrence of the pattern in the sentinel-terminated reference. -/
theorem C5_locate_cex :
    locate (buildWT [Sym.A, Sym.G] .Simple 1) ['$', 'A'] = [2] ∧
      ¬ [Sym.dollar, Sym.A] <+: ([Sym.A, Sym.G, Sym.dollar].drop 2) := by
  constructor
  · decide
  · decide

/-- C5 (amended; `locate`/`count` modelled from spec 4.7): on a
sentinel-free in-alphabet pattern the backward search returns exactly the
occurrence offsets, the interval width is the occurrence count, and a
pattern with a byte outside the alphabet yields the empty result. -/
theorem C5_locate (r : List Sym) (hr : Valid r) {comp : Nat} (hc1 : 1 ≤ comp)
    {Q : List Sym} (hQ : Sym.dollar ∉ Q) :
    (∀ u, u ∈ locateSyms (buildWT r .Simple comp) Q
        ↔ (u < r.length ∧ Q <+: r.drop u)) ∧
      (backwardRange (buildWT r .Simple comp) Q).2
          - (backwardRange (buildWT r .Simple comp) Q).1
        = occTotal r Q ∧
      (∀ pattern : List Char, pattern.mapM charToSym = none →
        locate (buildWT r .Simple comp) pattern = []) := by
  refine ⟨fun u => locateSyms_mem hr hc1 hQ u, ?_, ?_⟩
  · rw [backwardRange_correct hr comp Q hQ]
    show lowerCount r Q + occTotal r Q - lowerCount r Q = occTotal r Q
    omega
  · intro pattern hp
    unfold locate
    rw [hp]

theorem C5_locate_witness :
    Valid [Sym.A, Sym.dollar] ∧
      (0 ∈ locateSyms (buildWT [Sym.A, Sym.dollar] .Simple 1) [Sym.A]
        ↔ (0 < [Sym.A, Sym.dollar].length ∧ [Sym.A] <+: [Sym.A, Sym.dollar].drop 0)) :=
  ⟨⟨[Sym.A], by decide, by decide, rfl⟩,
    (C5_locate [Sym.A, Sym.dollar] ⟨[Sym.A], by decide, by decide, rfl⟩
      (by decide) (by decide)).1 0⟩

/-- C6 counterexample: over the reference `"A$"` the BWT starts with `A`
(a symbol of the claimed right class), yet the stored root bit is 0. -/
theorem C6_rootbit_cex :
    (bwtOf [Sym.A, Sym.dollar]).getD 0 Sym.dollar = Sym.A ∧
      ((buildWT [Sym.A, Sym.dollar] .Simple 1).bits.getD 0 []).getD 0 false = false := by
  constructor
  · decide
  · decide

/-- C6 (amended): the root bit is 1 exactly when the BWT character is one of
`C`, `G`, `T`, `$` (both `A` and `N` are routed left with bit 0). -/
theorem C6_rootbit (r : List Sym) (hr : Valid r) (comp : Nat) {i : Nat}
    (hi : i < r.length) :
    (((buildWT r .Simple comp).bits.getD 0 []).getD i false = true
      ↔ (bwtOf r).getD i Sym.dollar ∈ [Sym.C, Sym.G, Sym.T, Sym.dollar]) := by
  have hlen : i < (nodeSeq (bwtOf r) 0).length := by
    show i < (bwtOf r).length
    rw [bwtOf_length]
    exact hi
  rw [bits_getD (buildWT r .Simple comp) (bwtOf r)
    (buildWT_simple_bits r comp hr.getLast_eq) 0 (by omega) hlen]
  show nodeBitf 0 ((nodeSeq (bwtOf r) 0).getD i Sym.dollar) = true
    ↔ (nodeSeq (bwtOf r) 0).getD i Sym.dollar ∈ [Sym.C, Sym.G, Sym.T, Sym.dollar]
  generalize (nodeSeq (bwtOf r) 0).getD i Sym.dollar = x
  revert x
  decide

theorem C6_rootbit_witness :
    Valid [Sym.A, Sym.dollar] ∧
      (((buildWT [Sym.A, Sym.dollar] .Simple 1).bits.getD 0 []).getD 0 false = true
        ↔ (bwtOf [Sym.A, Sym.dollar]).getD 0 Sym.dollar
            ∈ [Sym.C, Sym.G, Sym.T, Sym.dollar]) :=
  ⟨⟨[Sym.A], by decide, by decide, rfl⟩,
    C6_rootbit [Sym.A, Sym.dollar] ⟨[Sym.A], by decide, by decide, rfl⟩ 1 (by decide)⟩

/-- C7 counterexample: `access(-1)` on the index of `"A$"` wraps around like
any Python subscript and returns `'$'` instead of raising. -/
theorem C7_range_cex :
    accessE (buildWT [Sym.A, Sym.dollar] .Simple 1) (-1) = .ok Sym.dollar := by
  rfl

/-- C7 (amended): a query index at or beyond `n` raises synchronously in
`access`, `rank` and `get_sa`; a negative index wraps around as a Python
subscript instead of raising. -/
theorem C7_range (r : List Sym) (hr : Valid r) {comp : Nat} (hc1 : 1 ≤ comp)
    (c : Sym) {i : Int} (hi : (r.length : Int) ≤ i) :
    (∃ e, accessE (buildWT r .Simple comp) i = .error e) ∧
      (∃ e, rankE (buildWT r .Simple comp) c i = .error e) ∧
      (∃ e, get_saE (buildWT r .Simple comp) i = .error e) := by
  have hb0 : (((buildWT r .Simple comp).bits.getD 0 []).length : Int) ≤ i := by
    rw [bits0_len_built hr comp]
    exact hi
  refine ⟨accessE_oob _ hb0, rankE_oob _ c ?_ hb0, get_saE_oob_built hr hc1 hi⟩
  rw [step0_built hr comp]
  have := ilog2_pos hr.two_le
  omega

theorem C7_range_witness :
    Valid [Sym.A, Sym.dollar] ∧
      ((∃ e, accessE (buildWT [Sym.A, Sym.dollar] .Simple 1) 2 = .error e) ∧
        (∃ e, rankE (buildWT [Sym.A, Sym.dollar] .Simple 1) Sym.A 2 = .error e) ∧
        (∃ e, get_saE (buildWT [Sym.A, Sym.dollar] .Simple 1) 2 = .error e)) :=
  ⟨⟨[Sym.A], by decide, by decide, rfl⟩,
    C7_range [Sym.A, Sym.dollar] ⟨[Sym.A], by decide, by decide, rfl⟩
      (by decide) Sym.A (by decide)⟩

/-- C8: construction on an input containing a byte outside the alphabet
raises for every strategy and never returns an index object. -/
theorem C8_invalid_byte (chars : List Char) (st : String) (comp : Int)
    (hbad : ∃ c ∈ chars, charToSym c = none) :
    ∃ e, initE chars st comp = .error e :=
  initE_error chars st comp hbad

theorem C8_invalid_byte_witness :
    (∃ c ∈ ['A', 'X', 'G'], charToSym c = none) ∧
      ∃ e, initE ['A', 'X', 'G'] "Simple" 1 = .error e :=
  ⟨⟨'X', by decide, by decide⟩,
    C8_invalid_byte ['A', 'X', 'G'] "Simple" 1 ⟨'X', by decide, by decide⟩⟩

/-- C9 counterexample: the one-character reference `"$"` gives a non-empty
root bit vector whose stored stride is 0, not `max(⌊log2 1⌋, 1) = 1`
(node 0 omits the `max(..., 1)` guard). -/
theorem C9_stride_cex :
    ((buildWT [Sym.dollar] .Simple 1).bits.getD 0 []).length = 1 ∧
      (buildWT [Sym.dollar] .Simple 1).bucket_step_bits.getD 0 0 = 0 := by
  constructor
  · decide
  · decide

/-- C9 (amended): over a valid reference (normalized length at least 2)
every non-empty node `k < 5` stores the stride `max(⌊log2 |Bk|⌋, 1)`; the
guard is genuinely missing at node 0 only for a length-1 reference. -/
theorem C9_stride (r : List Sym) (hr : Valid r) (comp : Nat) (k : Nat)
    (hk : k < 5) (hne : (buildWT r .Simple comp).bits.getD k [] ≠ []) :
    (buildWT r .Simple comp).bucket_step_bits.getD k 0
      = max (ilog2 (((buildWT r .Simple comp).bits.getD k []).length)) 1 := by
  rw [buildWT_simple_bits r comp hr.getLast_eq] at hne ⊢
  rw [buildWT_simple_step_bits r comp hr.getLast_eq]
  exact step_bits_formula (bwtOf r) k hk
    (fun _ => by rw [bwtOf_length]; exact hr.two_le) hne

theorem C9_stride_witness :
    Valid [Sym.A, Sym.dollar] ∧
      (buildWT [Sym.A, Sym.dollar] .Simple 1).bucket_step_bits.getD 0 0
        = max (ilog2 (((buildWT [Sym.A, Sym.dollar] .Simple 1).bits.getD 0 []).length))
            1 :=
  ⟨⟨[Sym.A], by decide, by decide, rfl⟩,
    C9_stride [Sym.A, Sym.dollar] ⟨[Sym.A], by decide, by decide, rfl⟩ 1 0
      (by decide) (by decide)⟩

/-- C10: for every valid reference, sample rate `s > 1` and row `i < n`, the
LF walk of `get_sa` terminates within `n - 1` iterations: with fuel `n - 1`
it returns the full SA entry. -/
theorem C10_walk_terminates (r : List Sym) (hr : Valid r) {s : Nat} (hs : 2 ≤ s)
    {i : Nat} (hi : i < r.length) :
    (buildWT r .Simple s).get_saF (r.length - 1) i
      = some ((suffix_array_simple r).getD i 0) := by
  refine get_saF_built hr (by omega) hi ?_
  have hvlt : (suffix_array_simple r).getD i 0 < r.length := by
    apply sas_mem
    rw [List.getD_eq_getElem _ 0 (by rw [sas_length]; omega)]
    exact List.getElem_mem _
  calc (suffix_array_simple r).getD i 0 % s
      ≤ (suffix_array_simple r).getD i 0 := Nat.mod_le _ _
  _ ≤ r.length - 1 := by omega

theorem C10_walk_terminates_witness :
    Valid [Sym.A, Sym.dollar] ∧
      (buildWT [Sym.A, Sym.dollar] .Simple 2).get_saF 1 0
        = some ((suffix_array_simple [Sym.A, Sym.dollar]).getD 0 0) :=
  ⟨⟨[Sym.A], by decide, by decide, rfl⟩,
    C10_walk_terminates [Sym.A, Sym.dollar] ⟨[Sym.A], by decide, by decide, rfl⟩
      (by decide) (by decide)⟩

end Humdum
